import Mathlib

/-!
MiniLang front end: scanner and recursive-descent recognizer

A shallow embedding of `2020478_Assignment2.cpp`.

* A source string is a `List Char`, one element per `char` of the C++
  `std::string`; the character classes are those of the "C" locale, which is
  the one in force since the program never calls `setlocale`. In that locale
  a `char` outside ASCII is neither a letter, a digit nor a space, and so is
  every `Char` above 127 here.
* A loop over the source is a structural recursion whose bound is the number
  of characters left, which the loop cannot exceed.
* The scanner's only state is `currentPos`; `getNextToken` takes it and
  returns the token together with the new position.
* The parser's state is `currentTokenIndex` plus the lines written to `cout`.
  The mutually recursive rules are structurally recursive on a fuel argument
  and return `none` only when the fuel runs out.
-/

namespace MiniLang

/-! ## Data model -/

/-- The token kinds, `enum class TokenType`. -/
inductive TokenType where
  | INTEGER
  | BOOLEAN
  | IDENTIFIER
  | OPERATOR
  | KEYWORD
  | COMMENT
  | END_OF_FILE
  deriving DecidableEq, Repr

/-- A token, `struct Token`: its kind and its text. -/
structure Token where
  type : TokenType
  value : String
  deriving DecidableEq, Repr

/-! ## Scanner -/

/-- The `isdigit` of the C locale, as used by `Scanner::isDigit`. -/
def isDigit (c : Char) : Bool :=
  decide (48 ≤ c.toNat) && decide (c.toNat ≤ 57)

/-- The `isalpha` of the C locale or an underscore, `Scanner::isAlpha`. -/
def isAlpha (c : Char) : Bool :=
  (decide (65 ≤ c.toNat) && decide (c.toNat ≤ 90))
    || (decide (97 ≤ c.toNat) && decide (c.toNat ≤ 122))
    || c == '_'

/-- The `isspace` of the C locale: space, `\t`, `\n`, `\v`, `\f`, `\r`. -/
def isSpace (c : Char) : Bool :=
  c.toNat == 32 || (decide (9 ≤ c.toNat) && decide (c.toNat ≤ 13))

/-- The loop `while (currentPos < sourceCode.size() && p(sourceCode[currentPos])) currentPos++`.
The first argument bounds the number of iterations; every caller passes
`sourceCode.length - currentPos`, which the loop cannot exceed. -/
def advanceWhile (p : Char → Bool) (sourceCode : List Char) : Nat → Nat → Nat
  | 0, currentPos => currentPos
  | n + 1, currentPos =>
    match sourceCode[currentPos]? with
    | some c => if p c then advanceWhile p sourceCode n (currentPos + 1) else currentPos
    | none => currentPos

/-- The call `sourceCode.substr(startPos, currentPos - startPos)`. -/
def substr (sourceCode : List Char) (startPos len : Nat) : String :=
  String.mk ((sourceCode.drop startPos).take len)

/-- The position after `Scanner::skipWhitespace`. -/
def skipWhitespace (sourceCode : List Char) (currentPos : Nat) : Nat :=
  advanceWhile isSpace sourceCode (sourceCode.length - currentPos) currentPos

/-- The five reserved words tested in `readIdentifierOrKeyword`. -/
def isKeywordText (identifier : String) : Bool :=
  identifier == "if" || identifier == "else" || identifier == "print"
    || identifier == "true" || identifier == "false"

/-- The function `Scanner::readIdentifierOrKeyword`: token and new position. -/
def readIdentifierOrKeyword (sourceCode : List Char) (startPos : Nat) : Token × Nat :=
  let currentPos := advanceWhile (fun c => isAlpha c || isDigit c) sourceCode
    (sourceCode.length - startPos) startPos
  let identifier := substr sourceCode startPos (currentPos - startPos)
  if isKeywordText identifier then
    (⟨TokenType.KEYWORD, identifier⟩, currentPos)
  else
    (⟨TokenType.IDENTIFIER, identifier⟩, currentPos)

/-- The function `Scanner::readNumber`. -/
def readNumber (sourceCode : List Char) (startPos : Nat) : Token × Nat :=
  let currentPos := advanceWhile isDigit sourceCode (sourceCode.length - startPos) startPos
  (⟨TokenType.INTEGER, substr sourceCode startPos (currentPos - startPos)⟩, currentPos)

/-- The function `Scanner::readOperator`, called with `op = sourceCode[currentPos]`. -/
def readOperator (op : Char) (currentPos : Nat) : Token × Nat :=
  (⟨TokenType.OPERATOR, String.mk [op]⟩, currentPos + 1)

/-- The function `Scanner::readComment`: from the `#` up to the next newline. -/
def readComment (sourceCode : List Char) (startPos : Nat) : Token × Nat :=
  let currentPos := advanceWhile (fun c => c != '\n') sourceCode
    (sourceCode.length - startPos) startPos
  (⟨TokenType.COMMENT, substr sourceCode startPos (currentPos - startPos)⟩, currentPos)

/-- The function `Scanner::getNextToken`, from position `pos`: the token
returned and the value of `currentPos` afterwards. -/
def getNextToken (sourceCode : List Char) (pos : Nat) : Token × Nat :=
  let currentPos := skipWhitespace sourceCode pos
  match sourceCode[currentPos]? with
  | none => (⟨TokenType.END_OF_FILE, ""⟩, currentPos)
  | some currentChar =>
    if isAlpha currentChar then
      readIdentifierOrKeyword sourceCode currentPos
    else if isDigit currentChar then
      readNumber sourceCode currentPos
    else if currentChar = '+' ∨ currentChar = '-' ∨ currentChar = '*' ∨ currentChar = '/' then
      readOperator currentChar currentPos
    else if currentChar = '(' ∨ currentChar = ')' then
      (⟨TokenType.OPERATOR, String.mk [currentChar]⟩, currentPos + 1)
    else if currentChar = '=' then
      (⟨TokenType.OPERATOR, "="⟩, currentPos + 1)
    else if currentChar = ';' then
      (⟨TokenType.OPERATOR, ";"⟩, currentPos + 1)
    else if currentChar = '#' then
      readComment sourceCode currentPos
    else
      (⟨TokenType.OPERATOR, String.mk [currentChar]⟩, currentPos + 1)

/-- The token-collecting loop of `main`: call `getNextToken` until it returns
`END_OF_FILE`, keeping the tokens before it. One unit of fuel per call;
`none` when the fuel runs out first. -/
def collectTokens (sourceCode : List Char) : Nat → Nat → Option (List Token)
  | 0, _ => none
  | fuel + 1, pos =>
    let r := getNextToken sourceCode pos
    if r.1.type = TokenType.END_OF_FILE then some []
    else
      match collectTokens sourceCode fuel r.2 with
      | some rest => some (r.1 :: rest)
      | none => none

/-- The token vector `main` builds for a source string. Every call but the
last consumes a character, so `length + 1` calls are enough. -/
def tokenize (sourceCode : List Char) : Option (List Token) :=
  collectTokens sourceCode (sourceCode.length + 1) 0

/-- The scan cursor after `k` further calls of `getNextToken` from `pos`. -/
def cursorAfter (sourceCode : List Char) : Nat → Nat → Nat
  | 0, pos => pos
  | k + 1, pos => cursorAfter sourceCode k (getNextToken sourceCode pos).2

/-- The source text rebuilt from whitespace runs `w0, ..., wn` and tokens
`t1, ..., tn`: `w0 ++ t1.value ++ w1 ++ ... ++ tn.value ++ wn`. -/
def weave : List (List Char) → List Token → List Char
  | [w], [] => w
  | w :: ws, t :: ts => w ++ t.value.data ++ weave ws ts
  | _, _ => []

/-- Comments are tokens of their own: in the decomposition
`w0 ++ t1.value ++ w1 ++ ...` a token is a `COMMENT` exactly when its text
starts with `#`, and then its text holds no newline and what follows it in
the source is nothing or starts with a newline. -/
def commentsVerbatim : List (List Char) → List Token → Prop
  | _ :: ws, t :: ts =>
      (t.type = TokenType.COMMENT ↔ t.value.data.head? = some '#')
      ∧ (t.type = TokenType.COMMENT →
          '\n' ∉ t.value.data ∧ ∀ c, (weave ws ts).head? = some c → c = '\n')
      ∧ commentsVerbatim ws ts
  | _, _ => True

/-! ## Parser -/

/-- The mutable state of `class Parser`: the cursor into the token vector and,
as the observable effect, the lines written to `cout` so far. -/
structure Parser where
  currentTokenIndex : Nat
  output : List String
  deriving DecidableEq, Repr

/-- The function `Parser::getCurrentToken`: the token under the cursor, or a
synthesized `END_OF_FILE` token past the end. -/
def getCurrentToken (tokens : List Token) (p : Parser) : Token :=
  match tokens[p.currentTokenIndex]? with
  | some t => t
  | none => ⟨TokenType.END_OF_FILE, ""⟩

/-- The function `Parser::consumeToken`. -/
def consumeToken (p : Parser) : Parser :=
  { p with currentTokenIndex := p.currentTokenIndex + 1 }

/-- The statement `cout << msg << found << endl`. -/
def report (msg found : String) (p : Parser) : Parser :=
  { p with output := p.output ++ [msg ++ found] }

/-- Every error branch of the parser: print the diagnostic with the text of
the current token, then `consumeToken()`. -/
def syntaxError (tokens : List Token) (msg : String) (p : Parser) : Parser :=
  consumeToken (report msg (getCurrentToken tokens p).value p)

mutual

/-- The rule `Parser::factor`. -/
def factor (tokens : List Token) : Nat → Parser → Option Parser
  | 0, _ => none
  | fuel + 1, p =>
    let currentToken := getCurrentToken tokens p
    if currentToken.type = TokenType.INTEGER ∨ currentToken.type = TokenType.IDENTIFIER then
      some (consumeToken p)
    else if currentToken.value = "(" then
      match expression tokens fuel (consumeToken p) with
      | none => none
      | some p1 =>
        if (getCurrentToken tokens p1).value = ")" then
          some (consumeToken p1)
        else
          some (syntaxError tokens "Syntax error: Expected ')', found " p1)
    else
      some (syntaxError tokens "Syntax error: Unexpected token " p)

/-- The `while` loop of `Parser::term`. -/
def termLoop (tokens : List Token) : Nat → Parser → Option Parser
  | 0, _ => none
  | fuel + 1, p =>
    if (getCurrentToken tokens p).value = "*" ∨ (getCurrentToken tokens p).value = "/" then
      match factor tokens fuel (consumeToken p) with
      | none => none
      | some p1 => termLoop tokens fuel p1
    else
      some p

/-- The rule `Parser::term`. -/
def term (tokens : List Token) : Nat → Parser → Option Parser
  | 0, _ => none
  | fuel + 1, p =>
    match factor tokens fuel p with
    | none => none
    | some p1 => termLoop tokens fuel p1

/-- The `while` loop of `Parser::expression`. -/
def expressionLoop (tokens : List Token) : Nat → Parser → Option Parser
  | 0, _ => none
  | fuel + 1, p =>
    if (getCurrentToken tokens p).value = "+" ∨ (getCurrentToken tokens p).value = "-" then
      match term tokens fuel (consumeToken p) with
      | none => none
      | some p1 => expressionLoop tokens fuel p1
    else
      some p

/-- The rule `Parser::expression`. -/
def expression (tokens : List Token) : Nat → Parser → Option Parser
  | 0, _ => none
  | fuel + 1, p =>
    match term tokens fuel p with
    | none => none
    | some p1 => expressionLoop tokens fuel p1

end

/-- The tail shared by `assignment` and `printStatement`: after the
expression, a `;` is consumed, anything else is reported and consumed. -/
def expectSemicolon (tokens : List Token) (p : Parser) : Parser :=
  if (getCurrentToken tokens p).value = ";" then
    consumeToken p
  else
    syntaxError tokens "Syntax error: Expected ';', found " p

/-- The rule `Parser::assignment`. -/
def assignment (tokens : List Token) (fuel : Nat) (p : Parser) : Option Parser :=
  let p1 := consumeToken p
  if (getCurrentToken tokens p1).value = "=" then
    match expression tokens fuel (consumeToken p1) with
    | none => none
    | some p2 => some (expectSemicolon tokens p2)
  else
    some (syntaxError tokens "Syntax error: Expected '=', found " p1)

/-- The rule `Parser::printStatement`. -/
def printStatement (tokens : List Token) (fuel : Nat) (p : Parser) : Option Parser :=
  match expression tokens fuel (consumeToken p) with
  | none => none
  | some p1 => some (expectSemicolon tokens p1)

mutual

/-- The rule `Parser::program`. -/
def program (tokens : List Token) : Nat → Parser → Option Parser
  | 0, _ => none
  | fuel + 1, p =>
    if (getCurrentToken tokens p).type ≠ TokenType.END_OF_FILE then
      statement tokens fuel p
    else
      some p

/-- The rule `Parser::statement`. -/
def statement (tokens : List Token) : Nat → Parser → Option Parser
  | 0, _ => none
  | fuel + 1, p =>
    let currentToken := getCurrentToken tokens p
    if currentToken.type = TokenType.IDENTIFIER then
      assignment tokens fuel p
    else if currentToken.type = TokenType.KEYWORD ∧ currentToken.value = "if" then
      conditional tokens fuel p
    else if currentToken.type = TokenType.KEYWORD ∧ currentToken.value = "print" then
      printStatement tokens fuel p
    else
      some (syntaxError tokens "Syntax error: Unexpected token " p)

/-- The rule `Parser::conditional`. -/
def conditional (tokens : List Token) : Nat → Parser → Option Parser
  | 0, _ => none
  | fuel + 1, p =>
    let p1 := consumeToken p
    if (getCurrentToken tokens p1).value = "(" then
      match expression tokens fuel (consumeToken p1) with
      | none => none
      | some p2 =>
        if (getCurrentToken tokens p2).value = ")" then
          let p3 := consumeToken p2
          if (getCurrentToken tokens p3).value = "\x7b" then
            match program tokens fuel (consumeToken p3) with
            | none => none
            | some p4 =>
              if (getCurrentToken tokens p4).value = "\x7d" then
                let p5 := consumeToken p4
                if (getCurrentToken tokens p5).value = "else" then
                  let p6 := consumeToken p5
                  if (getCurrentToken tokens p6).value = "\x7b" then
                    match program tokens fuel (consumeToken p6) with
                    | none => none
                    | some p7 =>
                      if (getCurrentToken tokens p7).value = "\x7d" then
                        some (consumeToken p7)
                      else
                        some (syntaxError tokens "Syntax error: Expected '\x7d', found " p7)
                  else
                    some (syntaxError tokens "Syntax error: Expected '\x7b' after else, found " p6)
                else
                  some p5
              else
                some (syntaxError tokens "Syntax error: Expected '\x7d', found " p4)
          else
            some (syntaxError tokens "Syntax error: Expected '\x7b' after if condition, found " p3)
        else
          some (syntaxError tokens "Syntax error: Expected ')', found " p2)
    else
      some (syntaxError tokens "Syntax error: Expected '(' after if, found " p1)

end

/-- Fuel that suffices for any rule started at cursor `i` of `tokens`. -/
def fuelFor (tokens : List Token) (i : Nat) : Nat :=
  8 * (tokens.length - i) + 8

/-- The function `Parser::parse` on a freshly constructed parser: `program()`
from cursor 0 with nothing printed yet. -/
def parse (tokens : List Token) : Option Parser :=
  program tokens (fuelFor tokens 0) ⟨0, []⟩

/-! ## The grammar of the specification

```
statement      ::= assignment | conditional | printStatement
assignment     ::= IDENTIFIER "=" expression ";"
conditional    ::= "if" "(" expression ")" "{" program "}" [ "else" "{" program "}" ]
printStatement ::= "print" expression ";"
expression     ::= term { ("+" | "-") term }
term           ::= factor { ("*" | "/") factor }
factor         ::= INTEGER | IDENTIFIER | "(" expression ")"
```

`INTEGER` and `IDENTIFIER` match a token by kind, a quoted terminal matches a
token by exact text. Inside a block `program` is a `statement`: its other
alternative, nothing at the end of input, cannot stand before a closing brace.
-/

/-- The nonterminals. `expressionRest` and `termRest` are the repetitions
`{ ("+" | "-") term }` and `{ ("*" | "/") factor }`. -/
inductive Nonterminal where
  | statement
  | assignment
  | conditional
  | printStatement
  | expression
  | expressionRest
  | term
  | termRest
  | factor
  deriving DecidableEq, Repr

/-- The relation `Derives X w`: the token sequence `w` is derivable from `X`. -/
inductive Derives : Nonterminal → List Token → Prop
  | factor_integer (t : Token) (ht : t.type = TokenType.INTEGER) :
      Derives Nonterminal.factor [t]
  | factor_identifier (t : Token) (ht : t.type = TokenType.IDENTIFIER) :
      Derives Nonterminal.factor [t]
  | factor_paren (l r : Token) (e : List Token) (hl : l.value = "(")
      (he : Derives Nonterminal.expression e) (hr : r.value = ")") :
      Derives Nonterminal.factor (l :: e ++ [r])
  | termRest_nil : Derives Nonterminal.termRest []
  | termRest_cons (op : Token) (f r : List Token) (hop : op.value = "*" ∨ op.value = "/")
      (hf : Derives Nonterminal.factor f) (hr : Derives Nonterminal.termRest r) :
      Derives Nonterminal.termRest (op :: f ++ r)
  | term_mk (f r : List Token) (hf : Derives Nonterminal.factor f)
      (hr : Derives Nonterminal.termRest r) : Derives Nonterminal.term (f ++ r)
  | expressionRest_nil : Derives Nonterminal.expressionRest []
  | expressionRest_cons (op : Token) (t r : List Token)
      (hop : op.value = "+" ∨ op.value = "-")
      (ht : Derives Nonterminal.term t) (hr : Derives Nonterminal.expressionRest r) :
      Derives Nonterminal.expressionRest (op :: t ++ r)
  | expression_mk (t r : List Token) (ht : Derives Nonterminal.term t)
      (hr : Derives Nonterminal.expressionRest r) : Derives Nonterminal.expression (t ++ r)
  | assignment_mk (id eq semi : Token) (e : List Token)
      (hid : id.type = TokenType.IDENTIFIER) (heq : eq.value = "=")
      (he : Derives Nonterminal.expression e) (hsemi : semi.value = ";") :
      Derives Nonterminal.assignment (id :: eq :: e ++ [semi])
  | printStatement_mk (kw semi : Token) (e : List Token) (hkw : kw.value = "print")
      (he : Derives Nonterminal.expression e) (hsemi : semi.value = ";") :
      Derives Nonterminal.printStatement (kw :: e ++ [semi])
  | conditional_if (kw l r lb rb : Token) (e s : List Token)
      (hkw : kw.value = "if") (hl : l.value = "(") (he : Derives Nonterminal.expression e)
      (hr : r.value = ")") (hlb : lb.value = "\x7b") (hs : Derives Nonterminal.statement s)
      (hrb : rb.value = "\x7d") :
      Derives Nonterminal.conditional (kw :: l :: e ++ r :: lb :: s ++ [rb])
  | conditional_if_else (kw l r lb rb el lb2 rb2 : Token) (e s s2 : List Token)
      (hkw : kw.value = "if") (hl : l.value = "(") (he : Derives Nonterminal.expression e)
      (hr : r.value = ")") (hlb : lb.value = "\x7b") (hs : Derives Nonterminal.statement s)
      (hrb : rb.value = "\x7d") (hel : el.value = "else") (hlb2 : lb2.value = "\x7b")
      (hs2 : Derives Nonterminal.statement s2) (hrb2 : rb2.value = "\x7d") :
      Derives Nonterminal.conditional
        (kw :: l :: e ++ r :: lb :: s ++ rb :: el :: lb2 :: s2 ++ [rb2])
  | statement_assignment (w : List Token) (h : Derives Nonterminal.assignment w) :
      Derives Nonterminal.statement w
  | statement_conditional (w : List Token) (h : Derives Nonterminal.conditional w) :
      Derives Nonterminal.statement w
  | statement_printStatement (w : List Token) (h : Derives Nonterminal.printStatement w) :
      Derives Nonterminal.statement w

/-- Kind and text of a token go together the way they do in every token the
scanner returns, as far as the parser tests them: the text `if` or `print`
only on a `KEYWORD` token, the text `(` never on an `INTEGER` or
`IDENTIFIER` token. -/
def Coherent (t : Token) : Prop :=
  ((t.value = "if" ∨ t.value = "print") → t.type = TokenType.KEYWORD)
  ∧ (t.value = "(" → t.type ≠ TokenType.INTEGER ∧ t.type ≠ TokenType.IDENTIFIER)

instance : DecidablePred Coherent := fun t => by
  unfold Coherent
  infer_instance

/-- What it means for the parser to accept `w` as an `X`, where `w` is the part
of `tokens` from index `i` up to index `j`: the rule of `X`, started at `i`
with `out` already printed, returns at `j` having printed nothing more. The
rules that look at the token after `w` need it not to continue the phrase;
the statement rules also record what `statement` and `program` dispatch on. -/
def Accepts (X : Nonterminal) (tokens : List Token) (i j : Nat) (out : List String) : Prop :=
  match X with
  | Nonterminal.factor => ∃ n, factor tokens n ⟨i, out⟩ = some ⟨j, out⟩
  | Nonterminal.termRest =>
      (getCurrentToken tokens ⟨j, out⟩).value ≠ "*" →
      (getCurrentToken tokens ⟨j, out⟩).value ≠ "/" →
      ∃ n, termLoop tokens n ⟨i, out⟩ = some ⟨j, out⟩
  | Nonterminal.term =>
      (getCurrentToken tokens ⟨j, out⟩).value ≠ "*" →
      (getCurrentToken tokens ⟨j, out⟩).value ≠ "/" →
      ∃ n, term tokens n ⟨i, out⟩ = some ⟨j, out⟩
  | Nonterminal.expressionRest =>
      (getCurrentToken tokens ⟨j, out⟩).value ∉ ["+", "-", "*", "/"] →
      ∃ n, expressionLoop tokens n ⟨i, out⟩ = some ⟨j, out⟩
  | Nonterminal.expression =>
      (getCurrentToken tokens ⟨j, out⟩).value ∉ ["+", "-", "*", "/"] →
      ∃ n, expression tokens n ⟨i, out⟩ = some ⟨j, out⟩
  | Nonterminal.assignment =>
      (getCurrentToken tokens ⟨i, out⟩).type = TokenType.IDENTIFIER
      ∧ ∃ n, assignment tokens n ⟨i, out⟩ = some ⟨j, out⟩
  | Nonterminal.printStatement =>
      ((getCurrentToken tokens ⟨i, out⟩).type = TokenType.KEYWORD
        ∧ (getCurrentToken tokens ⟨i, out⟩).value = "print")
      ∧ ∃ n, printStatement tokens n ⟨i, out⟩ = some ⟨j, out⟩
  | Nonterminal.conditional =>
      (getCurrentToken tokens ⟨j, out⟩).value ≠ "else" →
      ((getCurrentToken tokens ⟨i, out⟩).type = TokenType.KEYWORD
        ∧ (getCurrentToken tokens ⟨i, out⟩).value = "if")
      ∧ ∃ n, conditional tokens n ⟨i, out⟩ = some ⟨j, out⟩
  | Nonterminal.statement =>
      (getCurrentToken tokens ⟨j, out⟩).value ≠ "else" →
      (getCurrentToken tokens ⟨i, out⟩).type ≠ TokenType.END_OF_FILE
      ∧ ∃ n, statement tokens n ⟨i, out⟩ = some ⟨j, out⟩

/-! ## What a run of a rule does to the parser state -/

/-- The token the parser sees at index `i`: `getCurrentToken` at that cursor. -/
def tokenAt (tokens : List Token) (i : Nat) : Token :=
  getCurrentToken tokens ⟨i, []⟩

/-- The tokens from index `i` up to, not including, index `j`. -/
def slice (tokens : List Token) (i j : Nat) : List Token :=
  (tokens.drop i).take (j - i)

/-- No token of the list has kind `END_OF_FILE`; the driver never stores one. -/
def NoEndOfFile (tokens : List Token) : Prop :=
  ∀ t ∈ tokens, t.type ≠ TokenType.END_OF_FILE

/-- The relation between the state `p` in which a rule for `X` is entered and
the state `r` in which it returns. The output only grows, by the diagnostics
`ds`; the cursor moves forward, by at least `strict` (1 for a rule, 0 for a
loop) and by at least one token per diagnostic; it passes the end of the
tokens only by consuming in an error branch, and by no more than the tokens
that were left plus `strict`; and when no diagnostic was printed the tokens
consumed are derivable from `X`. -/
def Run (tokens : List Token) (X : Nonterminal) (strict : Nat) (p r : Parser) : Prop :=
  ∃ ds : List String, r.output = p.output ++ ds
    ∧ p.currentTokenIndex + strict ≤ r.currentTokenIndex
    ∧ p.currentTokenIndex + ds.length ≤ r.currentTokenIndex
    ∧ r.currentTokenIndex
        ≤ p.currentTokenIndex + (tokens.length - p.currentTokenIndex) + ds.length
    ∧ r.currentTokenIndex
        ≤ p.currentTokenIndex + 2 * (tokens.length - p.currentTokenIndex) + strict
    ∧ (ds = [] → NoEndOfFile tokens →
        Derives X (slice tokens p.currentTokenIndex r.currentTokenIndex))

/-- The part of `main` after the argument check, without the token dump: scan
the whole source, then parse the collected tokens. -/
def mainParse (sourceCode : List Char) : Option Parser :=
  match tokenize sourceCode with
  | some tokens => parse tokens
  | none => none

/-! ## The recursion on the call stack

The rules above are functions of the token list and the start state. The
C++ rules call each other on the call stack, one frame per call, and nothing
in the source limits the depth. The definitions below are the same rules,
returning also the number of stack frames in use at the deepest point of the
call, the frame of the call itself included. -/

mutual

/-- The rule `Parser::factor` with the frames it needs. -/
def factorFrames (tokens : List Token) : Nat → Parser → Option (Parser × Nat)
  | 0, _ => none
  | fuel + 1, p =>
    let currentToken := getCurrentToken tokens p
    if currentToken.type = TokenType.INTEGER ∨ currentToken.type = TokenType.IDENTIFIER then
      some (consumeToken p, 1)
    else if currentToken.value = "(" then
      match expressionFrames tokens fuel (consumeToken p) with
      | none => none
      | some (p1, d) =>
        if (getCurrentToken tokens p1).value = ")" then
          some (consumeToken p1, d + 1)
        else
          some (syntaxError tokens "Syntax error: Expected ')', found " p1, d + 1)
    else
      some (syntaxError tokens "Syntax error: Unexpected token " p, 1)

/-- The `while` loop of `Parser::term`, with the frames its calls need on top
of the frame of `term`. -/
def termLoopFrames (tokens : List Token) : Nat → Parser → Option (Parser × Nat)
  | 0, _ => none
  | fuel + 1, p =>
    if (getCurrentToken tokens p).value = "*" ∨ (getCurrentToken tokens p).value = "/" then
      match factorFrames tokens fuel (consumeToken p) with
      | none => none
      | some (p1, d1) =>
        match termLoopFrames tokens fuel p1 with
        | none => none
        | some (r, d2) => some (r, max d1 d2)
    else
      some (p, 0)

/-- The rule `Parser::term` with the frames it needs. -/
def termFrames (tokens : List Token) : Nat → Parser → Option (Parser × Nat)
  | 0, _ => none
  | fuel + 1, p =>
    match factorFrames tokens fuel p with
    | none => none
    | some (p1, d1) =>
      match termLoopFrames tokens fuel p1 with
      | none => none
      | some (r, d2) => some (r, max d1 d2 + 1)

/-- The `while` loop of `Parser::expression`, with the frames its calls need on
top of the frame of `expression`. -/
def expressionLoopFrames (tokens : List Token) : Nat → Parser → Option (Parser × Nat)
  | 0, _ => none
  | fuel + 1, p =>
    if (getCurrentToken tokens p).value = "+" ∨ (getCurrentToken tokens p).value = "-" then
      match termFrames tokens fuel (consumeToken p) with
      | none => none
      | some (p1, d1) =>
        match expressionLoopFrames tokens fuel p1 with
        | none => none
        | some (r, d2) => some (r, max d1 d2)
    else
      some (p, 0)

/-- The rule `Parser::expression` with the frames it needs. -/
def expressionFrames (tokens : List Token) : Nat → Parser → Option (Parser × Nat)
  | 0, _ => none
  | fuel + 1, p =>
    match termFrames tokens fuel p with
    | none => none
    | some (p1, d1) =>
      match expressionLoopFrames tokens fuel p1 with
      | none => none
      | some (r, d2) => some (r, max d1 d2 + 1)

end

/-- The rule `Parser::assignment` with the frames it needs. -/
def assignmentFrames (tokens : List Token) (fuel : Nat) (p : Parser) : Option (Parser × Nat) :=
  let p1 := consumeToken p
  if (getCurrentToken tokens p1).value = "=" then
    match expressionFrames tokens fuel (consumeToken p1) with
    | none => none
    | some (p2, d) => some (expectSemicolon tokens p2, d + 1)
  else
    some (syntaxError tokens "Syntax error: Expected '=', found " p1, 1)

/-- The rule `Parser::printStatement` with the frames it needs. -/
def printStatementFrames (tokens : List Token) (fuel : Nat) (p : Parser) :
    Option (Parser × Nat) :=
  match expressionFrames tokens fuel (consumeToken p) with
  | none => none
  | some (p1, d) => some (expectSemicolon tokens p1, d + 1)

mutual

/-- The rule `Parser::program` with the frames it needs. -/
def programFrames (tokens : List Token) : Nat → Parser → Option (Parser × Nat)
  | 0, _ => none
  | fuel + 1, p =>
    if (getCurrentToken tokens p).type ≠ TokenType.END_OF_FILE then
      match statementFrames tokens fuel p with
      | none => none
      | some (r, d) => some (r, d + 1)
    else
      some (p, 1)

/-- The rule `Parser::statement` with the frames it needs. -/
def statementFrames (tokens : List Token) : Nat → Parser → Option (Parser × Nat)
  | 0, _ => none
  | fuel + 1, p =>
    let currentToken := getCurrentToken tokens p
    if currentToken.type = TokenType.IDENTIFIER then
      match assignmentFrames tokens fuel p with
      | none => none
      | some (r, d) => some (r, d + 1)
    else if currentToken.type = TokenType.KEYWORD ∧ currentToken.value = "if" then
      match conditionalFrames tokens fuel p with
      | none => none
      | some (r, d) => some (r, d + 1)
    else if currentToken.type = TokenType.KEYWORD ∧ currentToken.value = "print" then
      match printStatementFrames tokens fuel p with
      | none => none
      | some (r, d) => some (r, d + 1)
    else
      some (syntaxError tokens "Syntax error: Unexpected token " p, 1)

/-- The rule `Parser::conditional` with the frames it needs. -/
def conditionalFrames (tokens : List Token) : Nat → Parser → Option (Parser × Nat)
  | 0, _ => none
  | fuel + 1, p =>
    let p1 := consumeToken p
    if (getCurrentToken tokens p1).value = "(" then
      match expressionFrames tokens fuel (consumeToken p1) with
      | none => none
      | some (p2, d1) =>
        if (getCurrentToken tokens p2).value = ")" then
          let p3 := consumeToken p2
          if (getCurrentToken tokens p3).value = "\x7b" then
            match programFrames tokens fuel (consumeToken p3) with
            | none => none
            | some (p4, d2) =>
              if (getCurrentToken tokens p4).value = "\x7d" then
                let p5 := consumeToken p4
                if (getCurrentToken tokens p5).value = "else" then
                  let p6 := consumeToken p5
                  if (getCurrentToken tokens p6).value = "\x7b" then
                    match programFrames tokens fuel (consumeToken p6) with
                    | none => none
                    | some (p7, d3) =>
                      if (getCurrentToken tokens p7).value = "\x7d" then
                        some (consumeToken p7, max d1 (max d2 d3) + 1)
                      else
                        some (syntaxError tokens "Syntax error: Expected '\x7d', found " p7,
                          max d1 (max d2 d3) + 1)
                  else
                    some (syntaxError tokens "Syntax error: Expected '\x7b' after else, found "
                      p6, max d1 d2 + 1)
                else
                  some (p5, max d1 d2 + 1)
              else
                some (syntaxError tokens "Syntax error: Expected '\x7d', found " p4,
                  max d1 d2 + 1)
          else
            some (syntaxError tokens "Syntax error: Expected '\x7b' after if condition, found "
              p3, d1 + 1)
        else
          some (syntaxError tokens "Syntax error: Expected ')', found " p2, d1 + 1)
    else
      some (syntaxError tokens "Syntax error: Expected '(' after if, found " p1, 1)

end

/-- The function `Parser::parse` with the frames it needs: its own frame and
those of `program()`. -/
def parseFrames (tokens : List Token) : Option (Parser × Nat) :=
  match programFrames tokens (fuelFor tokens 0) ⟨0, []⟩ with
  | none => none
  | some (r, d) => some (r, d + 1)

/-- The function `Parser::parse` run on a call stack that holds `capacity`
frames of the parser: `none` when the recursion needs more frames than
that, the stack is exhausted and the process is killed. -/
def parseOnStack (capacity : Nat) (tokens : List Token) : Option Parser :=
  match parseFrames tokens with
  | none => none
  | some (r, d) => if d ≤ capacity then some r else none

/-! ## Scanner lemmas -/

theorem advanceWhile_ge (p : Char → Bool) (s : List Char) (n pos : Nat) :
    pos ≤ advanceWhile p s n pos := by
  induction n generalizing pos with
  | zero => simp [advanceWhile]
  | succ n ih =>
    unfold advanceWhile
    split
    · split
      · exact Nat.le_trans (Nat.le_succ pos) (ih (pos + 1))
      · exact Nat.le_refl pos
    · exact Nat.le_refl pos

theorem advanceWhile_le (p : Char → Bool) (s : List Char) (n pos : Nat) (h : pos ≤ s.length) :
    advanceWhile p s n pos ≤ s.length := by
  induction n generalizing pos with
  | zero => simpa [advanceWhile] using h
  | succ n ih =>
    unfold advanceWhile
    split
    · rename_i c hc
      split
      · have hlt : pos < s.length := (List.getElem?_eq_some.mp hc).1
        exact ih (pos + 1) hlt
      · exact h
    · exact h

theorem advanceWhile_all (p : Char → Bool) (s : List Char) (n pos i : Nat)
    (h1 : pos ≤ i) (h2 : i < advanceWhile p s n pos) :
    ∃ c, s[i]? = some c ∧ p c = true := by
  induction n generalizing pos with
  | zero => simp [advanceWhile] at h2; omega
  | succ n ih =>
    unfold advanceWhile at h2
    split at h2
    · rename_i c hc
      split at h2
      · rename_i hp
        by_cases hi : i = pos
        · subst hi; exact ⟨c, hc, hp⟩
        · exact ih (pos + 1) (by omega) h2
      · omega
    · omega

theorem advanceWhile_stop (p : Char → Bool) (s : List Char) (n pos : Nat)
    (hn : s.length - pos ≤ n) (c : Char) (hc : s[advanceWhile p s n pos]? = some c) :
    p c = false := by
  induction n generalizing pos with
  | zero =>
    simp [advanceWhile] at hc
    have := (List.getElem?_eq_some.mp hc).1
    omega
  | succ n ih =>
    unfold advanceWhile at hc
    split at hc
    · rename_i d hd
      split at hc
      · exact ih (pos + 1) (by omega) hc
      · rename_i hp
        rw [hd] at hc
        cases hc
        simpa using hp
    · rename_i hd
      rw [hd] at hc
      cases hc

theorem advanceWhile_gt (p : Char → Bool) (s : List Char) (n pos : Nat) (c : Char)
    (hc : s[pos]? = some c) (hp : p c = true) :
    pos < advanceWhile p s (n + 1) pos := by
  unfold advanceWhile
  simp only [hc, hp, if_true]
  exact Nat.lt_of_lt_of_le (Nat.lt_succ_self pos) (advanceWhile_ge p s n (pos + 1))

theorem drop_split (s : List Char) (q r : Nat) (h : q ≤ r) :
    s.drop q = (s.drop q).take (r - q) ++ s.drop r := by
  have h1 := (List.take_append_drop (r - q) (s.drop q)).symm
  rw [List.drop_drop] at h1
  have h2 : r - q + q = r := by omega
  have h3 : q + (r - q) = r := by omega
  simpa [h2, h3] using h1

theorem take_drop_all (p : Char → Bool) (s : List Char) (n q : Nat) :
    ∀ c ∈ (s.drop q).take (advanceWhile p s n q - q), p c = true := by
  intro c hc
  obtain ⟨i, hi, rfl⟩ := List.getElem_of_mem hc
  simp only [List.length_take, List.length_drop] at hi
  obtain ⟨d, hd, hpd⟩ := advanceWhile_all p s n q (q + i) (by omega) (by omega)
  have hlt := (List.getElem?_eq_some.mp hd)
  obtain ⟨hlt, hd⟩ := hlt
  simp only [List.getElem_take, List.getElem_drop]
  rw [hd]; exact hpd

theorem substr_one (s : List Char) (q : Nat) (c : Char) (hc : s[q]? = some c) :
    substr s q (q + 1 - q) = String.mk [c] := by
  obtain ⟨hlt, hd⟩ := List.getElem?_eq_some.mp hc
  have h1 : q + 1 - q = 1 := by omega
  rw [h1, substr, List.drop_eq_getElem_cons hlt, hd]
  simp

theorem substr_one_eq (s : List Char) (q : Nat) (c : Char) (hc : s[q]? = some c) :
    substr s q 1 = String.mk [c] := by
  have h := substr_one s q c hc
  have h1 : q + 1 - q = 1 := by omega
  rwa [h1] at h

theorem skipWhitespace_ge (s : List Char) (pos : Nat) : pos ≤ skipWhitespace s pos :=
  advanceWhile_ge _ _ _ _

theorem skipWhitespace_le (s : List Char) (pos : Nat) (h : pos ≤ s.length) :
    skipWhitespace s pos ≤ s.length :=
  advanceWhile_le _ _ _ _ h

/-- The shape of one `getNextToken` call from `pos`, with `q` the position
after the whitespace: at the end of the source it returns the empty
`END_OF_FILE` token and stays at `q`; otherwise the token is not
`END_OF_FILE`, its text is the source between `q` and the new position,
and the new position is strictly beyond `q`. -/
theorem getNextToken_span (s : List Char) (pos : Nat) :
    (s.length ≤ skipWhitespace s pos ∧
      getNextToken s pos = (⟨TokenType.END_OF_FILE, ""⟩, skipWhitespace s pos))
    ∨ (skipWhitespace s pos < (getNextToken s pos).2 ∧ (getNextToken s pos).2 ≤ s.length
      ∧ (getNextToken s pos).1.type ≠ TokenType.END_OF_FILE
      ∧ (getNextToken s pos).1.value
          = substr s (skipWhitespace s pos) ((getNextToken s pos).2 - skipWhitespace s pos)) := by
  generalize hq : skipWhitespace s pos = q
  cases hc : s[q]? with
  | none =>
    left
    refine ⟨by simpa using hc, ?_⟩
    simp [getNextToken, hq, hc]
  | some c =>
    right
    obtain ⟨hlt, hd⟩ := List.getElem?_eq_some.mp hc
    have hfuel : s.length - q = (s.length - q - 1) + 1 := by omega
    have h1 := substr_one s q c hc
    have h2 := substr_one_eq s q c hc
    simp only [getNextToken, hq, hc]
    split
    · rename_i hp
      have hgt := advanceWhile_gt (fun c => isAlpha c || isDigit c) s (s.length - q - 1) q c hc
        (by simp [hp])
      rw [← hfuel] at hgt
      have hle := advanceWhile_le (fun c => isAlpha c || isDigit c) s (s.length - q) q
        (Nat.le_of_lt hlt)
      simp only [readIdentifierOrKeyword]
      split <;> exact ⟨hgt, hle, by simp, rfl⟩
    · split
      · rename_i hp
        have hgt := advanceWhile_gt isDigit s (s.length - q - 1) q c hc hp
        rw [← hfuel] at hgt
        have hle := advanceWhile_le isDigit s (s.length - q) q (Nat.le_of_lt hlt)
        exact ⟨hgt, hle, by simp [readNumber], rfl⟩
      · split
        · exact ⟨Nat.lt_succ_self q, hlt, by simp [readOperator], by simp [readOperator, h2]⟩
        · split
          · exact ⟨Nat.lt_succ_self q, hlt, by simp, by simp [h2]⟩
          · split
            · rename_i he
              subst he
              exact ⟨Nat.lt_succ_self q, hlt, by simp, by show _ = substr s q (q + 1 - q); rw [h1]⟩
            · split
              · rename_i he
                subst he
                exact ⟨Nat.lt_succ_self q, hlt, by simp, by show _ = substr s q (q + 1 - q); rw [h1]⟩
              · split
                · rename_i he
                  subst he
                  have hgt := advanceWhile_gt (fun c => c != '\n') s (s.length - q - 1) q '#' hc
                    (by decide)
                  rw [← hfuel] at hgt
                  have hle := advanceWhile_le (fun c => c != '\n') s (s.length - q) q
                    (Nat.le_of_lt hlt)
                  exact ⟨hgt, hle, by simp [readComment], rfl⟩
                · exact ⟨Nat.lt_succ_self q, hlt, by simp, by simp [h2]⟩

/-- The five ways a `getNextToken` call can go, by the character `c` found at
the position `q` reached after the whitespace. -/
theorem getNextToken_cases (s : List Char) (pos : Nat) :
    (s[skipWhitespace s pos]? = none ∧
      getNextToken s pos = (⟨TokenType.END_OF_FILE, ""⟩, skipWhitespace s pos))
    ∨ (∃ c, s[skipWhitespace s pos]? = some c ∧ isAlpha c = true ∧
      getNextToken s pos = readIdentifierOrKeyword s (skipWhitespace s pos))
    ∨ (∃ c, s[skipWhitespace s pos]? = some c ∧ isAlpha c = false ∧ isDigit c = true ∧
      getNextToken s pos = readNumber s (skipWhitespace s pos))
    ∨ (s[skipWhitespace s pos]? = some '#' ∧
      getNextToken s pos = readComment s (skipWhitespace s pos))
    ∨ (∃ c, s[skipWhitespace s pos]? = some c ∧ isAlpha c = false ∧ isDigit c = false ∧
      c ≠ '#' ∧
      getNextToken s pos = (⟨TokenType.OPERATOR, String.mk [c]⟩, skipWhitespace s pos + 1)) := by
  generalize hq : skipWhitespace s pos = q
  cases hc : s[q]? with
  | none => left; exact ⟨rfl, by simp [getNextToken, hq, hc]⟩
  | some c =>
    right
    by_cases ha : isAlpha c = true
    · left; exact ⟨c, rfl, ha, by simp [getNextToken, hq, hc, ha]⟩
    · right
      by_cases hd : isDigit c = true
      · left; exact ⟨c, rfl, by simpa using ha, hd, by simp [getNextToken, hq, hc, ha, hd]⟩
      · right
        by_cases hh : c = '#'
        · left
          subst hh
          refine ⟨rfl, ?_⟩
          simp only [getNextToken, hq, hc]
          rw [if_neg (by decide), if_neg (by decide), if_neg (by decide), if_neg (by decide),
            if_neg (by decide), if_neg (by decide), if_pos trivial]
        · right
          refine ⟨c, rfl, by simpa using ha, by simpa using hd, hh, ?_⟩
          simp only [getNextToken, hq, hc, ha, hd, hh, readOperator]
          by_cases h1 : c = '+' ∨ c = '-' ∨ c = '*' ∨ c = '/'
          · simp [h1]
          · by_cases h2 : c = '(' ∨ c = ')'
            · simp [h1, h2]
            · by_cases h3 : c = '='
              · subst h3; simp
              · by_cases h4 : c = ';'
                · subst h4; simp
                · simp [h1, h2, h3, h4]

theorem skipWhitespace_past_end (s : List Char) (q : Nat) (h : s.length ≤ q) :
    skipWhitespace s q = q := by
  have h0 : s.length - q = 0 := by omega
  simp [skipWhitespace, h0, advanceWhile]

theorem getNextToken_past_end (s : List Char) (q : Nat) (h : s.length ≤ q) :
    getNextToken s q = (⟨TokenType.END_OF_FILE, ""⟩, q) := by
  have hnone : s[q]? = none := by simpa using h
  simp [getNextToken, skipWhitespace_past_end s q h, hnone]

/-- C4. Scanner idempotence at end of input: once a call of `getNextToken`
has returned `END_OF_FILE`, the call made after any number `k` of further
calls returns `END_OF_FILE` with empty text and leaves the cursor where the
first such call left it. -/
theorem scanner_eof_idempotent (s : List Char) (pos : Nat)
    (h : (getNextToken s pos).1.type = TokenType.END_OF_FILE) (k : Nat) :
    getNextToken s (cursorAfter s k (getNextToken s pos).2)
      = (⟨TokenType.END_OF_FILE, ""⟩, (getNextToken s pos).2) := by
  rcases getNextToken_span s pos with ⟨hend, heq⟩ | ⟨_, _, hty, _⟩
  · rw [heq]
    have hk : ∀ k, cursorAfter s k (skipWhitespace s pos) = skipWhitespace s pos := by
      intro k
      induction k with
      | zero => rfl
      | succ k ih => rw [cursorAfter, getNextToken_past_end s _ hend]; exact ih
    show getNextToken s (cursorAfter s k (skipWhitespace s pos)) = _
    rw [hk k, getNextToken_past_end s _ hend]
  · exact absurd h hty

theorem scanner_eof_idempotent_witness :
    (getNextToken "x ".toList 1).1.type = TokenType.END_OF_FILE
    ∧ getNextToken "x ".toList (cursorAfter "x ".toList 3 (getNextToken "x ".toList 1).2)
      = (⟨TokenType.END_OF_FILE, ""⟩, (getNextToken "x ".toList 1).2) :=
  ⟨by decide, scanner_eof_idempotent "x ".toList 1 (by decide) 3⟩

theorem isSpace_of_isAlpha (c : Char) (h : isAlpha c = true) : isSpace c = false := by
  simp only [isAlpha, isSpace, Bool.or_eq_true, Bool.and_eq_true, decide_eq_true_eq,
    beq_iff_eq] at h ⊢
  rcases h with (h | h) | h
  · simp; omega
  · simp; omega
  · subst h; decide

theorem advanceWhile_full (p : Char → Bool) (s : List Char) (n pos : Nat)
    (hpos : pos ≤ s.length) (hn : s.length - pos ≤ n)
    (hall : ∀ i c, pos ≤ i → s[i]? = some c → p c = true) :
    advanceWhile p s n pos = s.length := by
  have hle := advanceWhile_le p s n pos hpos
  rcases Nat.lt_or_ge (advanceWhile p s n pos) s.length with hlt | hge
  · have hsome : s[advanceWhile p s n pos]? = some (s[advanceWhile p s n pos]) :=
      List.getElem?_eq_getElem hlt
    have h1 := advanceWhile_stop p s n pos hn _ hsome
    have h2 := hall _ _ (advanceWhile_ge p s n pos) hsome
    rw [h1] at h2
    cases h2
  · omega

theorem isKeywordText_iff (w : String) :
    isKeywordText w = true ↔ w ∈ ["if", "else", "print", "true", "false"] := by
  simp [isKeywordText, or_assoc]

/-- C5. Keyword classification: a source that is one word (a letter or
underscore followed by letters, digits and underscores) scans as exactly one
token whose text is the word; its kind is `KEYWORD` when the word is one of
`if`, `else`, `print`, `true`, `false` and `IDENTIFIER` otherwise. -/
theorem keyword_classification (c : Char) (rest : List Char)
    (hc : isAlpha c = true) (hrest : ∀ d ∈ rest, (isAlpha d || isDigit d) = true) :
    tokenize (c :: rest)
      = some [⟨if String.mk (c :: rest) ∈ ["if", "else", "print", "true", "false"]
          then TokenType.KEYWORD else TokenType.IDENTIFIER, String.mk (c :: rest)⟩] := by
  have hq : skipWhitespace (c :: rest) 0 = 0 := by
    simp [skipWhitespace, advanceWhile, isSpace_of_isAlpha c hc]
  have hall : ∀ i d, 0 ≤ i → (c :: rest)[i]? = some d → (isAlpha d || isDigit d) = true := by
    intro i d _ hd
    obtain ⟨hlt, he⟩ := List.getElem?_eq_some.mp hd
    have hmem : d ∈ c :: rest := he ▸ List.getElem_mem hlt
    rcases List.mem_cons.mp hmem with rfl | hm
    · simp [hc]
    · exact hrest d hm
  have hfull := advanceWhile_full (fun d => isAlpha d || isDigit d) (c :: rest)
    ((c :: rest).length - 0) 0 (Nat.zero_le _) (Nat.le_refl _) hall
  have hsub : substr (c :: rest) 0 ((c :: rest).length - 0) = String.mk (c :: rest) := by
    simp [substr]
  have hfirst : getNextToken (c :: rest) 0
      = (⟨if String.mk (c :: rest) ∈ ["if", "else", "print", "true", "false"]
          then TokenType.KEYWORD else TokenType.IDENTIFIER, String.mk (c :: rest)⟩,
        (c :: rest).length) := by
    have h0 : getNextToken (c :: rest) 0 = readIdentifierOrKeyword (c :: rest) 0 := by
      simp [getNextToken, hq, hc]
    rw [h0]
    simp only [readIdentifierOrKeyword, hfull, hsub]
    by_cases hk : isKeywordText (String.mk (c :: rest)) = true
    · rw [if_pos hk, if_pos ((isKeywordText_iff _).mp hk)]
    · rw [if_neg hk, if_neg (fun h => hk ((isKeywordText_iff _).mpr h))]
  have hsecond := getNextToken_past_end (c :: rest) (c :: rest).length (Nat.le_refl _)
  have hne : (if String.mk (c :: rest) ∈ ["if", "else", "print", "true", "false"]
      then TokenType.KEYWORD else TokenType.IDENTIFIER) ≠ TokenType.END_OF_FILE := by
    split <;> decide
  have hlen : (c :: rest).length + 1 = (rest.length + 1) + 1 := rfl
  rw [tokenize, hlen, collectTokens, hfirst]
  simp only [hne, if_false]
  rw [collectTokens, hsecond]
  simp

theorem keyword_classification_witness :
    isAlpha 'i' = true ∧ (∀ d ∈ "ffy".toList, (isAlpha d || isDigit d) = true)
    ∧ tokenize "iffy".toList = some [⟨TokenType.IDENTIFIER, "iffy"⟩]
    ∧ tokenize "if".toList = some [⟨TokenType.KEYWORD, "if"⟩]
    ∧ tokenize "IF".toList = some [⟨TokenType.IDENTIFIER, "IF"⟩]
    ∧ tokenize "Print".toList = some [⟨TokenType.IDENTIFIER, "Print"⟩] :=
  ⟨by decide, by decide,
    keyword_classification 'i' "ffy".toList (by decide) (by decide),
    keyword_classification 'i' "f".toList (by decide) (by decide),
    keyword_classification 'I' "F".toList (by decide) (by decide),
    keyword_classification 'P' "rint".toList (by decide) (by decide)⟩

theorem slice_cons (s : List Char) (q r : Nat) (c : Char) (hc : s[q]? = some c) (h : q < r) :
    (s.drop q).take (r - q) = c :: (s.drop (q + 1)).take (r - (q + 1)) := by
  obtain ⟨hlt, hd⟩ := List.getElem?_eq_some.mp hc
  have h1 : r - q = (r - (q + 1)) + 1 := by omega
  rw [List.drop_eq_getElem_cons hlt, hd, h1, List.take_succ_cons]

/-- What a maximal run gives: started on a character `c` satisfying `p`, the
slice read is `c` followed by characters satisfying `p`, and the character at
the stopping position, if any, does not satisfy `p`. -/
theorem advanceWhile_munch (p : Char → Bool) (s : List Char) (q : Nat) (c : Char)
    (hc : s[q]? = some c) (hp : p c = true) :
    (∃ rest, substr s q (advanceWhile p s (s.length - q) q - q) = String.mk (c :: rest)
      ∧ ∀ d ∈ c :: rest, p d = true)
    ∧ (∀ d, s[advanceWhile p s (s.length - q) q]? = some d → p d = false) := by
  obtain ⟨hlt, _⟩ := List.getElem?_eq_some.mp hc
  have hfuel : s.length - q = (s.length - q - 1) + 1 := by omega
  have hgt := advanceWhile_gt p s (s.length - q - 1) q c hc hp
  rw [← hfuel] at hgt
  have hall := take_drop_all p s (s.length - q) q
  rw [slice_cons s q _ c hc hgt] at hall
  refine ⟨⟨_, ?_, hall⟩, ?_⟩
  · rw [substr, slice_cons s q _ c hc hgt]
  · exact fun d hd => advanceWhile_stop p s (s.length - q) q (Nat.le_refl _) d hd

/-- Which tokens are comments: `getNextToken` returns a `COMMENT` exactly when
the text it returns starts with `#`, and that text holds no newline and ends
where the source has a newline or ends. -/
theorem getNextToken_comment_shape (s : List Char) (pos : Nat) :
    ((getNextToken s pos).1.type = TokenType.COMMENT
      ↔ (getNextToken s pos).1.value.data.head? = some '#')
    ∧ ((getNextToken s pos).1.type = TokenType.COMMENT →
      '\n' ∉ (getNextToken s pos).1.value.data
      ∧ ∀ c, s[(getNextToken s pos).2]? = some c → c = '\n') := by
  rcases getNextToken_cases s pos with ⟨_, h⟩ | ⟨c, hc, ha, h⟩ | ⟨c, hc, ha, hd, h⟩ | ⟨hc, h⟩
      | ⟨c, _, _, _, hh, h⟩
  · rw [h]
    exact ⟨by simp, fun hty => by simp at hty⟩
  · obtain ⟨⟨rest, h1, _⟩, _⟩ := advanceWhile_munch (fun d => isAlpha d || isDigit d) s
      (skipWhitespace s pos) c hc (by simp [ha])
    have hv : (readIdentifierOrKeyword s (skipWhitespace s pos)).1.value
        = String.mk (c :: rest) := by
      rw [← h1]
      simp only [readIdentifierOrKeyword]; split <;> rfl
    have hty : (readIdentifierOrKeyword s (skipWhitespace s pos)).1.type
        ≠ TokenType.COMMENT := by
      simp only [readIdentifierOrKeyword]; split <;> simp
    have hne : c ≠ '#' := by
      intro hcc
      rw [hcc] at ha
      exact absurd ha (by decide)
    rw [h]
    refine ⟨⟨fun h0 => absurd h0 hty, fun h0 => ?_⟩, fun h0 => absurd h0 hty⟩
    rw [hv] at h0
    simp at h0
    exact absurd h0 hne
  · obtain ⟨⟨rest, h1, _⟩, _⟩ := advanceWhile_munch isDigit s (skipWhitespace s pos) c hc hd
    have hv : (readNumber s (skipWhitespace s pos)).1.value = String.mk (c :: rest) := h1
    have hne : c ≠ '#' := by
      intro hcc
      rw [hcc] at hd
      exact absurd hd (by decide)
    rw [h]
    refine ⟨⟨fun h0 => by simp [readNumber] at h0, fun h0 => ?_⟩,
      fun h0 => by simp [readNumber] at h0⟩
    rw [hv] at h0
    simp at h0
    exact absurd h0 hne
  · obtain ⟨⟨rest, h1, h2⟩, h3⟩ := advanceWhile_munch (fun d => d != '\n') s
      (skipWhitespace s pos) '#' hc (by decide)
    have hv : (readComment s (skipWhitespace s pos)).1.value = String.mk ('#' :: rest) := h1
    rw [h]
    refine ⟨⟨fun _ => by rw [hv]; rfl, fun _ => rfl⟩, fun _ => ⟨?_, ?_⟩⟩
    · rw [hv]
      intro hmem
      have := h2 '\n' hmem
      simp at this
    · intro d hd
      have := h3 d hd
      simpa using this
  · rw [h]
    refine ⟨⟨fun h0 => by simp at h0, fun h0 => ?_⟩, fun h0 => by simp at h0⟩
    simp at h0
    exact absurd h0 hh

theorem collectTokens_lossless (s : List Char) (fuel pos : Nat)
    (hpos : pos ≤ s.length) (hfuel : s.length - pos < fuel) :
    ∃ toks : List Token, ∃ ws : List (List Char),
      collectTokens s fuel pos = some toks ∧ ws.length = toks.length + 1
      ∧ (∀ w ∈ ws, ∀ c ∈ w, isSpace c = true)
      ∧ (∀ t ∈ toks, t.type ≠ TokenType.END_OF_FILE ∧ t.value ≠ "")
      ∧ s.drop pos = weave ws toks
      ∧ commentsVerbatim ws toks := by
  induction fuel generalizing pos with
  | zero => omega
  | succ fuel ih =>
    have hq1 := skipWhitespace_ge s pos
    have hws : ∀ c ∈ (s.drop pos).take (skipWhitespace s pos - pos), isSpace c = true :=
      take_drop_all isSpace s _ pos
    have hsplit := drop_split s pos (skipWhitespace s pos) hq1
    rcases getNextToken_span s pos with ⟨hend, heq⟩ | ⟨hgt, hle, hty, hval⟩
    · refine ⟨[], [s.drop pos], ?_, rfl, ?_, by simp, rfl, trivial⟩
      · simp [collectTokens, heq]
      · intro w hw c hc
        simp only [List.mem_singleton] at hw
        subst hw
        rw [hsplit, List.drop_of_length_le hend, List.append_nil] at hc
        exact hws c hc
    · obtain ⟨toks, ws, h1, h2, h3, h4, h5, h6⟩ := ih (getNextToken s pos).2 hle (by omega)
      refine ⟨(getNextToken s pos).1 :: toks,
        (s.drop pos).take (skipWhitespace s pos - pos) :: ws, ?_, by simp [h2], ?_, ?_, ?_,
        ?_⟩
      · simp [collectTokens, hty, h1]
      · intro w hw
        rcases List.mem_cons.mp hw with rfl | hw
        · exact hws
        · exact h3 w hw
      · intro t ht
        rcases List.mem_cons.mp ht with rfl | ht
        · refine ⟨hty, ?_⟩
          rw [hval]
          intro h0
          have hlen := congrArg String.length h0
          simp [substr, String.length] at hlen
          omega
        · exact h4 t ht
      · have hsplit2 := drop_split s (skipWhitespace s pos) (getNextToken s pos).2
          (Nat.le_of_lt hgt)
        cases ws with
        | nil => simp at h2
        | cons w ws' =>
          rw [weave, ← h5, hval, substr, List.append_assoc, ← hsplit2]
          exact hsplit
      · obtain ⟨hiff, hcom⟩ := getNextToken_comment_shape s pos
        refine ⟨hiff, fun hc => ⟨(hcom hc).1, ?_⟩, h6⟩
        intro c hc2
        rw [← h5, List.head?_drop] at hc2
        exact (hcom hc).2 c hc2

/-- C1. Lossless scanning: for every source `s` the driver's loop returns a
token list `t1..tn`, and there are whitespace-only strings `w0..wn` with
`s = w0 ++ t1.value ++ w1 ++ ... ++ tn.value ++ wn`. No collected token is
`END_OF_FILE` or empty. Comments are not skipped: a token is a `COMMENT`
exactly when its text starts with `#`, and the text of a `COMMENT` is the
comment verbatim, from the `#` up to the next newline of the source or to
its end. -/
theorem scanning_lossless (s : List Char) :
    ∃ toks : List Token, ∃ ws : List (List Char),
      tokenize s = some toks ∧ ws.length = toks.length + 1
      ∧ (∀ w ∈ ws, ∀ c ∈ w, isSpace c = true)
      ∧ (∀ t ∈ toks, t.type ≠ TokenType.END_OF_FILE ∧ t.value ≠ "")
      ∧ s = weave ws toks
      ∧ commentsVerbatim ws toks := by
  have h := collectTokens_lossless s (s.length + 1) 0 (Nat.zero_le _) (by omega)
  simpa [tokenize] using h

/-- C6. Maximal munch: an `IDENTIFIER` or `KEYWORD` token returned by
`getNextToken` is the source slice that ends at the new cursor, it is a letter
or underscore followed by letters, digits and underscores, and the source
character at the new cursor, if any, is none of these; an `INTEGER` token is
a non-empty slice of digits ending at the new cursor, and the character at the
new cursor, if any, is not a digit. So `abc123` is one `IDENTIFIER` and
`123abc` is `INTEGER 123` then `IDENTIFIER abc`. -/
theorem maximal_munch (s : List Char) (pos : Nat) :
    (((getNextToken s pos).1.type = TokenType.IDENTIFIER
        ∨ (getNextToken s pos).1.type = TokenType.KEYWORD) →
      (∃ c rest, (getNextToken s pos).1.value = String.mk (c :: rest) ∧ isAlpha c = true
        ∧ ∀ d ∈ c :: rest, (isAlpha d || isDigit d) = true)
      ∧ (getNextToken s pos).1.value = substr s (skipWhitespace s pos)
          ((getNextToken s pos).2 - skipWhitespace s pos)
      ∧ (∀ d, s[(getNextToken s pos).2]? = some d → (isAlpha d || isDigit d) = false))
    ∧ ((getNextToken s pos).1.type = TokenType.INTEGER →
      (∃ c rest, (getNextToken s pos).1.value = String.mk (c :: rest)
        ∧ ∀ d ∈ c :: rest, isDigit d = true)
      ∧ (getNextToken s pos).1.value = substr s (skipWhitespace s pos)
          ((getNextToken s pos).2 - skipWhitespace s pos)
      ∧ (∀ d, s[(getNextToken s pos).2]? = some d → isDigit d = false))
    ∧ tokenize "abc123".toList = some [⟨TokenType.IDENTIFIER, "abc123"⟩]
    ∧ tokenize "123abc".toList
        = some [⟨TokenType.INTEGER, "123"⟩, ⟨TokenType.IDENTIFIER, "abc"⟩] := by
  refine ⟨?_, ?_, by decide, by decide⟩
  · intro hty
    rcases getNextToken_cases s pos with ⟨_, h⟩ | ⟨c, hc, ha, h⟩ | ⟨c, _, _, _, h⟩ | ⟨_, h⟩
        | ⟨c, _, _, _, _, h⟩
    · rw [h] at hty; simp at hty
    · obtain ⟨⟨rest, h1, h2⟩, h3⟩ := advanceWhile_munch (fun d => isAlpha d || isDigit d) s
        (skipWhitespace s pos) c hc (by simp [ha])
      have hv : (readIdentifierOrKeyword s (skipWhitespace s pos)).1.value
          = substr s (skipWhitespace s pos)
            ((readIdentifierOrKeyword s (skipWhitespace s pos)).2 - skipWhitespace s pos) := by
        simp only [readIdentifierOrKeyword]; split <;> rfl
      have hp : (readIdentifierOrKeyword s (skipWhitespace s pos)).2
          = advanceWhile (fun d => isAlpha d || isDigit d) s
            (s.length - skipWhitespace s pos) (skipWhitespace s pos) := by
        simp only [readIdentifierOrKeyword]; split <;> rfl
      rw [h]
      refine ⟨⟨c, rest, ?_, ha, h2⟩, hv, ?_⟩
      · rw [hv, hp]; exact h1
      · rw [hp]; exact h3
    · rw [h] at hty; simp [readNumber] at hty
    · rw [h] at hty; simp [readComment] at hty
    · rw [h] at hty; simp at hty
  · intro hty
    rcases getNextToken_cases s pos with ⟨_, h⟩ | ⟨c, _, _, h⟩ | ⟨c, hc, _, hd, h⟩ | ⟨_, h⟩
        | ⟨c, _, _, _, _, h⟩
    · rw [h] at hty; simp at hty
    · rw [h] at hty
      simp only [readIdentifierOrKeyword] at hty
      split at hty <;> simp at hty
    · obtain ⟨⟨rest, h1, h2⟩, h3⟩ := advanceWhile_munch isDigit s
        (skipWhitespace s pos) c hc hd
      rw [h]
      exact ⟨⟨c, rest, h1, h2⟩, rfl, h3⟩
    · rw [h] at hty; simp [readComment] at hty
    · rw [h] at hty; simp at hty

/-! ## Parser lemmas: the result does not depend on the fuel -/

theorem expr_rules_mono (tokens : List Token) (n : Nat) :
    (∀ m p r, n ≤ m → factor tokens n p = some r → factor tokens m p = some r)
    ∧ (∀ m p r, n ≤ m → termLoop tokens n p = some r → termLoop tokens m p = some r)
    ∧ (∀ m p r, n ≤ m → term tokens n p = some r → term tokens m p = some r)
    ∧ (∀ m p r, n ≤ m → expressionLoop tokens n p = some r →
        expressionLoop tokens m p = some r)
    ∧ (∀ m p r, n ≤ m → expression tokens n p = some r → expression tokens m p = some r) := by
  induction n with
  | zero =>
    refine ⟨?_, ?_, ?_, ?_, ?_⟩ <;> intro m p r _ h
    · simp [factor] at h
    · simp [termLoop] at h
    · simp [term] at h
    · simp [expressionLoop] at h
    · simp [expression] at h
  | succ n ih =>
    obtain ⟨ihF, ihTL, ihT, ihEL, ihE⟩ := ih
    refine ⟨?_, ?_, ?_, ?_, ?_⟩ <;> intro m p r hm h
    all_goals
      obtain ⟨m, rfl⟩ : ∃ k, m = k + 1 := ⟨m - 1, by omega⟩
      have hnm : n ≤ m := by omega
    · rw [factor] at h ⊢
      split at h
      · rename_i hc; rw [if_pos hc]; exact h
      · rename_i hc
        rw [if_neg hc]
        split at h
        · rename_i hc2
          rw [if_pos hc2]
          cases he : expression tokens n (consumeToken p) with
          | none => rw [he] at h; cases h
          | some p1 => rw [he] at h; rw [ihE m _ _ hnm he]; exact h
        · rename_i hc2; rw [if_neg hc2]; exact h
    · rw [termLoop] at h ⊢
      split at h
      · rename_i hc
        rw [if_pos hc]
        cases he : factor tokens n (consumeToken p) with
        | none => rw [he] at h; cases h
        | some p1 =>
          rw [he] at h; rw [ihF m _ _ hnm he]
          exact ihTL m _ _ hnm h
      · rename_i hc; rw [if_neg hc]; exact h
    · rw [term] at h ⊢
      cases he : factor tokens n p with
      | none => rw [he] at h; cases h
      | some p1 =>
        rw [he] at h; rw [ihF m _ _ hnm he]
        exact ihTL m _ _ hnm h
    · rw [expressionLoop] at h ⊢
      split at h
      · rename_i hc
        rw [if_pos hc]
        cases he : term tokens n (consumeToken p) with
        | none => rw [he] at h; cases h
        | some p1 =>
          rw [he] at h; rw [ihT m _ _ hnm he]
          exact ihEL m _ _ hnm h
      · rename_i hc; rw [if_neg hc]; exact h
    · rw [expression] at h ⊢
      cases he : term tokens n p with
      | none => rw [he] at h; cases h
      | some p1 =>
        rw [he] at h; rw [ihT m _ _ hnm he]
        exact ihEL m _ _ hnm h

theorem expression_mono {tokens : List Token} {n m : Nat} {p r : Parser} (hnm : n ≤ m)
    (h : expression tokens n p = some r) : expression tokens m p = some r :=
  (expr_rules_mono tokens n).2.2.2.2 m p r hnm h

theorem assignment_mono {tokens : List Token} {n m : Nat} {p r : Parser} (hnm : n ≤ m)
    (h : assignment tokens n p = some r) : assignment tokens m p = some r := by
  unfold assignment at h ⊢
  try dsimp only at h ⊢
  split at h
  · rename_i hc
    rw [if_pos hc]
    cases he : expression tokens n (consumeToken (consumeToken p)) with
    | none => rw [he] at h; cases h
    | some p2 => rw [he] at h; rw [expression_mono hnm he]; exact h
  · rename_i hc; rw [if_neg hc]; exact h

theorem printStatement_mono {tokens : List Token} {n m : Nat} {p r : Parser} (hnm : n ≤ m)
    (h : printStatement tokens n p = some r) : printStatement tokens m p = some r := by
  unfold printStatement at h ⊢
  cases he : expression tokens n (consumeToken p) with
  | none => rw [he] at h; cases h
  | some p2 => rw [he] at h; rw [expression_mono hnm he]; exact h

theorem stmt_rules_mono (tokens : List Token) (n : Nat) :
    (∀ m p r, n ≤ m → program tokens n p = some r → program tokens m p = some r)
    ∧ (∀ m p r, n ≤ m → statement tokens n p = some r → statement tokens m p = some r)
    ∧ (∀ m p r, n ≤ m → conditional tokens n p = some r →
        conditional tokens m p = some r) := by
  induction n with
  | zero =>
    refine ⟨?_, ?_, ?_⟩ <;> intro m p r _ h
    · simp [program] at h
    · simp [statement] at h
    · simp [conditional] at h
  | succ n ih =>
    obtain ⟨ihP, ihS, ihC⟩ := ih
    refine ⟨?_, ?_, ?_⟩ <;> intro m p r hm h
    all_goals
      obtain ⟨m, rfl⟩ : ∃ k, m = k + 1 := ⟨m - 1, by omega⟩
      have hnm : n ≤ m := by omega
    · rw [program] at h ⊢
      split at h
      · rename_i hc; rw [if_pos hc]; exact ihS m _ _ hnm h
      · rename_i hc; rw [if_neg hc]; exact h
    · rw [statement] at h ⊢
      try dsimp only at h ⊢
      split at h
      · rename_i hc; rw [if_pos hc]; exact assignment_mono hnm h
      · rename_i hc
        rw [if_neg hc]
        split at h
        · rename_i hc2; rw [if_pos hc2]; exact ihC m _ _ hnm h
        · rename_i hc2
          rw [if_neg hc2]
          split at h
          · rename_i hc3; rw [if_pos hc3]; exact printStatement_mono hnm h
          · rename_i hc3; rw [if_neg hc3]; exact h
    · rw [conditional] at h ⊢
      try dsimp only at h ⊢
      split at h
      · rename_i c1
        rw [if_pos c1]
        cases he : expression tokens n (consumeToken (consumeToken p)) with
        | none => rw [he] at h; cases h
        | some p2 =>
          rw [he] at h; rw [expression_mono hnm he]
          try dsimp only at h ⊢
          split at h
          · rename_i c2
            rw [if_pos c2]
            split at h
            · rename_i c3
              rw [if_pos c3]
              cases hp : program tokens n (consumeToken (consumeToken p2)) with
              | none => rw [hp] at h; cases h
              | some p4 =>
                rw [hp] at h; rw [ihP m _ _ hnm hp]
                try dsimp only at h ⊢
                split at h
                · rename_i c4
                  rw [if_pos c4]
                  split at h
                  · rename_i c5
                    rw [if_pos c5]
                    split at h
                    · rename_i c6
                      rw [if_pos c6]
                      cases hp2 : program tokens n
                          (consumeToken (consumeToken (consumeToken p4))) with
                      | none => rw [hp2] at h; cases h
                      | some p7 =>
                        rw [hp2] at h; rw [ihP m _ _ hnm hp2]
                        exact h
                    · rename_i c6; rw [if_neg c6]; exact h
                  · rename_i c5; rw [if_neg c5]; exact h
                · rename_i c4; rw [if_neg c4]; exact h
            · rename_i c3; rw [if_neg c3]; exact h
          · rename_i c2; rw [if_neg c2]; exact h
      · rename_i c1; rw [if_neg c1]; exact h

theorem program_mono {tokens : List Token} {n m : Nat} {p r : Parser} (hnm : n ≤ m)
    (h : program tokens n p = some r) : program tokens m p = some r :=
  (stmt_rules_mono tokens n).1 m p r hnm h

theorem statement_mono {tokens : List Token} {n m : Nat} {p r : Parser} (hnm : n ≤ m)
    (h : statement tokens n p = some r) : statement tokens m p = some r :=
  (stmt_rules_mono tokens n).2.1 m p r hnm h

/-- Two runs of `program` that both finish agree, whatever their fuel. -/
theorem program_fuel_irrelevant {tokens : List Token} {n m : Nat} {p r1 r2 : Parser}
    (h1 : program tokens n p = some r1) (h2 : program tokens m p = some r2) : r1 = r2 := by
  have a := program_mono (Nat.le_max_left n m) h1
  have b := program_mono (Nat.le_max_right n m) h2
  rw [a] at b
  exact Option.some.inj b

/-! ## Parser lemmas: every rule returns, and how far the cursor moves -/

@[simp] theorem consumeToken_index (p : Parser) :
    (consumeToken p).currentTokenIndex = p.currentTokenIndex + 1 := rfl

@[simp] theorem consumeToken_output (p : Parser) : (consumeToken p).output = p.output := rfl

@[simp] theorem syntaxError_index (tokens : List Token) (msg : String) (p : Parser) :
    (syntaxError tokens msg p).currentTokenIndex = p.currentTokenIndex + 1 := rfl

@[simp] theorem expectSemicolon_index (tokens : List Token) (p : Parser) :
    (expectSemicolon tokens p).currentTokenIndex = p.currentTokenIndex + 1 := by
  unfold expectSemicolon; split <;> rfl

/-- Only a real token has a non-empty text: past the end the current token is
the synthesized `END_OF_FILE` with empty text. -/
theorem index_lt_of_value_ne (tokens : List Token) (p : Parser)
    (h : (getCurrentToken tokens p).value ≠ "") : p.currentTokenIndex < tokens.length := by
  by_contra hge
  have hnone : tokens[p.currentTokenIndex]? = none := by
    simpa using Nat.le_of_not_lt hge
  simp [getCurrentToken, hnone] at h

theorem index_lt_of_value_eq (tokens : List Token) (p : Parser) (v : String)
    (hv : v ≠ "") (h : (getCurrentToken tokens p).value = v) :
    p.currentTokenIndex < tokens.length :=
  index_lt_of_value_ne tokens p (by rw [h]; exact hv)

theorem expr_rules_total (tokens : List Token) (n : Nat) :
    (∀ p : Parser, 8 * (tokens.length - p.currentTokenIndex) + 1 ≤ n →
      ∃ r, factor tokens n p = some r ∧ p.currentTokenIndex < r.currentTokenIndex)
    ∧ (∀ p : Parser, 8 * (tokens.length - p.currentTokenIndex) + 1 ≤ n →
      ∃ r, termLoop tokens n p = some r ∧ p.currentTokenIndex ≤ r.currentTokenIndex)
    ∧ (∀ p : Parser, 8 * (tokens.length - p.currentTokenIndex) + 2 ≤ n →
      ∃ r, term tokens n p = some r ∧ p.currentTokenIndex < r.currentTokenIndex)
    ∧ (∀ p : Parser, 8 * (tokens.length - p.currentTokenIndex) + 1 ≤ n →
      ∃ r, expressionLoop tokens n p = some r ∧ p.currentTokenIndex ≤ r.currentTokenIndex)
    ∧ (∀ p : Parser, 8 * (tokens.length - p.currentTokenIndex) + 3 ≤ n →
      ∃ r, expression tokens n p = some r ∧ p.currentTokenIndex < r.currentTokenIndex) := by
  induction n with
  | zero => refine ⟨?_, ?_, ?_, ?_, ?_⟩ <;> intro p h <;> omega
  | succ n ih =>
    obtain ⟨ihF, ihTL, ihT, ihEL, ihE⟩ := ih
    refine ⟨?_, ?_, ?_, ?_, ?_⟩ <;> intro p hn
    · rw [factor]
      split
      · exact ⟨_, rfl, by simp⟩
      · split
        · rename_i hc
          have hlt := index_lt_of_value_eq tokens p "(" (by decide) hc
          obtain ⟨p1, he, h1⟩ := ihE (consumeToken p) (by simp; omega)
          rw [he]
          dsimp only
          simp only [consumeToken_index] at h1
          split
          · exact ⟨_, rfl, by simp; omega⟩
          · exact ⟨_, rfl, by simp; omega⟩
        · exact ⟨_, rfl, by simp⟩
    · rw [termLoop]
      split
      · rename_i hc
        have hlt : p.currentTokenIndex < tokens.length := by
          rcases hc with hc | hc
          · exact index_lt_of_value_eq tokens p "*" (by decide) hc
          · exact index_lt_of_value_eq tokens p "/" (by decide) hc
        obtain ⟨p1, he, h1⟩ := ihF (consumeToken p) (by simp; omega)
        simp only [consumeToken_index] at h1
        obtain ⟨p2, he2, h2⟩ := ihTL p1 (by omega)
        rw [he]
        exact ⟨p2, he2, by omega⟩
      · exact ⟨_, rfl, Nat.le_refl _⟩
    · rw [term]
      obtain ⟨p1, he, h1⟩ := ihF p (by omega)
      obtain ⟨p2, he2, h2⟩ := ihTL p1 (by omega)
      rw [he]
      exact ⟨p2, he2, by omega⟩
    · rw [expressionLoop]
      split
      · rename_i hc
        have hlt : p.currentTokenIndex < tokens.length := by
          rcases hc with hc | hc
          · exact index_lt_of_value_eq tokens p "+" (by decide) hc
          · exact index_lt_of_value_eq tokens p "-" (by decide) hc
        obtain ⟨p1, he, h1⟩ := ihT (consumeToken p) (by simp; omega)
        simp only [consumeToken_index] at h1
        obtain ⟨p2, he2, h2⟩ := ihEL p1 (by omega)
        rw [he]
        exact ⟨p2, he2, by omega⟩
      · exact ⟨_, rfl, Nat.le_refl _⟩
    · rw [expression]
      obtain ⟨p1, he, h1⟩ := ihT p (by omega)
      obtain ⟨p2, he2, h2⟩ := ihEL p1 (by omega)
      rw [he]
      exact ⟨p2, he2, by omega⟩

theorem expression_total (tokens : List Token) (n : Nat) (p : Parser)
    (hn : 8 * (tokens.length - p.currentTokenIndex) + 3 ≤ n) :
    ∃ r, expression tokens n p = some r ∧ p.currentTokenIndex < r.currentTokenIndex :=
  (expr_rules_total tokens n).2.2.2.2 p hn

theorem assignment_total (tokens : List Token) (n : Nat) (p : Parser)
    (hn : 8 * (tokens.length - p.currentTokenIndex) + 3 ≤ n) :
    ∃ r, assignment tokens n p = some r ∧ p.currentTokenIndex < r.currentTokenIndex := by
  unfold assignment
  dsimp only
  split
  · obtain ⟨p2, he, h2⟩ := expression_total tokens n (consumeToken (consumeToken p))
      (by simp; omega)
    rw [he]
    simp only [consumeToken_index] at h2
    exact ⟨_, rfl, by simp; omega⟩
  · exact ⟨_, rfl, by simp; omega⟩

theorem printStatement_total (tokens : List Token) (n : Nat) (p : Parser)
    (hn : 8 * (tokens.length - p.currentTokenIndex) + 3 ≤ n) :
    ∃ r, printStatement tokens n p = some r ∧ p.currentTokenIndex < r.currentTokenIndex := by
  unfold printStatement
  obtain ⟨p2, he, h2⟩ := expression_total tokens n (consumeToken p) (by simp; omega)
  rw [he]
  simp only [consumeToken_index] at h2
  exact ⟨_, rfl, by simp; omega⟩

theorem stmt_rules_total (tokens : List Token) (n : Nat) :
    (∀ p : Parser, 8 * (tokens.length - p.currentTokenIndex) + 6 ≤ n →
      ∃ r, program tokens n p = some r ∧ p.currentTokenIndex ≤ r.currentTokenIndex)
    ∧ (∀ p : Parser, 8 * (tokens.length - p.currentTokenIndex) + 5 ≤ n →
      ∃ r, statement tokens n p = some r ∧ p.currentTokenIndex < r.currentTokenIndex)
    ∧ (∀ p : Parser, 8 * (tokens.length - p.currentTokenIndex) + 4 ≤ n →
      ∃ r, conditional tokens n p = some r ∧ p.currentTokenIndex < r.currentTokenIndex) := by
  induction n with
  | zero => refine ⟨?_, ?_, ?_⟩ <;> intro p h <;> omega
  | succ n ih =>
    obtain ⟨ihP, ihS, ihC⟩ := ih
    refine ⟨?_, ?_, ?_⟩ <;> intro p hn
    · rw [program]
      split
      · obtain ⟨r, h1, h2⟩ := ihS p (by omega)
        exact ⟨r, h1, Nat.le_of_lt h2⟩
      · exact ⟨_, rfl, Nat.le_refl _⟩
    · rw [statement]
      split
      · exact assignment_total tokens n p (by omega)
      · split
        · exact ihC p (by omega)
        · split
          · exact printStatement_total tokens n p (by omega)
          · exact ⟨_, rfl, by simp⟩
    · rw [conditional]
      dsimp only
      split
      · obtain ⟨p2, he, h2⟩ := expression_total tokens n (consumeToken (consumeToken p))
          (by simp; omega)
        simp only [consumeToken_index] at h2
        rw [he]
        dsimp only
        split
        · rename_i c2
          have hlt2 := index_lt_of_value_eq tokens p2 ")" (by decide) c2
          split
          · obtain ⟨p4, hp, h4⟩ := ihP (consumeToken (consumeToken p2)) (by simp; omega)
            simp only [consumeToken_index] at h4
            rw [hp]
            dsimp only
            split
            · rename_i c4
              have hlt4 := index_lt_of_value_eq tokens p4 "\x7d" (by decide) c4
              split
              · split
                · obtain ⟨p7, hp7, h7⟩ := ihP (consumeToken (consumeToken (consumeToken p4)))
                    (by simp; omega)
                  simp only [consumeToken_index] at h7
                  rw [hp7]
                  dsimp only
                  split
                  · exact ⟨_, rfl, by simp; omega⟩
                  · exact ⟨_, rfl, by simp; omega⟩
                · exact ⟨_, rfl, by simp; omega⟩
              · exact ⟨_, rfl, by simp; omega⟩
            · exact ⟨_, rfl, by simp; omega⟩
          · exact ⟨_, rfl, by simp; omega⟩
        · exact ⟨_, rfl, by simp; omega⟩
      · exact ⟨_, rfl, by simp; omega⟩

/-- C9. Single statement per program: whatever tokens follow those of `x=1;`,
the parse emits no diagnostic and stops with the cursor at index 4, so none
of the following tokens is consumed; for `x=1;y=2;` the four tokens of `y=2;`
are left unvisited. -/
theorem single_statement_per_program (rest : List Token) :
    parse ([⟨TokenType.IDENTIFIER, "x"⟩, ⟨TokenType.OPERATOR, "="⟩,
      ⟨TokenType.INTEGER, "1"⟩, ⟨TokenType.OPERATOR, ";"⟩] ++ rest) = some ⟨4, []⟩
    ∧ tokenize "x=1;y=2;".toList
      = some ([⟨TokenType.IDENTIFIER, "x"⟩, ⟨TokenType.OPERATOR, "="⟩,
          ⟨TokenType.INTEGER, "1"⟩, ⟨TokenType.OPERATOR, ";"⟩]
        ++ [⟨TokenType.IDENTIFIER, "y"⟩, ⟨TokenType.OPERATOR, "="⟩,
          ⟨TokenType.INTEGER, "2"⟩, ⟨TokenType.OPERATOR, ";"⟩]) := by
  refine ⟨?_, by decide⟩
  have h : program ([⟨TokenType.IDENTIFIER, "x"⟩, ⟨TokenType.OPERATOR, "="⟩,
      ⟨TokenType.INTEGER, "1"⟩, ⟨TokenType.OPERATOR, ";"⟩] ++ rest) 8 ⟨0, []⟩
      = some ⟨4, []⟩ := by
    simp [program, statement, assignment, expression, term, factor, termLoop,
      expressionLoop, expectSemicolon, getCurrentToken, consumeToken]
  exact program_mono (by simp [fuelFor]) h

/-- C7 as stated fails: the `COMMENT` token of `# hello` is not ` hello`; the
token sequence the claim lists is not what the scanner returns. -/
theorem comment_text_without_hash_refuted :
    tokenize "# hello\nx=1;".toList
      ≠ some [⟨TokenType.COMMENT, " hello"⟩, ⟨TokenType.IDENTIFIER, "x"⟩,
          ⟨TokenType.OPERATOR, "="⟩, ⟨TokenType.INTEGER, "1"⟩, ⟨TokenType.OPERATOR, ";"⟩] := by
  decide

/-- C7, amended. Scanning `# hello`, a newline, then `x=1;` yields `COMMENT`
with text `# hello` (the `#` included), `IDENTIFIER x`, `OPERATOR =`,
`INTEGER 1`, `OPERATOR ;`. In general the text of a `COMMENT` token starts
with the `#`, contains no newline, and stops right before the next newline
or at the end of the source. -/
theorem comment_scanning :
    tokenize "# hello\nx=1;".toList
      = some [⟨TokenType.COMMENT, "# hello"⟩, ⟨TokenType.IDENTIFIER, "x"⟩,
          ⟨TokenType.OPERATOR, "="⟩, ⟨TokenType.INTEGER, "1"⟩, ⟨TokenType.OPERATOR, ";"⟩]
    ∧ ∀ (s : List Char) (pos : Nat), (getNextToken s pos).1.type = TokenType.COMMENT →
        (∃ rest, (getNextToken s pos).1.value = String.mk ('#' :: rest) ∧ '\n' ∉ rest)
        ∧ (getNextToken s pos).1.value = substr s (skipWhitespace s pos)
            ((getNextToken s pos).2 - skipWhitespace s pos)
        ∧ (∀ d, s[(getNextToken s pos).2]? = some d → d = '\n') := by
  refine ⟨by decide, ?_⟩
  intro s pos hty
  rcases getNextToken_cases s pos with ⟨_, h⟩ | ⟨c, _, _, h⟩ | ⟨c, _, _, _, h⟩ | ⟨hc, h⟩
      | ⟨c, _, _, _, _, h⟩
  · rw [h] at hty; simp at hty
  · rw [h] at hty
    simp only [readIdentifierOrKeyword] at hty
    split at hty <;> simp at hty
  · rw [h] at hty; simp [readNumber] at hty
  · obtain ⟨⟨rest, h1, h2⟩, h3⟩ := advanceWhile_munch (fun d => d != '\n') s
      (skipWhitespace s pos) '#' hc (by decide)
    rw [h]
    refine ⟨⟨rest, h1, ?_⟩, rfl, ?_⟩
    · intro hmem
      have := h2 '\n' (List.mem_cons_of_mem _ hmem)
      simp at this
    · intro d hd
      have := h3 d hd
      simpa using this
  · rw [h] at hty; simp at hty

/-- C8 as stated fails: the parse of `if ( x { print 1 ; }` does not end with
two diagnostics. -/
theorem cascade_two_diagnostics_refuted :
    ¬ ∃ p : Parser,
      parse [⟨TokenType.KEYWORD, "if"⟩, ⟨TokenType.OPERATOR, "("⟩,
        ⟨TokenType.IDENTIFIER, "x"⟩, ⟨TokenType.OPERATOR, "\x7b"⟩,
        ⟨TokenType.KEYWORD, "print"⟩, ⟨TokenType.INTEGER, "1"⟩, ⟨TokenType.OPERATOR, ";"⟩,
        ⟨TokenType.OPERATOR, "\x7d"⟩] = some p
      ∧ p.output.length = 2 := by
  decide

/-- C8, amended. The source `if(x{print 1;}` scans to the eight tokens
`if ( x { print 1 ; }`, and parsing them emits exactly one diagnostic, the
`Expected ')'` one with found-text `{`; recovery consumes the `{` and
`conditional` returns, so the parse ends with the cursor at 4 and the
tokens `print 1 ; }` unvisited. -/
theorem cascade_single_diagnostic :
    tokenize "if(x\x7bprint 1;\x7d".toList
      = some [⟨TokenType.KEYWORD, "if"⟩, ⟨TokenType.OPERATOR, "("⟩,
        ⟨TokenType.IDENTIFIER, "x"⟩, ⟨TokenType.OPERATOR, "\x7b"⟩,
        ⟨TokenType.KEYWORD, "print"⟩, ⟨TokenType.INTEGER, "1"⟩, ⟨TokenType.OPERATOR, ";"⟩,
        ⟨TokenType.OPERATOR, "\x7d"⟩]
    ∧ parse [⟨TokenType.KEYWORD, "if"⟩, ⟨TokenType.OPERATOR, "("⟩,
        ⟨TokenType.IDENTIFIER, "x"⟩, ⟨TokenType.OPERATOR, "\x7b"⟩,
        ⟨TokenType.KEYWORD, "print"⟩, ⟨TokenType.INTEGER, "1"⟩, ⟨TokenType.OPERATOR, ";"⟩,
        ⟨TokenType.OPERATOR, "\x7d"⟩]
      = some ⟨4, ["Syntax error: Expected ')', found \x7b"]⟩ := by
  constructor <;> decide

/-! ## The parser accepts what the grammar derives -/

theorem cur_eq (tokens a b : List Token) (t : Token) (i : Nat) (out : List String)
    (hts : tokens = a ++ t :: b) (hi : i = a.length) :
    getCurrentToken tokens ⟨i, out⟩ = t := by
  subst hts hi
  have h : (a ++ t :: b)[a.length]? = some t := by
    rw [List.getElem?_append_right (Nat.le_refl _), Nat.sub_self]
    simp
  simp only [getCurrentToken, h]

theorem cur_past_end (tokens : List Token) (i : Nat) (out : List String)
    (hi : tokens.length ≤ i) :
    getCurrentToken tokens ⟨i, out⟩ = ⟨TokenType.END_OF_FILE, ""⟩ := by
  have hnone : tokens[i]? = none := by simpa using hi
  simp [getCurrentToken, hnone]

theorem factor_mono {tokens : List Token} {n m : Nat} {p r : Parser} (hnm : n ≤ m)
    (h : factor tokens n p = some r) : factor tokens m p = some r :=
  (expr_rules_mono tokens n).1 m p r hnm h

theorem termLoop_mono {tokens : List Token} {n m : Nat} {p r : Parser} (hnm : n ≤ m)
    (h : termLoop tokens n p = some r) : termLoop tokens m p = some r :=
  (expr_rules_mono tokens n).2.1 m p r hnm h

theorem term_mono {tokens : List Token} {n m : Nat} {p r : Parser} (hnm : n ≤ m)
    (h : term tokens n p = some r) : term tokens m p = some r :=
  (expr_rules_mono tokens n).2.2.1 m p r hnm h

theorem expressionLoop_mono {tokens : List Token} {n m : Nat} {p r : Parser} (hnm : n ≤ m)
    (h : expressionLoop tokens n p = some r) : expressionLoop tokens m p = some r :=
  (expr_rules_mono tokens n).2.2.2.1 m p r hnm h

theorem conditional_mono {tokens : List Token} {n m : Nat} {p r : Parser} (hnm : n ≤ m)
    (h : conditional tokens n p = some r) : conditional tokens m p = some r :=
  (stmt_rules_mono tokens n).2.2 m p r hnm h

/-- One step of `factor` on a parenthesis. -/
theorem factor_paren_step (tokens : List Token) (n i k : Nat) (out : List String)
    (h1 : (getCurrentToken tokens ⟨i, out⟩).type ≠ TokenType.INTEGER)
    (h2 : (getCurrentToken tokens ⟨i, out⟩).type ≠ TokenType.IDENTIFIER)
    (h3 : (getCurrentToken tokens ⟨i, out⟩).value = "(")
    (he : expression tokens n ⟨i + 1, out⟩ = some ⟨k, out⟩)
    (h4 : (getCurrentToken tokens ⟨k, out⟩).value = ")") :
    factor tokens (n + 1) ⟨i, out⟩ = some ⟨k + 1, out⟩ := by
  rw [factor]
  have hne : ¬ ((getCurrentToken tokens ⟨i, out⟩).type = TokenType.INTEGER
      ∨ (getCurrentToken tokens ⟨i, out⟩).type = TokenType.IDENTIFIER) := by
    rintro (h | h)
    · exact h1 h
    · exact h2 h
  simp only [hne, if_false, h3, if_true, consumeToken, he, h4]

/-- One iteration of the loop of `term`. -/
theorem termLoop_step (tokens : List Token) (n i k j : Nat) (out : List String)
    (h1 : (getCurrentToken tokens ⟨i, out⟩).value = "*"
      ∨ (getCurrentToken tokens ⟨i, out⟩).value = "/")
    (hf : factor tokens n ⟨i + 1, out⟩ = some ⟨k, out⟩)
    (hl : termLoop tokens n ⟨k, out⟩ = some ⟨j, out⟩) :
    termLoop tokens (n + 1) ⟨i, out⟩ = some ⟨j, out⟩ := by
  rw [termLoop]
  simp only [h1, if_true, consumeToken, hf, hl]

/-- One iteration of the loop of `expression`. -/
theorem expressionLoop_step (tokens : List Token) (n i k j : Nat) (out : List String)
    (h1 : (getCurrentToken tokens ⟨i, out⟩).value = "+"
      ∨ (getCurrentToken tokens ⟨i, out⟩).value = "-")
    (hf : term tokens n ⟨i + 1, out⟩ = some ⟨k, out⟩)
    (hl : expressionLoop tokens n ⟨k, out⟩ = some ⟨j, out⟩) :
    expressionLoop tokens (n + 1) ⟨i, out⟩ = some ⟨j, out⟩ := by
  rw [expressionLoop]
  simp only [h1, if_true, consumeToken, hf, hl]

theorem termLoop_exit (tokens : List Token) (i : Nat) (out : List String)
    (h1 : (getCurrentToken tokens ⟨i, out⟩).value ≠ "*")
    (h2 : (getCurrentToken tokens ⟨i, out⟩).value ≠ "/") :
    termLoop tokens 1 ⟨i, out⟩ = some ⟨i, out⟩ := by
  rw [termLoop]
  simp only [h1, h2, or_self, if_false]

theorem expressionLoop_exit (tokens : List Token) (i : Nat) (out : List String)
    (h1 : (getCurrentToken tokens ⟨i, out⟩).value ≠ "+")
    (h2 : (getCurrentToken tokens ⟨i, out⟩).value ≠ "-") :
    expressionLoop tokens 1 ⟨i, out⟩ = some ⟨i, out⟩ := by
  rw [expressionLoop]
  simp only [h1, h2, or_self, if_false]

theorem term_step (tokens : List Token) (n i k j : Nat) (out : List String)
    (hf : factor tokens n ⟨i, out⟩ = some ⟨k, out⟩)
    (hl : termLoop tokens n ⟨k, out⟩ = some ⟨j, out⟩) :
    term tokens (n + 1) ⟨i, out⟩ = some ⟨j, out⟩ := by
  rw [term]
  simp only [hf, hl]

theorem expression_step (tokens : List Token) (n i k j : Nat) (out : List String)
    (hf : term tokens n ⟨i, out⟩ = some ⟨k, out⟩)
    (hl : expressionLoop tokens n ⟨k, out⟩ = some ⟨j, out⟩) :
    expression tokens (n + 1) ⟨i, out⟩ = some ⟨j, out⟩ := by
  rw [expression]
  simp only [hf, hl]

/-- The first token of a non-empty repetition `{ ("+" | "-") term }`. -/
theorem expressionRest_head (r : List Token) (h : Derives Nonterminal.expressionRest r) :
    r = [] ∨ ∃ op rest, r = op :: rest ∧ (op.value = "+" ∨ op.value = "-") := by
  cases h with
  | expressionRest_nil => exact Or.inl rfl
  | expressionRest_cons op t r hop ht hr => exact Or.inr ⟨op, t ++ r, rfl, hop⟩

theorem termRest_head (r : List Token) (h : Derives Nonterminal.termRest r) :
    r = [] ∨ ∃ op rest, r = op :: rest ∧ (op.value = "*" ∨ op.value = "/") := by
  cases h with
  | termRest_nil => exact Or.inl rfl
  | termRest_cons op f r hop hf hr => exact Or.inr ⟨op, f ++ r, rfl, hop⟩

theorem assignment_accept (tokens : List Token) (n i k : Nat) (out : List String)
    (h1 : (getCurrentToken tokens ⟨i + 1, out⟩).value = "=")
    (he : expression tokens n ⟨i + 2, out⟩ = some ⟨k, out⟩)
    (h2 : (getCurrentToken tokens ⟨k, out⟩).value = ";") :
    assignment tokens n ⟨i, out⟩ = some ⟨k + 1, out⟩ := by
  unfold assignment
  simp only [consumeToken, h1, if_true, he, expectSemicolon, h2]

theorem printStatement_accept (tokens : List Token) (n i k : Nat) (out : List String)
    (he : expression tokens n ⟨i + 1, out⟩ = some ⟨k, out⟩)
    (h2 : (getCurrentToken tokens ⟨k, out⟩).value = ";") :
    printStatement tokens n ⟨i, out⟩ = some ⟨k + 1, out⟩ := by
  unfold printStatement
  simp only [consumeToken, he, expectSemicolon, h2, if_true]

theorem conditional_accept_if (tokens : List Token) (n i k m : Nat) (out : List String)
    (h1 : (getCurrentToken tokens ⟨i + 1, out⟩).value = "(")
    (he : expression tokens n ⟨i + 2, out⟩ = some ⟨k, out⟩)
    (h2 : (getCurrentToken tokens ⟨k, out⟩).value = ")")
    (h3 : (getCurrentToken tokens ⟨k + 1, out⟩).value = "\x7b")
    (hp : program tokens n ⟨k + 2, out⟩ = some ⟨m, out⟩)
    (h4 : (getCurrentToken tokens ⟨m, out⟩).value = "\x7d")
    (h5 : (getCurrentToken tokens ⟨m + 1, out⟩).value ≠ "else") :
    conditional tokens (n + 1) ⟨i, out⟩ = some ⟨m + 1, out⟩ := by
  rw [conditional]
  simp only [consumeToken, h1, if_true, he, h2, h3, hp, h4, h5, if_false]

theorem conditional_accept_if_else (tokens : List Token) (n i k m q : Nat)
    (out : List String)
    (h1 : (getCurrentToken tokens ⟨i + 1, out⟩).value = "(")
    (he : expression tokens n ⟨i + 2, out⟩ = some ⟨k, out⟩)
    (h2 : (getCurrentToken tokens ⟨k, out⟩).value = ")")
    (h3 : (getCurrentToken tokens ⟨k + 1, out⟩).value = "\x7b")
    (hp : program tokens n ⟨k + 2, out⟩ = some ⟨m, out⟩)
    (h4 : (getCurrentToken tokens ⟨m, out⟩).value = "\x7d")
    (h5 : (getCurrentToken tokens ⟨m + 1, out⟩).value = "else")
    (h6 : (getCurrentToken tokens ⟨m + 2, out⟩).value = "\x7b")
    (hp2 : program tokens n ⟨m + 3, out⟩ = some ⟨q, out⟩)
    (h7 : (getCurrentToken tokens ⟨q, out⟩).value = "\x7d") :
    conditional tokens (n + 1) ⟨i, out⟩ = some ⟨q + 1, out⟩ := by
  rw [conditional]
  simp only [consumeToken, h1, if_true, he, h2, h3, hp, h4, h5, h6, hp2, h7]

theorem program_of_statement (tokens : List Token) (n : Nat) (p r : Parser)
    (h : (getCurrentToken tokens p).type ≠ TokenType.END_OF_FILE)
    (hs : statement tokens n p = some r) : program tokens (n + 1) p = some r := by
  rw [program]
  simp only [h, ne_eq, not_false_eq_true, if_true, hs]

theorem statement_of_assignment (tokens : List Token) (n : Nat) (p : Parser)
    (h : (getCurrentToken tokens p).type = TokenType.IDENTIFIER) :
    statement tokens (n + 1) p = assignment tokens n p := by
  rw [statement]
  simp only [h, if_true]

theorem statement_of_conditional (tokens : List Token) (n : Nat) (p : Parser)
    (h1 : (getCurrentToken tokens p).type = TokenType.KEYWORD)
    (h2 : (getCurrentToken tokens p).value = "if") :
    statement tokens (n + 1) p = conditional tokens n p := by
  rw [statement]
  simp [h1, h2]

theorem statement_of_printStatement (tokens : List Token) (n : Nat) (p : Parser)
    (h1 : (getCurrentToken tokens p).type = TokenType.KEYWORD)
    (h2 : (getCurrentToken tokens p).value = "print") :
    statement tokens (n + 1) p = printStatement tokens n p := by
  rw [statement]
  simp [h1, h2]

/-- Every derivation is followed by the parser: the rule of `X` run on the
part `w` of `tokens` consumes exactly `w` and prints nothing. -/
theorem derives_accepts {X : Nonterminal} {w : List Token} (h : Derives X w) :
    ∀ (tokens pre post : List Token) (i j : Nat) (out : List String),
      tokens = pre ++ w ++ post → (∀ t ∈ w, Coherent t) →
      i = pre.length → j = pre.length + w.length → Accepts X tokens i j out := by
  induction h with
  | factor_integer t ht =>
    intro tokens pre post i j out hts _ hi hj
    have hcur := cur_eq tokens pre post t i out (by simp [hts]) hi
    have hj2 : j = i + 1 := by simp at hj; omega
    refine ⟨1, ?_⟩
    rw [factor]
    simp [hcur, ht, consumeToken, hj2]
  | factor_identifier t ht =>
    intro tokens pre post i j out hts _ hi hj
    have hcur := cur_eq tokens pre post t i out (by simp [hts]) hi
    have hj2 : j = i + 1 := by simp at hj; omega
    refine ⟨1, ?_⟩
    rw [factor]
    simp [hcur, ht, consumeToken, hj2]
  | factor_paren l r e hl he hr ihe =>
    intro tokens pre post i j out hts hco hi hj
    have hcl := hco l (by simp)
    have hcurl := cur_eq tokens pre (e ++ [r] ++ post) l i out (by simp [hts]) hi
    have hcurr := cur_eq tokens (pre ++ l :: e) post r (i + 1 + e.length) out
      (by simp [hts]) (by simp [hi]; omega)
    have h1 : (getCurrentToken tokens ⟨i + 1 + e.length, out⟩).value ∉ ["+", "-", "*", "/"] →
        ∃ n, expression tokens n ⟨i + 1, out⟩ = some ⟨i + 1 + e.length, out⟩ :=
      ihe tokens (pre ++ [l]) (r :: post) (i + 1) (i + 1 + e.length) out (by simp [hts])
        (fun t ht => hco t (by simp [ht])) (by simp [hi]) (by simp [hi])
    obtain ⟨n, hn⟩ := h1 (by rw [hcurr, hr]; decide)
    have hj2 : j = i + 1 + e.length + 1 := by simp at hj; omega
    rw [hj2]
    exact ⟨n + 1, factor_paren_step tokens n i _ out (by rw [hcurl]; exact (hcl.2 hl).1)
      (by rw [hcurl]; exact (hcl.2 hl).2) (by rw [hcurl]; exact hl) hn
      (by rw [hcurr]; exact hr)⟩
  | termRest_nil =>
    intro tokens pre post i j out _ _ hi hj h1 h2
    have hj2 : j = i := by simp at hj; omega
    subst hj2
    exact ⟨1, termLoop_exit tokens j out h1 h2⟩
  | termRest_cons op f r hop hf hr ihf ihr =>
    intro tokens pre post i j out hts hco hi hj h1 h2
    have hcur := cur_eq tokens pre (f ++ r ++ post) op i out (by simp [hts]) hi
    have hF : ∃ n, factor tokens n ⟨i + 1, out⟩ = some ⟨i + 1 + f.length, out⟩ :=
      ihf tokens (pre ++ [op]) (r ++ post) (i + 1) (i + 1 + f.length) out (by simp [hts])
        (fun t ht => hco t (by simp [ht])) (by simp [hi]) (by simp [hi])
    have hR : (getCurrentToken tokens ⟨j, out⟩).value ≠ "*" →
        (getCurrentToken tokens ⟨j, out⟩).value ≠ "/" →
        ∃ n, termLoop tokens n ⟨i + 1 + f.length, out⟩ = some ⟨j, out⟩ :=
      ihr tokens (pre ++ op :: f) post (i + 1 + f.length) j out (by simp [hts])
        (fun t ht => hco t (by simp [ht])) (by simp [hi]; omega) (by simp at hj ⊢; omega)
    obtain ⟨n1, hn1⟩ := hF
    obtain ⟨n2, hn2⟩ := hR h1 h2
    exact ⟨max n1 n2 + 1, termLoop_step tokens _ i _ j out (by rw [hcur]; exact hop)
      (factor_mono (Nat.le_max_left _ _) hn1) (termLoop_mono (Nat.le_max_right _ _) hn2)⟩
  | term_mk f r hf hr ihf ihr =>
    intro tokens pre post i j out hts hco hi hj h1 h2
    have hF : ∃ n, factor tokens n ⟨i, out⟩ = some ⟨i + f.length, out⟩ :=
      ihf tokens pre (r ++ post) i (i + f.length) out (by simp [hts])
        (fun t ht => hco t (by simp [ht])) hi (by simp [hi])
    have hR : (getCurrentToken tokens ⟨j, out⟩).value ≠ "*" →
        (getCurrentToken tokens ⟨j, out⟩).value ≠ "/" →
        ∃ n, termLoop tokens n ⟨i + f.length, out⟩ = some ⟨j, out⟩ :=
      ihr tokens (pre ++ f) post (i + f.length) j out (by simp [hts])
        (fun t ht => hco t (by simp [ht])) (by simp [hi]) (by simp at hj ⊢; omega)
    obtain ⟨n1, hn1⟩ := hF
    obtain ⟨n2, hn2⟩ := hR h1 h2
    exact ⟨max n1 n2 + 1, term_step tokens _ i _ j out
      (factor_mono (Nat.le_max_left _ _) hn1) (termLoop_mono (Nat.le_max_right _ _) hn2)⟩
  | expressionRest_nil =>
    intro tokens pre post i j out _ _ hi hj hfol
    have hj2 : j = i := by simp at hj; omega
    subst hj2
    exact ⟨1, expressionLoop_exit tokens j out (fun h => hfol (by simp [h]))
      (fun h => hfol (by simp [h]))⟩
  | expressionRest_cons op t r hop ht hr iht ihr =>
    intro tokens pre post i j out hts hco hi hj hfol
    have hcur := cur_eq tokens pre (t ++ r ++ post) op i out (by simp [hts]) hi
    have hT : (getCurrentToken tokens ⟨i + 1 + t.length, out⟩).value ≠ "*" →
        (getCurrentToken tokens ⟨i + 1 + t.length, out⟩).value ≠ "/" →
        ∃ n, term tokens n ⟨i + 1, out⟩ = some ⟨i + 1 + t.length, out⟩ :=
      iht tokens (pre ++ [op]) (r ++ post) (i + 1) (i + 1 + t.length) out (by simp [hts])
        (fun t ht => hco t (by simp [ht])) (by simp [hi]) (by simp [hi])
    have hR : (getCurrentToken tokens ⟨j, out⟩).value ∉ ["+", "-", "*", "/"] →
        ∃ n, expressionLoop tokens n ⟨i + 1 + t.length, out⟩ = some ⟨j, out⟩ :=
      ihr tokens (pre ++ op :: t) post (i + 1 + t.length) j out (by simp [hts])
        (fun t ht => hco t (by simp [ht])) (by simp [hi]; omega) (by simp at hj ⊢; omega)
    have hnext : (getCurrentToken tokens ⟨i + 1 + t.length, out⟩).value ≠ "*"
        ∧ (getCurrentToken tokens ⟨i + 1 + t.length, out⟩).value ≠ "/" := by
      rcases expressionRest_head r hr with rfl | ⟨op2, rest, rfl, hop2⟩
      · have hj2 : j = i + 1 + t.length := by simp at hj; omega
        rw [← hj2]
        exact ⟨fun h => hfol (by simp [h]), fun h => hfol (by simp [h])⟩
      · have hc2 := cur_eq tokens (pre ++ op :: t) (rest ++ post) op2 (i + 1 + t.length) out
          (by simp [hts]) (by simp [hi]; omega)
        rw [hc2]
        rcases hop2 with h | h <;> rw [h] <;> exact ⟨by decide, by decide⟩
    obtain ⟨n1, hn1⟩ := hT hnext.1 hnext.2
    obtain ⟨n2, hn2⟩ := hR hfol
    exact ⟨max n1 n2 + 1, expressionLoop_step tokens _ i _ j out (by rw [hcur]; exact hop)
      (term_mono (Nat.le_max_left _ _) hn1) (expressionLoop_mono (Nat.le_max_right _ _) hn2)⟩
  | expression_mk t r ht hr iht ihr =>
    intro tokens pre post i j out hts hco hi hj hfol
    have hT : (getCurrentToken tokens ⟨i + t.length, out⟩).value ≠ "*" →
        (getCurrentToken tokens ⟨i + t.length, out⟩).value ≠ "/" →
        ∃ n, term tokens n ⟨i, out⟩ = some ⟨i + t.length, out⟩ :=
      iht tokens pre (r ++ post) i (i + t.length) out (by simp [hts])
        (fun t ht => hco t (by simp [ht])) hi (by simp [hi])
    have hR : (getCurrentToken tokens ⟨j, out⟩).value ∉ ["+", "-", "*", "/"] →
        ∃ n, expressionLoop tokens n ⟨i + t.length, out⟩ = some ⟨j, out⟩ :=
      ihr tokens (pre ++ t) post (i + t.length) j out (by simp [hts])
        (fun t ht => hco t (by simp [ht])) (by simp [hi]) (by simp at hj ⊢; omega)
    have hnext : (getCurrentToken tokens ⟨i + t.length, out⟩).value ≠ "*"
        ∧ (getCurrentToken tokens ⟨i + t.length, out⟩).value ≠ "/" := by
      rcases expressionRest_head r hr with rfl | ⟨op2, rest, rfl, hop2⟩
      · have hj2 : j = i + t.length := by simp at hj; omega
        rw [← hj2]
        exact ⟨fun h => hfol (by simp [h]), fun h => hfol (by simp [h])⟩
      · have hc2 := cur_eq tokens (pre ++ t) (rest ++ post) op2 (i + t.length) out
          (by simp [hts]) (by simp [hi])
        rw [hc2]
        rcases hop2 with h | h <;> rw [h] <;> exact ⟨by decide, by decide⟩
    obtain ⟨n1, hn1⟩ := hT hnext.1 hnext.2
    obtain ⟨n2, hn2⟩ := hR hfol
    exact ⟨max n1 n2 + 1, expression_step tokens _ i _ j out
      (term_mono (Nat.le_max_left _ _) hn1) (expressionLoop_mono (Nat.le_max_right _ _) hn2)⟩
  | assignment_mk id eq semi e hid heq he hsemi ihe =>
    intro tokens pre post i j out hts hco hi hj
    have hcid := cur_eq tokens pre (eq :: e ++ [semi] ++ post) id i out (by simp [hts]) hi
    have hceq := cur_eq tokens (pre ++ [id]) (e ++ [semi] ++ post) eq (i + 1) out
      (by simp [hts]) (by simp [hi])
    have hcsemi := cur_eq tokens (pre ++ id :: eq :: e) post semi (i + 2 + e.length) out
      (by simp [hts]) (by simp [hi]; omega)
    have hE : (getCurrentToken tokens ⟨i + 2 + e.length, out⟩).value ∉ ["+", "-", "*", "/"] →
        ∃ n, expression tokens n ⟨i + 2, out⟩ = some ⟨i + 2 + e.length, out⟩ :=
      ihe tokens (pre ++ [id, eq]) (semi :: post) (i + 2) (i + 2 + e.length) out
        (by simp [hts]) (fun t ht => hco t (by simp [ht])) (by simp [hi])
        (by simp [hi])
    obtain ⟨n, hn⟩ := hE (by rw [hcsemi, hsemi]; decide)
    have hj2 : j = i + 2 + e.length + 1 := by simp at hj; omega
    rw [hj2]
    exact ⟨by rw [hcid]; exact hid, n, assignment_accept tokens n i _ out
      (by rw [hceq]; exact heq) hn (by rw [hcsemi]; exact hsemi)⟩
  | printStatement_mk kw semi e hkw he hsemi ihe =>
    intro tokens pre post i j out hts hco hi hj
    have hck := hco kw (by simp)
    have hckw := cur_eq tokens pre (e ++ [semi] ++ post) kw i out (by simp [hts]) hi
    have hcsemi := cur_eq tokens (pre ++ kw :: e) post semi (i + 1 + e.length) out
      (by simp [hts]) (by simp [hi]; omega)
    have hE : (getCurrentToken tokens ⟨i + 1 + e.length, out⟩).value ∉ ["+", "-", "*", "/"] →
        ∃ n, expression tokens n ⟨i + 1, out⟩ = some ⟨i + 1 + e.length, out⟩ :=
      ihe tokens (pre ++ [kw]) (semi :: post) (i + 1) (i + 1 + e.length) out
        (by simp [hts]) (fun t ht => hco t (by simp [ht])) (by simp [hi])
        (by simp [hi])
    obtain ⟨n, hn⟩ := hE (by rw [hcsemi, hsemi]; decide)
    have hj2 : j = i + 1 + e.length + 1 := by simp at hj; omega
    rw [hj2]
    exact ⟨by rw [hckw]; exact ⟨hck.1 (Or.inr hkw), hkw⟩, n,
      printStatement_accept tokens n i _ out hn (by rw [hcsemi]; exact hsemi)⟩
  | conditional_if kw l r lb rb e s hkw hl he hr hlb hs hrb ihe ihs =>
    intro tokens pre post i j out hts hco hi hj hfol
    have hck := hco kw (by simp)
    have hckw := cur_eq tokens pre (l :: e ++ r :: lb :: s ++ [rb] ++ post) kw i out
      (by simp [hts]) hi
    have hcl := cur_eq tokens (pre ++ [kw]) (e ++ r :: lb :: s ++ [rb] ++ post) l (i + 1) out
      (by simp [hts]) (by simp [hi])
    have hcr := cur_eq tokens (pre ++ kw :: l :: e) (lb :: s ++ [rb] ++ post) r
      (i + 2 + e.length) out (by simp [hts]) (by simp [hi]; omega)
    have hclb := cur_eq tokens (pre ++ kw :: l :: e ++ [r]) (s ++ [rb] ++ post) lb
      (i + 2 + e.length + 1) out (by simp [hts]) (by simp [hi]; omega)
    have hcrb := cur_eq tokens (pre ++ kw :: l :: e ++ r :: lb :: s) post rb
      (i + 2 + e.length + 2 + s.length) out (by simp [hts]) (by simp [hi]; omega)
    have hE : (getCurrentToken tokens ⟨i + 2 + e.length, out⟩).value ∉ ["+", "-", "*", "/"] →
        ∃ n, expression tokens n ⟨i + 2, out⟩ = some ⟨i + 2 + e.length, out⟩ :=
      ihe tokens (pre ++ [kw, l]) (r :: lb :: s ++ [rb] ++ post) (i + 2) (i + 2 + e.length) out
        (by simp [hts]) (fun t ht => hco t (by simp [ht])) (by simp [hi])
        (by simp [hi])
    have hS : (getCurrentToken tokens ⟨i + 2 + e.length + 2 + s.length, out⟩).value ≠ "else" →
        (getCurrentToken tokens ⟨i + 2 + e.length + 2, out⟩).type ≠ TokenType.END_OF_FILE
        ∧ ∃ n, statement tokens n ⟨i + 2 + e.length + 2, out⟩
            = some ⟨i + 2 + e.length + 2 + s.length, out⟩ :=
      ihs tokens (pre ++ kw :: l :: e ++ [r, lb]) (rb :: post) (i + 2 + e.length + 2)
        (i + 2 + e.length + 2 + s.length) out
        (by simp [hts]) (fun t ht => hco t (by simp [ht])) (by simp [hi]; omega)
        (by simp [hi]; omega)
    obtain ⟨n1, hn1⟩ := hE (by rw [hcr, hr]; decide)
    obtain ⟨hty, n2, hn2⟩ := hS (by rw [hcrb, hrb]; decide)
    have hP := program_of_statement tokens n2 _ _ hty hn2
    have hj2 : j = i + 2 + e.length + 2 + s.length + 1 := by simp at hj; omega
    subst hj2
    exact ⟨by rw [hckw]; exact ⟨hck.1 (Or.inl hkw), hkw⟩, max n1 (n2 + 1) + 1,
      conditional_accept_if tokens _ i (i + 2 + e.length) _ out
        (by rw [hcl]; exact hl) (expression_mono (Nat.le_max_left _ _) hn1)
        (by rw [hcr]; exact hr) (by rw [hclb]; exact hlb)
        (program_mono (Nat.le_max_right _ _) hP) (by rw [hcrb]; exact hrb) hfol⟩
  | conditional_if_else kw l r lb rb el lb2 rb2 e s s2 hkw hl he hr hlb hs hrb hel hlb2 hs2
      hrb2 ihe ihs ihs2 =>
    intro tokens pre post i j out hts hco hi hj _
    have hck := hco kw (by simp)
    have hckw := cur_eq tokens pre
      (l :: e ++ r :: lb :: s ++ rb :: el :: lb2 :: s2 ++ [rb2] ++ post) kw i out
      (by simp [hts]) hi
    have hcl := cur_eq tokens (pre ++ [kw])
      (e ++ r :: lb :: s ++ rb :: el :: lb2 :: s2 ++ [rb2] ++ post) l (i + 1) out
      (by simp [hts]) (by simp [hi])
    have hcr := cur_eq tokens (pre ++ kw :: l :: e)
      (lb :: s ++ rb :: el :: lb2 :: s2 ++ [rb2] ++ post) r
      (i + 2 + e.length) out (by simp [hts]) (by simp [hi]; omega)
    have hclb := cur_eq tokens (pre ++ kw :: l :: e ++ [r])
      (s ++ rb :: el :: lb2 :: s2 ++ [rb2] ++ post) lb
      (i + 2 + e.length + 1) out (by simp [hts]) (by simp [hi]; omega)
    have hcrb := cur_eq tokens (pre ++ kw :: l :: e ++ r :: lb :: s)
      (el :: lb2 :: s2 ++ [rb2] ++ post) rb
      (i + 2 + e.length + 2 + s.length) out (by simp [hts]) (by simp [hi]; omega)
    have hcel := cur_eq tokens (pre ++ kw :: l :: e ++ r :: lb :: s ++ [rb])
      (lb2 :: s2 ++ [rb2] ++ post) el
      (i + 2 + e.length + 2 + s.length + 1) out (by simp [hts]) (by simp [hi]; omega)
    have hclb2 := cur_eq tokens (pre ++ kw :: l :: e ++ r :: lb :: s ++ [rb, el])
      (s2 ++ [rb2] ++ post) lb2
      (i + 2 + e.length + 2 + s.length + 2) out (by simp [hts]) (by simp [hi]; omega)
    have hcrb2 := cur_eq tokens (pre ++ kw :: l :: e ++ r :: lb :: s ++ rb :: el :: lb2 :: s2)
      post rb2
      (i + 2 + e.length + 2 + s.length + 3 + s2.length) out (by simp [hts])
      (by simp [hi]; omega)
    have hE : (getCurrentToken tokens ⟨i + 2 + e.length, out⟩).value ∉ ["+", "-", "*", "/"] →
        ∃ n, expression tokens n ⟨i + 2, out⟩ = some ⟨i + 2 + e.length, out⟩ :=
      ihe tokens (pre ++ [kw, l]) (r :: lb :: s ++ rb :: el :: lb2 :: s2 ++ [rb2] ++ post)
        (i + 2) (i + 2 + e.length) out
        (by simp [hts]) (fun t ht => hco t (by simp [ht])) (by simp [hi])
        (by simp [hi])
    have hS : (getCurrentToken tokens ⟨i + 2 + e.length + 2 + s.length, out⟩).value ≠ "else" →
        (getCurrentToken tokens ⟨i + 2 + e.length + 2, out⟩).type ≠ TokenType.END_OF_FILE
        ∧ ∃ n, statement tokens n ⟨i + 2 + e.length + 2, out⟩
            = some ⟨i + 2 + e.length + 2 + s.length, out⟩ :=
      ihs tokens (pre ++ kw :: l :: e ++ [r, lb]) (rb :: el :: lb2 :: s2 ++ [rb2] ++ post)
        (i + 2 + e.length + 2) (i + 2 + e.length + 2 + s.length) out
        (by simp [hts]) (fun t ht => hco t (by simp [ht])) (by simp [hi]; omega)
        (by simp [hi]; omega)
    have hS2 : (getCurrentToken tokens
          ⟨i + 2 + e.length + 2 + s.length + 3 + s2.length, out⟩).value ≠ "else" →
        (getCurrentToken tokens ⟨i + 2 + e.length + 2 + s.length + 3, out⟩).type
          ≠ TokenType.END_OF_FILE
        ∧ ∃ n, statement tokens n ⟨i + 2 + e.length + 2 + s.length + 3, out⟩
            = some ⟨i + 2 + e.length + 2 + s.length + 3 + s2.length, out⟩ :=
      ihs2 tokens (pre ++ kw :: l :: e ++ r :: lb :: s ++ [rb, el, lb2]) (rb2 :: post)
        (i + 2 + e.length + 2 + s.length + 3)
        (i + 2 + e.length + 2 + s.length + 3 + s2.length) out
        (by simp [hts]) (fun t ht => hco t (by simp [ht])) (by simp [hi]; omega)
        (by simp [hi]; omega)
    obtain ⟨n1, hn1⟩ := hE (by rw [hcr, hr]; decide)
    obtain ⟨hty, n2, hn2⟩ := hS (by rw [hcrb, hrb]; decide)
    obtain ⟨hty3, n3, hn3⟩ := hS2 (by rw [hcrb2, hrb2]; decide)
    have hP := program_of_statement tokens n2 _ _ hty hn2
    have hP3 := program_of_statement tokens n3 _ _ hty3 hn3
    have hj2 : j = i + 2 + e.length + 2 + s.length + 3 + s2.length + 1 := by
      simp at hj; omega
    subst hj2
    exact ⟨by rw [hckw]; exact ⟨hck.1 (Or.inl hkw), hkw⟩,
      max n1 (max (n2 + 1) (n3 + 1)) + 1,
      conditional_accept_if_else tokens _ i (i + 2 + e.length)
        (i + 2 + e.length + 2 + s.length) _ out
        (by rw [hcl]; exact hl) (expression_mono (Nat.le_max_left _ _) hn1)
        (by rw [hcr]; exact hr) (by rw [hclb]; exact hlb)
        (program_mono (by omega) hP) (by rw [hcrb]; exact hrb)
        (by rw [hcel]; exact hel) (by rw [hclb2]; exact hlb2)
        (program_mono (by omega) hP3) (by rw [hcrb2]; exact hrb2)⟩
  | statement_assignment w h ih =>
    intro tokens pre post i j out hts hco hi hj _
    have hA : (getCurrentToken tokens ⟨i, out⟩).type = TokenType.IDENTIFIER
        ∧ ∃ n, assignment tokens n ⟨i, out⟩ = some ⟨j, out⟩ :=
      ih tokens pre post i j out hts hco hi hj
    obtain ⟨hty, n, hn⟩ := hA
    exact ⟨by rw [hty]; decide, n + 1, by rw [statement_of_assignment tokens n _ hty]; exact hn⟩
  | statement_conditional w h ih =>
    intro tokens pre post i j out hts hco hi hj hfol
    have hC : (getCurrentToken tokens ⟨j, out⟩).value ≠ "else" →
        ((getCurrentToken tokens ⟨i, out⟩).type = TokenType.KEYWORD
          ∧ (getCurrentToken tokens ⟨i, out⟩).value = "if")
        ∧ ∃ n, conditional tokens n ⟨i, out⟩ = some ⟨j, out⟩ :=
      ih tokens pre post i j out hts hco hi hj
    obtain ⟨⟨hty, hval⟩, n, hn⟩ := hC hfol
    exact ⟨by rw [hty]; decide, n + 1,
      by rw [statement_of_conditional tokens n _ hty hval]; exact hn⟩
  | statement_printStatement w h ih =>
    intro tokens pre post i j out hts hco hi hj _
    have hA : ((getCurrentToken tokens ⟨i, out⟩).type = TokenType.KEYWORD
          ∧ (getCurrentToken tokens ⟨i, out⟩).value = "print")
        ∧ ∃ n, printStatement tokens n ⟨i, out⟩ = some ⟨j, out⟩ :=
      ih tokens pre post i j out hts hco hi hj
    obtain ⟨⟨hty, hval⟩, n, hn⟩ := hA
    exact ⟨by rw [hty]; decide, n + 1,
      by rw [statement_of_printStatement tokens n _ hty hval]; exact hn⟩

theorem parse_of_program {tokens : List Token} {n : Nat} {r : Parser}
    (h : program tokens n ⟨0, []⟩ = some r) : parse tokens = some r := by
  obtain ⟨r2, hr, _⟩ := (stmt_rules_total tokens (fuelFor tokens 0)).1 ⟨0, []⟩
    (by simp [fuelFor])
  rw [parse, hr, program_fuel_irrelevant hr h]

/-- A single `INTEGER` or `IDENTIFIER` token is an expression. -/
theorem derives_atom (t : Token)
    (h : t.type = TokenType.INTEGER ∨ t.type = TokenType.IDENTIFIER) :
    Derives Nonterminal.expression [t] := by
  have hf : Derives Nonterminal.factor [t] := by
    rcases h with h | h
    · exact Derives.factor_integer t h
    · exact Derives.factor_identifier t h
  exact Derives.expression_mk [t] [] (Derives.term_mk [t] [] hf Derives.termRest_nil)
    Derives.expressionRest_nil

/-- Acceptance for coherent tokens: a token sequence derivable from
`statement` in which the text `if` or `print` occurs only on `KEYWORD` tokens
and the text `(` never on an `INTEGER` or `IDENTIFIER` token is parsed with
no diagnostic, the cursor ending at its length. -/
theorem accepts_of_coherent (tokens : List Token)
    (h : Derives Nonterminal.statement tokens) (hco : ∀ t ∈ tokens, Coherent t) :
    parse tokens = some ⟨tokens.length, []⟩ := by
  have hA : (getCurrentToken tokens ⟨0 + tokens.length, []⟩).value ≠ "else" →
      (getCurrentToken tokens ⟨0, []⟩).type ≠ TokenType.END_OF_FILE
      ∧ ∃ n, statement tokens n ⟨0, []⟩ = some ⟨0 + tokens.length, []⟩ :=
    derives_accepts h tokens [] [] 0 (0 + tokens.length) [] (by simp) hco rfl rfl
  obtain ⟨hty, n, hn⟩ := hA (by
    rw [cur_past_end tokens _ [] (by omega)]
    decide)
  rw [Nat.zero_add] at hn
  exact parse_of_program (program_of_statement tokens n _ _ hty hn)

theorem expectSemicolon_at_end (tokens : List Token) (k : Nat) (out : List String)
    (h : tokens.length ≤ k) :
    expectSemicolon tokens ⟨k, out⟩
      = ⟨k + 1, out ++ ["Syntax error: Expected ';', found "]⟩ := by
  have hcur := cur_past_end tokens k out h
  have hne : (getCurrentToken tokens ⟨k, out⟩).value ≠ ";" := by rw [hcur]; decide
  simp only [expectSemicolon, hne, if_false, syntaxError, report, consumeToken, hcur]
  rfl

/-- Missing terminator for coherent tokens: when `tokens` followed by one more
token is a derivable assignment or print statement, and in `tokens` the text
`if` or `print` occurs only on `KEYWORD` tokens and the text `(` never on an
`INTEGER` or `IDENTIFIER` token, `parse` emits exactly one diagnostic, the
`Expected ';'` one with empty found-text, and consumes the synthesized
`END_OF_FILE`. -/
theorem missing_terminator_of_coherent (tokens : List Token) (semi : Token)
    (h : Derives Nonterminal.assignment (tokens ++ [semi])
      ∨ Derives Nonterminal.printStatement (tokens ++ [semi]))
    (hco : ∀ t ∈ tokens, Coherent t) :
    parse tokens = some ⟨tokens.length + 1, ["Syntax error: Expected ';', found "]⟩ := by
  rcases h with h | h
  · generalize hw : tokens ++ [semi] = w at h
    cases h with
    | assignment_mk id eq semi2 e hid heq he hsemi2 =>
      have hw2 : tokens ++ [semi] = (id :: eq :: e) ++ [semi2] := hw
      have hsplit : tokens = id :: eq :: e ∧ [semi] = [semi2] := List.append_inj' hw2 rfl
      obtain ⟨rfl, _⟩ := hsplit
      have hE : (getCurrentToken (id :: eq :: e) ⟨2 + e.length, []⟩).value
            ∉ ["+", "-", "*", "/"] →
          ∃ n, expression (id :: eq :: e) n ⟨2, []⟩ = some ⟨2 + e.length, []⟩ :=
        derives_accepts he (id :: eq :: e) [id, eq] [] 2 (2 + e.length) [] (by simp)
          (fun t ht => hco t (by simp [ht])) rfl rfl
      have hend : (id :: eq :: e).length ≤ 2 + e.length := by simp; omega
      obtain ⟨n, hn⟩ := hE (by rw [cur_past_end _ _ [] hend]; decide)
      have hcid : getCurrentToken (id :: eq :: e) ⟨0, []⟩ = id := by simp [getCurrentToken]
      have hceq : getCurrentToken (id :: eq :: e) ⟨0 + 1, []⟩ = eq := by simp [getCurrentToken]
      have hA : assignment (id :: eq :: e) n ⟨0, []⟩
          = some ⟨2 + e.length + 1, ["Syntax error: Expected ';', found "]⟩ := by
        unfold assignment
        simp only [consumeToken, hceq, heq, if_true, hn,
          expectSemicolon_at_end _ _ [] hend, List.nil_append]
      have hS := statement_of_assignment (id :: eq :: e) n ⟨0, []⟩ (by rw [hcid]; exact hid)
      have hP := program_of_statement (id :: eq :: e) (n + 1) ⟨0, []⟩ _
        (by rw [hcid, hid]; decide) (hS.trans hA)
      have hlen : (id :: eq :: e).length + 1 = 2 + e.length + 1 := by simp; omega
      rw [hlen]
      exact parse_of_program hP
  · generalize hw : tokens ++ [semi] = w at h
    cases h with
    | printStatement_mk kw semi2 e hkw he hsemi2 =>
      have hw2 : tokens ++ [semi] = (kw :: e) ++ [semi2] := hw
      have hsplit : tokens = kw :: e ∧ [semi] = [semi2] := List.append_inj' hw2 rfl
      obtain ⟨rfl, _⟩ := hsplit
      have hck := hco kw (by simp)
      have hE : (getCurrentToken (kw :: e) ⟨1 + e.length, []⟩).value
            ∉ ["+", "-", "*", "/"] →
          ∃ n, expression (kw :: e) n ⟨1, []⟩ = some ⟨1 + e.length, []⟩ :=
        derives_accepts he (kw :: e) [kw] [] 1 (1 + e.length) [] (by simp)
          (fun t ht => hco t (by simp [ht])) rfl rfl
      have hend : (kw :: e).length ≤ 1 + e.length := by simp; omega
      obtain ⟨n, hn⟩ := hE (by rw [cur_past_end _ _ [] hend]; decide)
      have hckw : getCurrentToken (kw :: e) ⟨0, []⟩ = kw := by simp [getCurrentToken]
      have hA : printStatement (kw :: e) n ⟨0, []⟩
          = some ⟨1 + e.length + 1, ["Syntax error: Expected ';', found "]⟩ := by
        unfold printStatement
        simp only [consumeToken, hn, expectSemicolon_at_end _ _ [] hend, List.nil_append]
      have hS := statement_of_printStatement (kw :: e) n ⟨0, []⟩
        (by rw [hckw]; exact hck.1 (Or.inr hkw)) (by rw [hckw]; exact hkw)
      have hP := program_of_statement (kw :: e) (n + 1) ⟨0, []⟩ _
        (by rw [hckw, hck.1 (Or.inr hkw)]; decide) (hS.trans hA)
      have hlen : (kw :: e).length + 1 = 1 + e.length + 1 := by simp; omega
      rw [hlen]
      exact parse_of_program hP

/-! ## More on the scanner -/

theorem skipWhitespace_at_nonspace (s : List Char) (pos : Nat) (c : Char)
    (hc : s[pos]? = some c) (hs : isSpace c = false) : skipWhitespace s pos = pos := by
  obtain ⟨hlt, _⟩ := List.getElem?_eq_some.mp hc
  have hfuel : s.length - pos = (s.length - pos - 1) + 1 := by omega
  rw [skipWhitespace, hfuel, advanceWhile]
  simp [hc, hs]

/-- C14. Lexical fallback: at a character `c` that is not whitespace, not a
letter, digit or underscore and not `#`, `getNextToken` returns `OPERATOR`
with the one-character text `c` and moves the cursor by exactly one. -/
theorem lexical_fallback (s : List Char) (pos : Nat) (c : Char) (hc : s[pos]? = some c)
    (hs : isSpace c = false) (ha : isAlpha c = false) (hd : isDigit c = false)
    (hh : c ≠ '#') :
    getNextToken s pos = (⟨TokenType.OPERATOR, String.mk [c]⟩, pos + 1) := by
  have hq := skipWhitespace_at_nonspace s pos c hc hs
  rcases getNextToken_cases s pos with ⟨h1, _⟩ | ⟨c2, h1, h2, _⟩ | ⟨c2, h1, _, h2, _⟩ | ⟨h1, _⟩
      | ⟨c2, h1, _, _, _, h⟩
  · rw [hq, hc] at h1; cases h1
  · rw [hq, hc] at h1; cases h1; rw [ha] at h2; cases h2
  · rw [hq, hc] at h1; cases h1; rw [hd] at h2; cases h2
  · rw [hq, hc] at h1; cases h1; exact absurd rfl hh
  · rw [hq, hc] at h1; cases h1; rw [h, hq]

theorem lexical_fallback_witness :
    ("a\x7b".toList[1]? = some '\x7b' ∧ isSpace '\x7b' = false ∧ isAlpha '\x7b' = false
      ∧ isDigit '\x7b' = false ∧ '\x7b' ≠ '#')
    ∧ getNextToken "a\x7b".toList 1 = (⟨TokenType.OPERATOR, "\x7b"⟩, 2)
    ∧ getNextToken "\x7d".toList 0 = (⟨TokenType.OPERATOR, "\x7d"⟩, 1)
    ∧ getNextToken "@".toList 0 = (⟨TokenType.OPERATOR, "@"⟩, 1)
    ∧ getNextToken "!".toList 0 = (⟨TokenType.OPERATOR, "!"⟩, 1)
    ∧ getNextToken "+".toList 0 = (⟨TokenType.OPERATOR, "+"⟩, 1)
    ∧ getNextToken ";".toList 0 = (⟨TokenType.OPERATOR, ";"⟩, 1) :=
  ⟨⟨by decide, by decide, by decide, by decide, by decide⟩,
    lexical_fallback "a\x7b".toList 1 '\x7b' (by decide) (by decide) (by decide) (by decide)
      (by decide),
    lexical_fallback "\x7d".toList 0 '\x7d' (by decide) (by decide) (by decide) (by decide)
      (by decide),
    lexical_fallback "@".toList 0 '@' (by decide) (by decide) (by decide) (by decide)
      (by decide),
    lexical_fallback "!".toList 0 '!' (by decide) (by decide) (by decide) (by decide)
      (by decide),
    lexical_fallback "+".toList 0 '+' (by decide) (by decide) (by decide) (by decide)
      (by decide),
    lexical_fallback ";".toList 0 ';' (by decide) (by decide) (by decide) (by decide)
      (by decide)⟩

theorem getNextToken_type_ne_boolean (s : List Char) (pos : Nat) :
    (getNextToken s pos).1.type ≠ TokenType.BOOLEAN := by
  rcases getNextToken_cases s pos with ⟨_, h⟩ | ⟨c, _, _, h⟩ | ⟨c, _, _, _, h⟩ | ⟨_, h⟩
      | ⟨c, _, _, _, _, h⟩
  · rw [h]; simp
  · rw [h]; simp only [readIdentifierOrKeyword]; split <;> simp
  · rw [h]; simp [readNumber]
  · rw [h]; simp [readComment]
  · rw [h]; simp

/-- Every token the driver collects is the result of some `getNextToken` call. -/
theorem collectTokens_mem (s : List Char) (fuel pos : Nat) (toks : List Token)
    (h : collectTokens s fuel pos = some toks) :
    ∀ t ∈ toks, ∃ q, t = (getNextToken s q).1 := by
  induction fuel generalizing pos toks with
  | zero => simp [collectTokens] at h
  | succ fuel ih =>
    rw [collectTokens] at h
    try dsimp only at h
    split at h
    · cases h; simp
    · cases hr : collectTokens s fuel (getNextToken s pos).2 with
      | none => rw [hr] at h; cases h
      | some rest =>
        rw [hr] at h
        cases h
        intro t ht
        rcases List.mem_cons.mp ht with rfl | ht
        · exact ⟨pos, rfl⟩
        · exact ih _ rest hr t ht

/-- C15. `BOOLEAN` is dead: no `getNextToken` call returns a token of kind
`BOOLEAN`, so none is among the tokens the driver collects; the sources
`true` and `false` each scan as one `KEYWORD` token. -/
theorem boolean_never_scanned (s : List Char) :
    (∀ pos, (getNextToken s pos).1.type ≠ TokenType.BOOLEAN)
    ∧ (∀ toks, tokenize s = some toks → ∀ t ∈ toks, t.type ≠ TokenType.BOOLEAN)
    ∧ tokenize "true".toList = some [⟨TokenType.KEYWORD, "true"⟩]
    ∧ tokenize "false".toList = some [⟨TokenType.KEYWORD, "false"⟩] := by
  refine ⟨getNextToken_type_ne_boolean s, ?_, by decide, by decide⟩
  intro toks h t ht
  obtain ⟨q, rfl⟩ := collectTokens_mem s _ 0 toks h t ht
  exact getNextToken_type_ne_boolean s q

theorem getNextToken_cursor (s : List Char) (pos : Nat) (h : pos ≤ s.length) :
    pos ≤ (getNextToken s pos).2 ∧ (getNextToken s pos).2 ≤ s.length := by
  have h1 := skipWhitespace_ge s pos
  have h2 := skipWhitespace_le s pos h
  rcases getNextToken_span s pos with ⟨_, heq⟩ | ⟨hgt, hle, _, _⟩
  · rw [heq]; exact ⟨h1, h2⟩
  · exact ⟨by omega, hle⟩

theorem cursorAfter_succ (s : List Char) (k pos : Nat) :
    cursorAfter s (k + 1) pos = (getNextToken s (cursorAfter s k pos)).2 := by
  induction k generalizing pos with
  | zero => rfl
  | succ k ih =>
    show cursorAfter s (k + 1) (getNextToken s pos).2 = _
    rw [ih]
    rfl

theorem cursorAfter_le (s : List Char) (k pos : Nat) (h : pos ≤ s.length) :
    cursorAfter s k pos ≤ s.length := by
  induction k generalizing pos with
  | zero => exact h
  | succ k ih => exact ih _ (getNextToken_cursor s pos h).2

/-- C16. Scan-cursor invariant: from a cursor `pos` within the source a call
of `getNextToken` leaves the cursor at some `p'` with `pos ≤ p' ≤ length`;
so along any number of calls the cursor never decreases and never exceeds
the source length. -/
theorem scan_cursor_invariant (s : List Char) (pos : Nat) (h : pos ≤ s.length) :
    (pos ≤ (getNextToken s pos).2 ∧ (getNextToken s pos).2 ≤ s.length)
    ∧ ∀ k, cursorAfter s k pos ≤ cursorAfter s (k + 1) pos
        ∧ cursorAfter s (k + 1) pos ≤ s.length := by
  refine ⟨getNextToken_cursor s pos h, fun k => ?_⟩
  rw [cursorAfter_succ]
  exact getNextToken_cursor s _ (cursorAfter_le s k pos h)

theorem scan_cursor_invariant_witness :
    0 ≤ "x = 1".toList.length
    ∧ ((0 ≤ (getNextToken "x = 1".toList 0).2
        ∧ (getNextToken "x = 1".toList 0).2 ≤ "x = 1".toList.length)
      ∧ ∀ k, cursorAfter "x = 1".toList k 0 ≤ cursorAfter "x = 1".toList (k + 1) 0
          ∧ cursorAfter "x = 1".toList (k + 1) 0 ≤ "x = 1".toList.length) :=
  ⟨by decide, scan_cursor_invariant "x = 1".toList 0 (by decide)⟩

/-! ## Slices of the token list -/

theorem getCurrentToken_eq_tokenAt (tokens : List Token) (p : Parser) :
    getCurrentToken tokens p = tokenAt tokens p.currentTokenIndex := rfl

theorem tokenAt_eq_getElem (tokens : List Token) (i : Nat) (h : i < tokens.length) :
    tokenAt tokens i = tokens[i] := by
  simp [tokenAt, getCurrentToken, List.getElem?_eq_getElem h]

theorem tokenAt_past_end (tokens : List Token) (i : Nat) (h : tokens.length ≤ i) :
    tokenAt tokens i = ⟨TokenType.END_OF_FILE, ""⟩ :=
  cur_past_end tokens i [] h

theorem lt_of_tokenAt_value (tokens : List Token) (i : Nat) (v : String) (hv : v ≠ "")
    (h : (tokenAt tokens i).value = v) : i < tokens.length := by
  by_contra hge
  rw [tokenAt_past_end tokens i (Nat.le_of_not_lt hge)] at h
  exact hv h.symm

theorem lt_of_tokenAt_type (tokens : List Token) (i : Nat)
    (h : (tokenAt tokens i).type ≠ TokenType.END_OF_FILE) : i < tokens.length := by
  by_contra hge
  rw [tokenAt_past_end tokens i (Nat.le_of_not_lt hge)] at h
  exact h rfl

theorem tokenAt_type_of_noEndOfFile (tokens : List Token) (i : Nat) (h : i < tokens.length)
    (hne : NoEndOfFile tokens) : (tokenAt tokens i).type ≠ TokenType.END_OF_FILE := by
  rw [tokenAt_eq_getElem tokens i h]
  exact hne _ (List.getElem_mem h)

theorem slice_self (tokens : List Token) (i : Nat) : slice tokens i i = [] := by
  simp [slice]

theorem slice_append (tokens : List Token) (i k j : Nat) (h1 : i ≤ k) (h2 : k ≤ j) :
    slice tokens i j = slice tokens i k ++ slice tokens k j := by
  unfold slice
  have e1 : j - i = (k - i) + (j - k) := by omega
  have e2 : tokens.drop k = (tokens.drop i).drop (k - i) := by
    rw [List.drop_drop]
    congr 1
    omega
  rw [e1, e2, List.take_add]

theorem slice_one (tokens : List Token) (i : Nat) (h : i < tokens.length) :
    slice tokens i (i + 1) = [tokenAt tokens i] := by
  have e : i + 1 - i = 1 := by omega
  rw [slice, e, tokenAt_eq_getElem tokens i h, List.drop_eq_getElem_cons h]
  rfl

theorem slice_head (tokens : List Token) (i j : Nat) (h : i < tokens.length) (hj : i < j) :
    slice tokens i j = tokenAt tokens i :: slice tokens (i + 1) j := by
  rw [slice_append tokens i (i + 1) j (by omega) (by omega), slice_one tokens i h]
  rfl

theorem slice_last (tokens : List Token) (i k : Nat) (h : k < tokens.length) (hk : i ≤ k) :
    slice tokens i (k + 1) = slice tokens i k ++ [tokenAt tokens k] := by
  rw [slice_append tokens i k (k + 1) hk (by omega), slice_one tokens k h]

theorem slice_zero (tokens : List Token) (j : Nat) : slice tokens 0 j = tokens.take j := by
  simp [slice]

/-! ## Every run of a rule satisfies `Run` -/

@[simp] theorem syntaxError_output (tokens : List Token) (msg : String) (p : Parser) :
    (syntaxError tokens msg p).output = p.output ++ [msg ++ (getCurrentToken tokens p).value] :=
  rfl

theorem slice_paren (tokens : List Token) (i k : Nat) (hk : k < tokens.length)
    (hik : i + 1 ≤ k) :
    slice tokens i (k + 1) = tokenAt tokens i :: slice tokens (i + 1) k ++ [tokenAt tokens k] := by
  rw [slice_head tokens i (k + 1) (by omega) (by omega), slice_last tokens (i + 1) k hk hik]
  rfl

theorem expr_rules_run (tokens : List Token) (n : Nat) :
    (∀ p r, factor tokens n p = some r → Run tokens Nonterminal.factor 1 p r)
    ∧ (∀ p r, termLoop tokens n p = some r → Run tokens Nonterminal.termRest 0 p r)
    ∧ (∀ p r, term tokens n p = some r → Run tokens Nonterminal.term 1 p r)
    ∧ (∀ p r, expressionLoop tokens n p = some r →
        Run tokens Nonterminal.expressionRest 0 p r)
    ∧ (∀ p r, expression tokens n p = some r → Run tokens Nonterminal.expression 1 p r) := by
  induction n with
  | zero =>
    refine ⟨?_, ?_, ?_, ?_, ?_⟩ <;> intro p r h
    · simp [factor] at h
    · simp [termLoop] at h
    · simp [term] at h
    · simp [expressionLoop] at h
    · simp [expression] at h
  | succ n ih =>
    obtain ⟨ihF, ihTL, ihT, ihEL, ihE⟩ := ih
    refine ⟨?_, ?_, ?_, ?_, ?_⟩ <;> intro p r h
    · rw [factor] at h
      split at h
      · rename_i hc
        cases h
        have hty : (tokenAt tokens p.currentTokenIndex).type ≠ TokenType.END_OF_FILE := by
          rcases hc with hc | hc <;>
            (rw [← getCurrentToken_eq_tokenAt, hc]; decide)
        have hlt := lt_of_tokenAt_type tokens _ hty
        refine ⟨[], by simp, ?_, ?_, ?_, ?_, ?_⟩
        · simp
        · simp
        · simp only [consumeToken_index, List.length_nil]; omega
        · simp only [consumeToken_index]; omega
        · intro _ _
          have hs := slice_one tokens p.currentTokenIndex hlt
          have hd : Derives Nonterminal.factor [tokenAt tokens p.currentTokenIndex] := by
            rcases hc with hc | hc
            · exact Derives.factor_integer _ hc
            · exact Derives.factor_identifier _ hc
          rw [← hs] at hd
          exact hd
      · split at h
        · rename_i hc1
          have hc1t : (tokenAt tokens p.currentTokenIndex).value = "(" := hc1
          have hlt := lt_of_tokenAt_value tokens _ "(" (by decide) hc1t
          cases he : expression tokens n (consumeToken p) with
          | none => rw [he] at h; cases h
          | some p1 =>
            rw [he] at h
            dsimp only at h
            obtain ⟨ds1, ho1, a1, b1, c1, e1, s1⟩ := ihE _ _ he
            simp only [consumeToken_index, consumeToken_output] at ho1 a1 b1 c1 e1 s1
            split at h
            · rename_i hc2
              cases h
              have hc2t : (tokenAt tokens p1.currentTokenIndex).value = ")" := hc2
              have hlt2 := lt_of_tokenAt_value tokens _ ")" (by decide) hc2t
              refine ⟨ds1, by simpa using ho1, ?_, ?_, ?_, ?_, ?_⟩
              · simp only [consumeToken_index]; omega
              · simp only [consumeToken_index]; omega
              · simp only [consumeToken_index]; omega
              · simp only [consumeToken_index]; omega
              · intro hds hne
                have hd := Derives.factor_paren _ _ _ hc1t (s1 hds hne) hc2t
                rw [← slice_paren tokens p.currentTokenIndex p1.currentTokenIndex hlt2
                  (by omega)] at hd
                exact hd
            · cases h
              refine ⟨ds1 ++ [_], by rw [syntaxError_output, ho1, List.append_assoc],
                ?_, ?_, ?_, ?_, ?_⟩
              · simp only [syntaxError_index]; omega
              · simp only [syntaxError_index, List.length_append, List.length_singleton]; omega
              · simp only [syntaxError_index, List.length_append, List.length_singleton]; omega
              · simp only [syntaxError_index]; omega
              · intro hds; simp at hds
        · cases h
          refine ⟨[_], by rw [syntaxError_output], ?_, ?_, ?_, ?_, ?_⟩
          · simp
          · simp
          · simp only [syntaxError_index, List.length_singleton]; omega
          · simp only [syntaxError_index]; omega
          · intro hds; simp at hds
    · rw [termLoop] at h
      split at h
      · rename_i hc
        have hct : (tokenAt tokens p.currentTokenIndex).value = "*"
            ∨ (tokenAt tokens p.currentTokenIndex).value = "/" := hc
        have hlt : p.currentTokenIndex < tokens.length := by
          rcases hct with hc | hc
          · exact lt_of_tokenAt_value tokens _ "*" (by decide) hc
          · exact lt_of_tokenAt_value tokens _ "/" (by decide) hc
        cases he : factor tokens n (consumeToken p) with
        | none => rw [he] at h; cases h
        | some p1 =>
          rw [he] at h
          dsimp only at h
          obtain ⟨ds1, ho1, a1, b1, c1, e1, s1⟩ := ihF _ _ he
          simp only [consumeToken_index, consumeToken_output] at ho1 a1 b1 c1 e1 s1
          obtain ⟨ds2, ho2, a2, b2, c2, e2, s2⟩ := ihTL _ _ h
          refine ⟨ds1 ++ ds2, by rw [ho2, ho1, List.append_assoc], ?_, ?_, ?_, ?_, ?_⟩
          · omega
          · simp only [List.length_append]; omega
          · simp only [List.length_append]; omega
          · omega
          · intro hds hne
            obtain ⟨h1, h2⟩ := List.append_eq_nil.mp hds
            have hd := Derives.termRest_cons _ _ _ hct (s1 h1 hne) (s2 h2 hne)
            rw [slice_head tokens p.currentTokenIndex r.currentTokenIndex hlt (by omega),
              slice_append tokens (p.currentTokenIndex + 1) p1.currentTokenIndex
                r.currentTokenIndex (by omega) (by omega)]
            exact hd
      · cases h
        refine ⟨[], by simp, ?_, ?_, ?_, ?_, ?_⟩
        · omega
        · simp
        · simp
        · omega
        · intro _ _
          rw [slice_self]
          exact Derives.termRest_nil
    · rw [term] at h
      cases he : factor tokens n p with
      | none => rw [he] at h; cases h
      | some p1 =>
        rw [he] at h
        dsimp only at h
        obtain ⟨ds1, ho1, a1, b1, c1, e1, s1⟩ := ihF _ _ he
        obtain ⟨ds2, ho2, a2, b2, c2, e2, s2⟩ := ihTL _ _ h
        refine ⟨ds1 ++ ds2, by rw [ho2, ho1, List.append_assoc], ?_, ?_, ?_, ?_, ?_⟩
        · omega
        · simp only [List.length_append]; omega
        · simp only [List.length_append]; omega
        · omega
        · intro hds hne
          obtain ⟨h1, h2⟩ := List.append_eq_nil.mp hds
          have hd := Derives.term_mk _ _ (s1 h1 hne) (s2 h2 hne)
          rw [slice_append tokens p.currentTokenIndex p1.currentTokenIndex
            r.currentTokenIndex (by omega) (by omega)]
          exact hd
    · rw [expressionLoop] at h
      split at h
      · rename_i hc
        have hct : (tokenAt tokens p.currentTokenIndex).value = "+"
            ∨ (tokenAt tokens p.currentTokenIndex).value = "-" := hc
        have hlt : p.currentTokenIndex < tokens.length := by
          rcases hct with hc | hc
          · exact lt_of_tokenAt_value tokens _ "+" (by decide) hc
          · exact lt_of_tokenAt_value tokens _ "-" (by decide) hc
        cases he : term tokens n (consumeToken p) with
        | none => rw [he] at h; cases h
        | some p1 =>
          rw [he] at h
          dsimp only at h
          obtain ⟨ds1, ho1, a1, b1, c1, e1, s1⟩ := ihT _ _ he
          simp only [consumeToken_index, consumeToken_output] at ho1 a1 b1 c1 e1 s1
          obtain ⟨ds2, ho2, a2, b2, c2, e2, s2⟩ := ihEL _ _ h
          refine ⟨ds1 ++ ds2, by rw [ho2, ho1, List.append_assoc], ?_, ?_, ?_, ?_, ?_⟩
          · omega
          · simp only [List.length_append]; omega
          · simp only [List.length_append]; omega
          · omega
          · intro hds hne
            obtain ⟨h1, h2⟩ := List.append_eq_nil.mp hds
            have hd := Derives.expressionRest_cons _ _ _ hct (s1 h1 hne) (s2 h2 hne)
            rw [slice_head tokens p.currentTokenIndex r.currentTokenIndex hlt (by omega),
              slice_append tokens (p.currentTokenIndex + 1) p1.currentTokenIndex
                r.currentTokenIndex (by omega) (by omega)]
            exact hd
      · cases h
        refine ⟨[], by simp, ?_, ?_, ?_, ?_, ?_⟩
        · omega
        · simp
        · simp
        · omega
        · intro _ _
          rw [slice_self]
          exact Derives.expressionRest_nil
    · rw [expression] at h
      cases he : term tokens n p with
      | none => rw [he] at h; cases h
      | some p1 =>
        rw [he] at h
        dsimp only at h
        obtain ⟨ds1, ho1, a1, b1, c1, e1, s1⟩ := ihT _ _ he
        obtain ⟨ds2, ho2, a2, b2, c2, e2, s2⟩ := ihEL _ _ h
        refine ⟨ds1 ++ ds2, by rw [ho2, ho1, List.append_assoc], ?_, ?_, ?_, ?_, ?_⟩
        · omega
        · simp only [List.length_append]; omega
        · simp only [List.length_append]; omega
        · omega
        · intro hds hne
          obtain ⟨h1, h2⟩ := List.append_eq_nil.mp hds
          have hd := Derives.expression_mk _ _ (s1 h1 hne) (s2 h2 hne)
          rw [slice_append tokens p.currentTokenIndex p1.currentTokenIndex
            r.currentTokenIndex (by omega) (by omega)]
          exact hd

theorem slice_if (tokens : List Token) (i k m : Nat) (hk : i + 2 ≤ k) (hm : k + 2 ≤ m)
    (hmL : m < tokens.length) :
    slice tokens i (m + 1)
      = tokenAt tokens i :: tokenAt tokens (i + 1) :: slice tokens (i + 2) k
        ++ tokenAt tokens k :: tokenAt tokens (k + 1) :: slice tokens (k + 2) m
        ++ [tokenAt tokens m] := by
  rw [slice_head tokens i (m + 1) (by omega) (by omega),
    slice_head tokens (i + 1) (m + 1) (by omega) (by omega),
    slice_append tokens (i + 1 + 1) k (m + 1) (by omega) (by omega),
    slice_head tokens k (m + 1) (by omega) (by omega),
    slice_head tokens (k + 1) (m + 1) (by omega) (by omega),
    slice_last tokens (k + 1 + 1) m hmL (by omega)]
  simp

theorem slice_if_else (tokens : List Token) (i k m q : Nat) (hk : i + 2 ≤ k) (hm : k + 2 ≤ m)
    (hq : m + 3 ≤ q) (hqL : q < tokens.length) :
    slice tokens i (q + 1)
      = tokenAt tokens i :: tokenAt tokens (i + 1) :: slice tokens (i + 2) k
        ++ tokenAt tokens k :: tokenAt tokens (k + 1) :: slice tokens (k + 2) m
        ++ tokenAt tokens m :: tokenAt tokens (m + 1) :: tokenAt tokens (m + 2)
          :: slice tokens (m + 3) q
        ++ [tokenAt tokens q] := by
  rw [slice_append tokens i (m + 1) (q + 1) (by omega) (by omega),
    slice_if tokens i k m hk hm (by omega),
    slice_head tokens (m + 1) (q + 1) (by omega) (by omega),
    slice_head tokens (m + 1 + 1) (q + 1) (by omega) (by omega),
    slice_last tokens (m + 1 + 1 + 1) q hqL (by omega)]
  simp

theorem assignment_run (tokens : List Token) (n : Nat) (p r : Parser)
    (h : assignment tokens n p = some r)
    (hty : (getCurrentToken tokens p).type = TokenType.IDENTIFIER) :
    Run tokens Nonterminal.assignment 1 p r := by
  have htyt : (tokenAt tokens p.currentTokenIndex).type = TokenType.IDENTIFIER := hty
  have hlt := lt_of_tokenAt_type tokens _ (by rw [htyt]; decide)
  unfold assignment at h
  dsimp only at h
  split at h
  · rename_i hc
    have hct : (tokenAt tokens (p.currentTokenIndex + 1)).value = "=" := hc
    have hlt1 := lt_of_tokenAt_value tokens _ "=" (by decide) hct
    cases he : expression tokens n (consumeToken (consumeToken p)) with
    | none => rw [he] at h; cases h
    | some p2 =>
      rw [he] at h
      dsimp only at h
      obtain ⟨ds1, ho1, a1, b1, c1, e1, s1⟩ := (expr_rules_run tokens n).2.2.2.2 _ _ he
      simp only [consumeToken_index, consumeToken_output] at ho1 a1 b1 c1 e1 s1
      cases h
      by_cases hs : (getCurrentToken tokens p2).value = ";"
      · have hst : (tokenAt tokens p2.currentTokenIndex).value = ";" := hs
        have hlt2 := lt_of_tokenAt_value tokens _ ";" (by decide) hst
        have hr : expectSemicolon tokens p2 = consumeToken p2 := by
          simp [expectSemicolon, hs]
        rw [hr]
        refine ⟨ds1, by simpa using ho1, ?_, ?_, ?_, ?_, ?_⟩
        · simp only [consumeToken_index]; omega
        · simp only [consumeToken_index]; omega
        · simp only [consumeToken_index]; omega
        · simp only [consumeToken_index]; omega
        · intro hds hne
          have hd := Derives.assignment_mk _ _ _ _ htyt hct (s1 hds hne) hst
          simp only [consumeToken_index]
          rw [slice_head tokens p.currentTokenIndex (p2.currentTokenIndex + 1) hlt (by omega),
            slice_paren tokens (p.currentTokenIndex + 1) p2.currentTokenIndex hlt2 (by omega)]
          exact hd
      · have hr : expectSemicolon tokens p2
            = syntaxError tokens "Syntax error: Expected ';', found " p2 := by
          simp [expectSemicolon, hs]
        rw [hr]
        refine ⟨ds1 ++ [_], by rw [syntaxError_output, ho1, List.append_assoc],
          ?_, ?_, ?_, ?_, ?_⟩
        · simp only [syntaxError_index]; omega
        · simp only [syntaxError_index, List.length_append, List.length_singleton]; omega
        · simp only [syntaxError_index, List.length_append, List.length_singleton]; omega
        · simp only [syntaxError_index]; omega
        · intro hds; simp at hds
  · cases h
    refine ⟨[_], by rw [syntaxError_output, consumeToken_output], ?_, ?_, ?_, ?_, ?_⟩
    · simp only [syntaxError_index, consumeToken_index]; omega
    · simp only [syntaxError_index, consumeToken_index, List.length_singleton]; omega
    · simp only [syntaxError_index, consumeToken_index, List.length_singleton]; omega
    · simp only [syntaxError_index, consumeToken_index]; omega
    · intro hds; simp at hds

theorem printStatement_run (tokens : List Token) (n : Nat) (p r : Parser)
    (h : printStatement tokens n p = some r)
    (hval : (getCurrentToken tokens p).value = "print") :
    Run tokens Nonterminal.printStatement 1 p r := by
  have hvalt : (tokenAt tokens p.currentTokenIndex).value = "print" := hval
  have hlt := lt_of_tokenAt_value tokens _ "print" (by decide) hvalt
  unfold printStatement at h
  cases he : expression tokens n (consumeToken p) with
  | none => rw [he] at h; cases h
  | some p2 =>
    rw [he] at h
    dsimp only at h
    obtain ⟨ds1, ho1, a1, b1, c1, e1, s1⟩ := (expr_rules_run tokens n).2.2.2.2 _ _ he
    simp only [consumeToken_index, consumeToken_output] at ho1 a1 b1 c1 e1 s1
    cases h
    by_cases hs : (getCurrentToken tokens p2).value = ";"
    · have hst : (tokenAt tokens p2.currentTokenIndex).value = ";" := hs
      have hlt2 := lt_of_tokenAt_value tokens _ ";" (by decide) hst
      have hr : expectSemicolon tokens p2 = consumeToken p2 := by
        simp [expectSemicolon, hs]
      rw [hr]
      refine ⟨ds1, by simpa using ho1, ?_, ?_, ?_, ?_, ?_⟩
      · simp only [consumeToken_index]; omega
      · simp only [consumeToken_index]; omega
      · simp only [consumeToken_index]; omega
      · simp only [consumeToken_index]; omega
      · intro hds hne
        have hd := Derives.printStatement_mk _ _ _ hvalt (s1 hds hne) hst
        simp only [consumeToken_index]
        rw [slice_paren tokens p.currentTokenIndex p2.currentTokenIndex hlt2 (by omega)]
        exact hd
    · have hr : expectSemicolon tokens p2
          = syntaxError tokens "Syntax error: Expected ';', found " p2 := by
        simp [expectSemicolon, hs]
      rw [hr]
      refine ⟨ds1 ++ [_], by rw [syntaxError_output, ho1, List.append_assoc],
        ?_, ?_, ?_, ?_, ?_⟩
      · simp only [syntaxError_index]; omega
      · simp only [syntaxError_index, List.length_append, List.length_singleton]; omega
      · simp only [syntaxError_index, List.length_append, List.length_singleton]; omega
      · simp only [syntaxError_index]; omega
      · intro hds; simp at hds

/-- A run of `X` that is a statement alternative is a run of `statement`. -/
theorem run_statement_of (tokens : List Token) (X : Nonterminal) (p r : Parser)
    (h : Run tokens X 1 p r) (hX : ∀ w, Derives X w → Derives Nonterminal.statement w) :
    Run tokens Nonterminal.statement 1 p r := by
  obtain ⟨ds, ho, a, b, c, e, s⟩ := h
  exact ⟨ds, ho, a, b, c, e, fun hds hne => hX _ (s hds hne)⟩

/-- What `program` does as the body of a block: as a run of `statement`, but
possibly without moving; when it is silent and stops on a real token it has
consumed a statement. -/
theorem block_of_program_run (tokens : List Token) (p r : Parser)
    (h : ((getCurrentToken tokens p).type = TokenType.END_OF_FILE ∧ r = p)
      ∨ ((getCurrentToken tokens p).type ≠ TokenType.END_OF_FILE
        ∧ Run tokens Nonterminal.statement 1 p r)) :
    ∃ ds : List String, r.output = p.output ++ ds
      ∧ p.currentTokenIndex ≤ r.currentTokenIndex
      ∧ p.currentTokenIndex + ds.length ≤ r.currentTokenIndex
      ∧ r.currentTokenIndex
          ≤ p.currentTokenIndex + (tokens.length - p.currentTokenIndex) + ds.length
      ∧ r.currentTokenIndex
          ≤ p.currentTokenIndex + 2 * (tokens.length - p.currentTokenIndex) + 1
      ∧ (ds = [] → NoEndOfFile tokens → r.currentTokenIndex < tokens.length →
          Derives Nonterminal.statement
            (slice tokens p.currentTokenIndex r.currentTokenIndex)) := by
  rcases h with ⟨hty, rfl⟩ | ⟨_, ds, ho, a, b, c, e, s⟩
  · refine ⟨[], by simp, Nat.le_refl _, by simp, by simp, by omega, ?_⟩
    intro _ hne hlt
    exact absurd hty (tokenAt_type_of_noEndOfFile tokens _ hlt hne)
  · exact ⟨ds, ho, by omega, b, c, e, fun hds hne _ => s hds hne⟩

theorem stmt_rules_run (tokens : List Token) (n : Nat) :
    (∀ p r, program tokens n p = some r →
      ((getCurrentToken tokens p).type = TokenType.END_OF_FILE ∧ r = p)
      ∨ ((getCurrentToken tokens p).type ≠ TokenType.END_OF_FILE
        ∧ Run tokens Nonterminal.statement 1 p r))
    ∧ (∀ p r, statement tokens n p = some r → Run tokens Nonterminal.statement 1 p r)
    ∧ (∀ p r, conditional tokens n p = some r → (getCurrentToken tokens p).value = "if" →
      Run tokens Nonterminal.conditional 1 p r) := by
  induction n with
  | zero =>
    refine ⟨?_, ?_, ?_⟩ <;> intro p r h
    · simp [program] at h
    · simp [statement] at h
    · simp [conditional] at h
  | succ n ih =>
    obtain ⟨ihP, ihS, ihC⟩ := ih
    refine ⟨?_, ?_, ?_⟩
    · intro p r h
      rw [program] at h
      split at h
      · rename_i hc
        exact Or.inr ⟨hc, ihS _ _ h⟩
      · rename_i hc
        cases h
        exact Or.inl ⟨by simpa using hc, rfl⟩
    · intro p r h
      rw [statement] at h
      split at h
      · rename_i hc
        exact run_statement_of tokens _ p r (assignment_run tokens n p r h hc)
          Derives.statement_assignment
      · split at h
        · rename_i hc
          exact run_statement_of tokens _ p r (ihC _ _ h hc.2) Derives.statement_conditional
        · split at h
          · rename_i hc
            exact run_statement_of tokens _ p r (printStatement_run tokens n p r h hc.2)
              Derives.statement_printStatement
          · cases h
            refine ⟨[_], by rw [syntaxError_output], ?_, ?_, ?_, ?_, ?_⟩
            · simp
            · simp
            · simp only [syntaxError_index, List.length_singleton]; omega
            · simp only [syntaxError_index]; omega
            · intro hds; simp at hds
    · intro p r h hval
      have hvalt : (tokenAt tokens p.currentTokenIndex).value = "if" := hval
      have hlt := lt_of_tokenAt_value tokens _ "if" (by decide) hvalt
      rw [conditional] at h
      dsimp only at h
      split at h
      · rename_i c1
        have c1t : (tokenAt tokens (p.currentTokenIndex + 1)).value = "(" := c1
        have hlt1 := lt_of_tokenAt_value tokens _ "(" (by decide) c1t
        cases he : expression tokens n (consumeToken (consumeToken p)) with
        | none => rw [he] at h; cases h
        | some p2 =>
          rw [he] at h
          dsimp only at h
          obtain ⟨ds1, ho1, a1, b1, g1, e1, s1⟩ := (expr_rules_run tokens n).2.2.2.2 _ _ he
          simp only [consumeToken_index, consumeToken_output] at ho1 a1 b1 g1 e1 s1
          split at h
          · rename_i c2
            have c2t : (tokenAt tokens p2.currentTokenIndex).value = ")" := c2
            have hlt2 := lt_of_tokenAt_value tokens _ ")" (by decide) c2t
            split at h
            · rename_i c3
              have c3t : (tokenAt tokens (p2.currentTokenIndex + 1)).value = "\x7b" := c3
              have hlt3 := lt_of_tokenAt_value tokens _ "\x7b" (by decide) c3t
              cases hp : program tokens n (consumeToken (consumeToken p2)) with
              | none => rw [hp] at h; cases h
              | some p4 =>
                rw [hp] at h
                dsimp only at h
                obtain ⟨ds2, ho2, a2, b2, g2, e2, s2⟩ :=
                  block_of_program_run tokens _ _ (ihP _ _ hp)
                simp only [consumeToken_index, consumeToken_output] at ho2 a2 b2 g2 e2 s2
                have ho12 : p4.output = p.output ++ (ds1 ++ ds2) := by
                  rw [ho2, ho1, List.append_assoc]
                split at h
                · rename_i c4
                  have c4t : (tokenAt tokens p4.currentTokenIndex).value = "\x7d" := c4
                  have hlt4 := lt_of_tokenAt_value tokens _ "\x7d" (by decide) c4t
                  split at h
                  · rename_i c5
                    have c5t : (tokenAt tokens (p4.currentTokenIndex + 1)).value = "else" := c5
                    have hlt5 := lt_of_tokenAt_value tokens _ "else" (by decide) c5t
                    split at h
                    · rename_i c6
                      have c6t : (tokenAt tokens (p4.currentTokenIndex + 1 + 1)).value
                          = "\x7b" := c6
                      have hlt6 := lt_of_tokenAt_value tokens _ "\x7b" (by decide) c6t
                      cases hp2 : program tokens n
                          (consumeToken (consumeToken (consumeToken p4))) with
                      | none => rw [hp2] at h; cases h
                      | some p7 =>
                        rw [hp2] at h
                        dsimp only at h
                        obtain ⟨ds3, ho3, a3, b3, g3, e3, s3⟩ :=
                          block_of_program_run tokens _ _ (ihP _ _ hp2)
                        simp only [consumeToken_index, consumeToken_output]
                          at ho3 a3 b3 g3 e3 s3
                        have ho123 : p7.output = p.output ++ (ds1 ++ ds2 ++ ds3) := by
                          rw [ho3, ho12, List.append_assoc]
                        split at h
                        · rename_i c7
                          have c7t : (tokenAt tokens p7.currentTokenIndex).value = "\x7d" := c7
                          have hlt7 := lt_of_tokenAt_value tokens _ "\x7d" (by decide) c7t
                          cases h
                          refine ⟨ds1 ++ ds2 ++ ds3, by simpa using ho123, ?_, ?_, ?_, ?_, ?_⟩
                          · simp only [consumeToken_index]; omega
                          · simp only [consumeToken_index, List.length_append]; omega
                          · simp only [consumeToken_index, List.length_append]; omega
                          · simp only [consumeToken_index]; omega
                          · intro hds hne
                            obtain ⟨h12, h3⟩ := List.append_eq_nil.mp hds
                            obtain ⟨h1, h2⟩ := List.append_eq_nil.mp h12
                            have hd := Derives.conditional_if_else _ _ _ _ _ _ _ _ _ _ _
                              hvalt c1t (s1 h1 hne) c2t c3t (s2 h2 hne hlt4) c4t c5t c6t
                              (s3 h3 hne hlt7) c7t
                            simp only [consumeToken_index]
                            rw [slice_if_else tokens p.currentTokenIndex p2.currentTokenIndex
                              p4.currentTokenIndex p7.currentTokenIndex (by omega) (by omega)
                              (by omega) hlt7]
                            exact hd
                        · cases h
                          refine ⟨ds1 ++ ds2 ++ ds3 ++ [_],
                            by rw [syntaxError_output, ho123, List.append_assoc],
                            ?_, ?_, ?_, ?_, ?_⟩
                          · simp only [syntaxError_index]; omega
                          · simp only [syntaxError_index, List.length_append,
                              List.length_singleton]; omega
                          · simp only [syntaxError_index, List.length_append,
                              List.length_singleton]; omega
                          · simp only [syntaxError_index]; omega
                          · intro hds; simp at hds
                    · cases h
                      refine ⟨ds1 ++ ds2 ++ [_],
                        by rw [syntaxError_output]; simp only [consumeToken_output]
                           rw [ho12, List.append_assoc],
                        ?_, ?_, ?_, ?_, ?_⟩
                      · simp only [syntaxError_index, consumeToken_index]; omega
                      · simp only [syntaxError_index, consumeToken_index, List.length_append,
                          List.length_singleton]; omega
                      · simp only [syntaxError_index, consumeToken_index, List.length_append,
                          List.length_singleton]; omega
                      · simp only [syntaxError_index, consumeToken_index]; omega
                      · intro hds; simp at hds
                  · cases h
                    refine ⟨ds1 ++ ds2, by simpa using ho12, ?_, ?_, ?_, ?_, ?_⟩
                    · simp only [consumeToken_index]; omega
                    · simp only [consumeToken_index, List.length_append]; omega
                    · simp only [consumeToken_index, List.length_append]; omega
                    · simp only [consumeToken_index]; omega
                    · intro hds hne
                      obtain ⟨h1, h2⟩ := List.append_eq_nil.mp hds
                      have hd := Derives.conditional_if _ _ _ _ _ _ _
                        hvalt c1t (s1 h1 hne) c2t c3t (s2 h2 hne hlt4) c4t
                      simp only [consumeToken_index]
                      rw [slice_if tokens p.currentTokenIndex p2.currentTokenIndex
                        p4.currentTokenIndex (by omega) (by omega) hlt4]
                      exact hd
                · cases h
                  refine ⟨ds1 ++ ds2 ++ [_],
                    by rw [syntaxError_output, ho12, List.append_assoc], ?_, ?_, ?_, ?_, ?_⟩
                  · simp only [syntaxError_index]; omega
                  · simp only [syntaxError_index, List.length_append,
                      List.length_singleton]; omega
                  · simp only [syntaxError_index, List.length_append,
                      List.length_singleton]; omega
                  · simp only [syntaxError_index]; omega
                  · intro hds; simp at hds
            · cases h
              refine ⟨ds1 ++ [_],
                by rw [syntaxError_output]; simp only [consumeToken_output]
                   rw [ho1, List.append_assoc],
                ?_, ?_, ?_, ?_, ?_⟩
              · simp only [syntaxError_index, consumeToken_index]; omega
              · simp only [syntaxError_index, consumeToken_index, List.length_append,
                  List.length_singleton]; omega
              · simp only [syntaxError_index, consumeToken_index, List.length_append,
                  List.length_singleton]; omega
              · simp only [syntaxError_index, consumeToken_index]; omega
              · intro hds; simp at hds
          · cases h
            refine ⟨ds1 ++ [_], by rw [syntaxError_output, ho1, List.append_assoc],
              ?_, ?_, ?_, ?_, ?_⟩
            · simp only [syntaxError_index]; omega
            · simp only [syntaxError_index, List.length_append, List.length_singleton]; omega
            · simp only [syntaxError_index, List.length_append, List.length_singleton]; omega
            · simp only [syntaxError_index]; omega
            · intro hds; simp at hds
      · cases h
        refine ⟨[_], by rw [syntaxError_output, consumeToken_output], ?_, ?_, ?_, ?_, ?_⟩
        · simp only [syntaxError_index, consumeToken_index]; omega
        · simp only [syntaxError_index, consumeToken_index, List.length_singleton]; omega
        · simp only [syntaxError_index, consumeToken_index, List.length_singleton]; omega
        · simp only [syntaxError_index, consumeToken_index]; omega
        · intro hds; simp at hds

/-! ## Cursor and diagnostics of a whole parse -/

/-- The parse returns, and its result satisfies what `program` guarantees. -/
theorem parse_run (tokens : List Token) :
    ∃ r, parse tokens = some r
      ∧ (((getCurrentToken tokens ⟨0, []⟩).type = TokenType.END_OF_FILE ∧ r = ⟨0, []⟩)
        ∨ ((getCurrentToken tokens ⟨0, []⟩).type ≠ TokenType.END_OF_FILE
          ∧ Run tokens Nonterminal.statement 1 ⟨0, []⟩ r)) := by
  obtain ⟨r, hr, _⟩ := (stmt_rules_total tokens (fuelFor tokens 0)).1 ⟨0, []⟩
    (by simp [fuelFor])
  exact ⟨r, hr, (stmt_rules_run tokens _).1 _ _ hr⟩

/-- C11 as stated fails: the single token `print` (the source `print`) is
parsed with two diagnostics, each consuming the synthesized `END_OF_FILE`,
and the cursor ends at 3, beyond length + 1 = 2. -/
theorem cursor_bound_refuted :
    tokenize "print".toList = some [⟨TokenType.KEYWORD, "print"⟩]
    ∧ parse [⟨TokenType.KEYWORD, "print"⟩]
      = some ⟨3, ["Syntax error: Unexpected token ", "Syntax error: Expected ';', found "]⟩
    ∧ ¬ (3 ≤ [(⟨TokenType.KEYWORD, "print"⟩ : Token)].length + 1) := by
  refine ⟨by decide, by decide, by decide⟩

theorem assignment_le (tokens : List Token) (fuel : Nat) (p r : Parser)
    (h : assignment tokens fuel p = some r) : p.currentTokenIndex ≤ r.currentTokenIndex := by
  obtain ⟨r2, h2, hlt⟩ := assignment_total tokens
    (max fuel (8 * (tokens.length - p.currentTokenIndex) + 3)) p (Nat.le_max_right _ _)
  have h3 := assignment_mono (Nat.le_max_left fuel
    (8 * (tokens.length - p.currentTokenIndex) + 3)) h
  rw [h2] at h3
  cases h3
  omega

theorem printStatement_le (tokens : List Token) (fuel : Nat) (p r : Parser)
    (h : printStatement tokens fuel p = some r) :
    p.currentTokenIndex ≤ r.currentTokenIndex := by
  obtain ⟨r2, h2, hlt⟩ := printStatement_total tokens
    (max fuel (8 * (tokens.length - p.currentTokenIndex) + 3)) p (Nat.le_max_right _ _)
  have h3 := printStatement_mono (Nat.le_max_left fuel
    (8 * (tokens.length - p.currentTokenIndex) + 3)) h
  rw [h2] at h3
  cases h3
  omega

theorem conditional_le (tokens : List Token) (fuel : Nat) (p r : Parser)
    (h : conditional tokens fuel p = some r) : p.currentTokenIndex ≤ r.currentTokenIndex := by
  obtain ⟨r2, h2, hlt⟩ := (stmt_rules_total tokens
    (max fuel (8 * (tokens.length - p.currentTokenIndex) + 4))).2.2 p (Nat.le_max_right _ _)
  have h3 := conditional_mono (Nat.le_max_left fuel
    (8 * (tokens.length - p.currentTokenIndex) + 4)) h
  rw [h2] at h3
  cases h3
  omega

theorem program_le (tokens : List Token) (fuel : Nat) (p r : Parser)
    (h : program tokens fuel p = some r) : p.currentTokenIndex ≤ r.currentTokenIndex := by
  rcases (stmt_rules_run tokens fuel).1 p r h with ⟨_, rfl⟩ | ⟨_, ds, _, a, _⟩
  · exact Nat.le_refl _
  · omega

/-- C11, amended. Parse-cursor bound: the parse cursor never decreases, since
every rule returns with the cursor at or after where it was entered, and
`parse` returns with cursor at most `2 * length + 1`; as the cursor only
grows this bounds it at every point of the parse. -/
theorem parse_cursor_bound (tokens : List Token) :
    (∃ r, parse tokens = some r ∧ r.currentTokenIndex ≤ 2 * tokens.length + 1)
    ∧ ∀ (fuel : Nat) (p r : Parser),
      (program tokens fuel p = some r → p.currentTokenIndex ≤ r.currentTokenIndex)
      ∧ (statement tokens fuel p = some r → p.currentTokenIndex ≤ r.currentTokenIndex)
      ∧ (assignment tokens fuel p = some r → p.currentTokenIndex ≤ r.currentTokenIndex)
      ∧ (conditional tokens fuel p = some r → p.currentTokenIndex ≤ r.currentTokenIndex)
      ∧ (printStatement tokens fuel p = some r → p.currentTokenIndex ≤ r.currentTokenIndex)
      ∧ (expression tokens fuel p = some r → p.currentTokenIndex ≤ r.currentTokenIndex)
      ∧ (term tokens fuel p = some r → p.currentTokenIndex ≤ r.currentTokenIndex)
      ∧ (factor tokens fuel p = some r → p.currentTokenIndex ≤ r.currentTokenIndex) := by
  constructor
  · obtain ⟨r, hr, hrun⟩ := parse_run tokens
    refine ⟨r, hr, ?_⟩
    rcases hrun with ⟨_, rfl⟩ | ⟨_, ds, _, _, _, _, e, _⟩
    · simp
    · simp only [Nat.sub_zero, Nat.zero_add] at e
      exact e
  · intro fuel p r
    refine ⟨program_le tokens fuel p r, ?_, assignment_le tokens fuel p r,
      conditional_le tokens fuel p r, printStatement_le tokens fuel p r, ?_, ?_, ?_⟩
    · intro h
      obtain ⟨ds, _, a, _⟩ := (stmt_rules_run tokens fuel).2.1 p r h
      omega
    · intro h
      obtain ⟨ds, _, a, _⟩ := (expr_rules_run tokens fuel).2.2.2.2 p r h
      omega
    · intro h
      obtain ⟨ds, _, a, _⟩ := (expr_rules_run tokens fuel).2.2.1 p r h
      omega
    · intro h
      obtain ⟨ds, _, a, _⟩ := (expr_rules_run tokens fuel).1 p r h
      omega

/-- C19. Diagnostics account for every over-the-end consume: `parse` returns
with `d` diagnostics and cursor `c` such that `d ≤ c ≤ length + d`; with no
diagnostic the cursor ends within the token list. -/
theorem diagnostics_account (tokens : List Token) :
    ∃ r, parse tokens = some r
      ∧ r.output.length ≤ r.currentTokenIndex
      ∧ r.currentTokenIndex ≤ tokens.length + r.output.length
      ∧ (r.output = [] → r.currentTokenIndex ≤ tokens.length) := by
  obtain ⟨r, hr, hrun⟩ := parse_run tokens
  refine ⟨r, hr, ?_⟩
  rcases hrun with ⟨_, rfl⟩ | ⟨_, ds, ho, _, b, c, _, _⟩
  · simp
  · simp only [List.nil_append] at ho
    simp only [Nat.sub_zero, Nat.zero_add] at b c
    rw [ho]
    refine ⟨b, c, ?_⟩
    intro hds
    rw [hds] at c
    simpa using c

/-- C18. Soundness of a silent parse: when the parse of the tokens scanned from
a source prints no diagnostic, either there are no tokens and nothing was
consumed, or the consumed prefix is derivable from `statement`. -/
theorem silent_parse_sound (s : List Char) (toks : List Token) (r : Parser)
    (hs : tokenize s = some toks) (hp : parse toks = some r) (ho : r.output = []) :
    (toks = [] ∧ r.currentTokenIndex = 0)
    ∨ (0 < r.currentTokenIndex ∧ r.currentTokenIndex ≤ toks.length
      ∧ Derives Nonterminal.statement (toks.take r.currentTokenIndex)) := by
  have hne : NoEndOfFile toks := by
    obtain ⟨toks2, ws, h1, _, _, h4, _⟩ :=
      collectTokens_lossless s (s.length + 1) 0 (Nat.zero_le _) (by omega)
    rw [tokenize, h1] at hs
    cases hs
    exact fun t ht => (h4 t ht).1
  obtain ⟨r2, hr2, hrun⟩ := parse_run toks
  rw [hp] at hr2
  cases hr2
  rcases hrun with ⟨hty, rfl⟩ | ⟨_, ds, hout, a, _, c, _, sound⟩
  · left
    refine ⟨?_, rfl⟩
    cases toks with
    | nil => rfl
    | cons t rest =>
      exact absurd hty (tokenAt_type_of_noEndOfFile (t :: rest) 0 (by simp) hne)
  · right
    simp only [List.nil_append] at hout
    have hds : ds = [] := by rw [← hout]; exact ho
    have hd := sound hds hne
    rw [hds] at c
    simp only [Nat.sub_zero, Nat.zero_add, List.length_nil, Nat.add_zero] at a c
    rw [slice_zero] at hd
    exact ⟨by omega, c, hd⟩

theorem silent_parse_sound_witness :
    tokenize "x=1;".toList
        = some [⟨TokenType.IDENTIFIER, "x"⟩, ⟨TokenType.OPERATOR, "="⟩,
          ⟨TokenType.INTEGER, "1"⟩, ⟨TokenType.OPERATOR, ";"⟩]
    ∧ parse [⟨TokenType.IDENTIFIER, "x"⟩, ⟨TokenType.OPERATOR, "="⟩,
          ⟨TokenType.INTEGER, "1"⟩, ⟨TokenType.OPERATOR, ";"⟩] = some ⟨4, []⟩
    ∧ (([⟨TokenType.IDENTIFIER, "x"⟩, ⟨TokenType.OPERATOR, "="⟩,
          ⟨TokenType.INTEGER, "1"⟩, ⟨TokenType.OPERATOR, ";"⟩] : List Token) = []
        ∧ (Parser.mk 4 []).currentTokenIndex = 0
      ∨ 0 < (Parser.mk 4 []).currentTokenIndex
        ∧ (Parser.mk 4 []).currentTokenIndex
          ≤ ([⟨TokenType.IDENTIFIER, "x"⟩, ⟨TokenType.OPERATOR, "="⟩,
            ⟨TokenType.INTEGER, "1"⟩, ⟨TokenType.OPERATOR, ";"⟩] : List Token).length
        ∧ Derives Nonterminal.statement
          (([⟨TokenType.IDENTIFIER, "x"⟩, ⟨TokenType.OPERATOR, "="⟩,
            ⟨TokenType.INTEGER, "1"⟩, ⟨TokenType.OPERATOR, ";"⟩] : List Token).take
              (Parser.mk 4 []).currentTokenIndex)) :=
  ⟨by decide, by decide,
    silent_parse_sound "x=1;".toList _ ⟨4, []⟩ (by decide) (by decide) rfl⟩

/-! ## Dispatch, progress and the optional `else` -/

/-- When the first token is real and starts no statement, `parse` reports it,
consumes it and returns. -/
theorem parse_unexpected_first (t : Token) (rest : List Token)
    (h0 : t.type ≠ TokenType.END_OF_FILE) (h1 : t.type ≠ TokenType.IDENTIFIER)
    (h2 : ¬ (t.type = TokenType.KEYWORD ∧ t.value = "if"))
    (h3 : ¬ (t.type = TokenType.KEYWORD ∧ t.value = "print")) :
    parse (t :: rest) = some ⟨1, ["Syntax error: Unexpected token " ++ t.value]⟩ := by
  have hcur : getCurrentToken (t :: rest) ⟨0, []⟩ = t := by simp [getCurrentToken]
  have hP : program (t :: rest) 2 ⟨0, []⟩
      = some ⟨1, ["Syntax error: Unexpected token " ++ t.value]⟩ := by
    rw [program, statement]
    simp only [hcur, h0, h1, h2, h3, ne_eq, not_false_eq_true, if_true, if_false,
      syntaxError, report, consumeToken, List.nil_append]
  exact parse_of_program hP

/-- C20. Comments reach the recognizer: when the first token scanned from a
source is a `COMMENT`, the driver hands it to the parser with the rest, and
the parse emits exactly one diagnostic, `Syntax error: Unexpected token `
followed by the comment text, and ends with the cursor at 1, whatever
follows the comment. -/
theorem comments_reach_recognizer (s : List Char) (t : Token) (rest : List Token)
    (hs : tokenize s = some (t :: rest)) (ht : t.type = TokenType.COMMENT) :
    mainParse s = some ⟨1, ["Syntax error: Unexpected token " ++ t.value]⟩ := by
  rw [mainParse, hs]
  exact parse_unexpected_first t rest (by rw [ht]; decide) (by rw [ht]; decide)
    (fun h => by rw [ht] at h; exact absurd h.1 (by decide))
    (fun h => by rw [ht] at h; exact absurd h.1 (by decide))

theorem comments_reach_recognizer_witness :
    tokenize "# hello\nx=1;".toList
        = some (⟨TokenType.COMMENT, "# hello"⟩ :: [⟨TokenType.IDENTIFIER, "x"⟩,
          ⟨TokenType.OPERATOR, "="⟩, ⟨TokenType.INTEGER, "1"⟩, ⟨TokenType.OPERATOR, ";"⟩])
    ∧ (⟨TokenType.COMMENT, "# hello"⟩ : Token).type = TokenType.COMMENT
    ∧ mainParse "# hello\nx=1;".toList
      = some ⟨1, ["Syntax error: Unexpected token " ++ "# hello"]⟩ :=
  ⟨by decide, rfl,
    comments_reach_recognizer "# hello\nx=1;".toList ⟨TokenType.COMMENT, "# hello"⟩
      [⟨TokenType.IDENTIFIER, "x"⟩, ⟨TokenType.OPERATOR, "="⟩, ⟨TokenType.INTEGER, "1"⟩,
        ⟨TokenType.OPERATOR, ";"⟩] (by decide) rfl⟩

/-- C17. Progress of every rule: with enough fuel, from every state,
`statement`, `assignment`, `conditional`, `printStatement`, `expression`,
`term` and `factor` return with the cursor strictly beyond where they were
entered; `program` does so when the current token is not `END_OF_FILE` and
returns the state unchanged otherwise. -/
theorem every_rule_progress (tokens : List Token) (p : Parser) (fuel : Nat)
    (hfuel : fuelFor tokens p.currentTokenIndex ≤ fuel) :
    (∃ r, statement tokens fuel p = some r ∧ p.currentTokenIndex < r.currentTokenIndex)
    ∧ (∃ r, assignment tokens fuel p = some r ∧ p.currentTokenIndex < r.currentTokenIndex)
    ∧ (∃ r, conditional tokens fuel p = some r ∧ p.currentTokenIndex < r.currentTokenIndex)
    ∧ (∃ r, printStatement tokens fuel p = some r
        ∧ p.currentTokenIndex < r.currentTokenIndex)
    ∧ (∃ r, expression tokens fuel p = some r ∧ p.currentTokenIndex < r.currentTokenIndex)
    ∧ (∃ r, term tokens fuel p = some r ∧ p.currentTokenIndex < r.currentTokenIndex)
    ∧ (∃ r, factor tokens fuel p = some r ∧ p.currentTokenIndex < r.currentTokenIndex)
    ∧ (∃ r, program tokens fuel p = some r
        ∧ ((getCurrentToken tokens p).type ≠ TokenType.END_OF_FILE →
            p.currentTokenIndex < r.currentTokenIndex)
        ∧ ((getCurrentToken tokens p).type = TokenType.END_OF_FILE → r = p)) := by
  unfold fuelFor at hfuel
  refine ⟨(stmt_rules_total tokens fuel).2.1 p (by omega),
    assignment_total tokens fuel p (by omega),
    (stmt_rules_total tokens fuel).2.2 p (by omega),
    printStatement_total tokens fuel p (by omega),
    expression_total tokens fuel p (by omega),
    (expr_rules_total tokens fuel).2.2.1 p (by omega),
    (expr_rules_total tokens fuel).1 p (by omega), ?_⟩
  obtain ⟨r, hr, _⟩ := (stmt_rules_total tokens fuel).1 p (by omega)
  refine ⟨r, hr, ?_, ?_⟩
  · intro hty
    rcases (stmt_rules_run tokens fuel).1 p r hr with ⟨h, _⟩ | ⟨_, ds, _, a, _⟩
    · exact absurd h hty
    · omega
  · intro hty
    rcases (stmt_rules_run tokens fuel).1 p r hr with ⟨_, h⟩ | ⟨h, _⟩
    · exact h
    · exact absurd hty h

theorem every_rule_progress_witness :
    fuelFor [⟨TokenType.OPERATOR, ")"⟩] (Parser.mk 1 []).currentTokenIndex ≤ 8
    ∧ ((∃ r, statement [⟨TokenType.OPERATOR, ")"⟩] 8 ⟨1, []⟩ = some r
          ∧ (Parser.mk 1 []).currentTokenIndex < r.currentTokenIndex)
      ∧ (∃ r, assignment [⟨TokenType.OPERATOR, ")"⟩] 8 ⟨1, []⟩ = some r
          ∧ (Parser.mk 1 []).currentTokenIndex < r.currentTokenIndex)
      ∧ (∃ r, conditional [⟨TokenType.OPERATOR, ")"⟩] 8 ⟨1, []⟩ = some r
          ∧ (Parser.mk 1 []).currentTokenIndex < r.currentTokenIndex)
      ∧ (∃ r, printStatement [⟨TokenType.OPERATOR, ")"⟩] 8 ⟨1, []⟩ = some r
          ∧ (Parser.mk 1 []).currentTokenIndex < r.currentTokenIndex)
      ∧ (∃ r, expression [⟨TokenType.OPERATOR, ")"⟩] 8 ⟨1, []⟩ = some r
          ∧ (Parser.mk 1 []).currentTokenIndex < r.currentTokenIndex)
      ∧ (∃ r, term [⟨TokenType.OPERATOR, ")"⟩] 8 ⟨1, []⟩ = some r
          ∧ (Parser.mk 1 []).currentTokenIndex < r.currentTokenIndex)
      ∧ (∃ r, factor [⟨TokenType.OPERATOR, ")"⟩] 8 ⟨1, []⟩ = some r
          ∧ (Parser.mk 1 []).currentTokenIndex < r.currentTokenIndex)
      ∧ (∃ r, program [⟨TokenType.OPERATOR, ")"⟩] 8 ⟨1, []⟩ = some r
          ∧ ((getCurrentToken [⟨TokenType.OPERATOR, ")"⟩] ⟨1, []⟩).type
                ≠ TokenType.END_OF_FILE →
              (Parser.mk 1 []).currentTokenIndex < r.currentTokenIndex)
          ∧ ((getCurrentToken [⟨TokenType.OPERATOR, ")"⟩] ⟨1, []⟩).type
                = TokenType.END_OF_FILE → r = ⟨1, []⟩))) :=
  ⟨by decide, every_rule_progress [⟨TokenType.OPERATOR, ")"⟩] ⟨1, []⟩ 8 (by decide)⟩

theorem coherent_of_value (t : Token) (h1 : t.value ≠ "if") (h2 : t.value ≠ "print")
    (h3 : t.value ≠ "(") : Coherent t :=
  ⟨fun h => by rcases h with h | h <;> contradiction, fun h => absurd h h3⟩

/-- The token just after `w` in `w ++ rest` is the head of `rest`, if any. -/
theorem value_after_ne (w rest : List Token) (v : String) (hv : v ≠ "")
    (hrest : ∀ t, rest.head? = some t → t.value ≠ v) :
    (getCurrentToken (w ++ rest) ⟨0 + w.length, []⟩).value ≠ v := by
  cases rest with
  | nil =>
    rw [cur_past_end (w ++ []) (0 + w.length) [] (by simp)]
    exact fun h => hv h.symm
  | cons t rest2 =>
    rw [cur_eq (w ++ t :: rest2) w rest2 t (0 + w.length) [] rfl (by simp)]
    exact hrest t rfl

/-- The optional `else` for coherent tokens: take tokens of the form
`if ( e ) { s }` with `e` a derivable expression and `s` a derivable
statement, in which the text `if` or `print` occurs only on `KEYWORD` tokens
and the text `(` never on an `INTEGER` or `IDENTIFIER` token. Followed by any
`rest` that is empty or does not start with the text `else`, they are parsed
with no diagnostic and the cursor stops right after the closing brace.
Followed by `else { s2 }` with `s2` such a statement, they are parsed with no
diagnostic through the second closing brace. -/
theorem optional_else_of_coherent (kw l r lb rb : Token) (e s : List Token)
    (hkw : kw.value = "if") (hl : l.value = "(") (he : Derives Nonterminal.expression e)
    (hr : r.value = ")") (hlb : lb.value = "\x7b") (hs : Derives Nonterminal.statement s)
    (hrb : rb.value = "\x7d")
    (hco : ∀ t ∈ kw :: l :: e ++ r :: lb :: s ++ [rb], Coherent t) :
    (∀ rest : List Token, (∀ t, rest.head? = some t → t.value ≠ "else") →
      parse (kw :: l :: e ++ r :: lb :: s ++ [rb] ++ rest)
        = some ⟨(kw :: l :: e ++ r :: lb :: s ++ [rb]).length, []⟩)
    ∧ (∀ (el lb2 rb2 : Token) (s2 : List Token), el.value = "else" → lb2.value = "\x7b" →
      Derives Nonterminal.statement s2 → rb2.value = "\x7d" → (∀ t ∈ s2, Coherent t) →
      parse (kw :: l :: e ++ r :: lb :: s ++ rb :: el :: lb2 :: s2 ++ [rb2])
        = some ⟨(kw :: l :: e ++ r :: lb :: s ++ rb :: el :: lb2 :: s2 ++ [rb2]).length,
            []⟩) := by
  constructor
  · intro rest hrest
    have hd := Derives.conditional_if kw l r lb rb e s hkw hl he hr hlb hs hrb
    have hA : (getCurrentToken (kw :: l :: e ++ r :: lb :: s ++ [rb] ++ rest)
          ⟨0 + (kw :: l :: e ++ r :: lb :: s ++ [rb]).length, []⟩).value ≠ "else" →
        ((getCurrentToken (kw :: l :: e ++ r :: lb :: s ++ [rb] ++ rest) ⟨0, []⟩).type
            = TokenType.KEYWORD
          ∧ (getCurrentToken (kw :: l :: e ++ r :: lb :: s ++ [rb] ++ rest) ⟨0, []⟩).value
            = "if")
        ∧ ∃ n, conditional (kw :: l :: e ++ r :: lb :: s ++ [rb] ++ rest) n ⟨0, []⟩
            = some ⟨0 + (kw :: l :: e ++ r :: lb :: s ++ [rb]).length, []⟩ :=
      derives_accepts hd _ [] rest 0 _ [] (by simp) hco rfl rfl
    obtain ⟨⟨hty, hval⟩, n, hn⟩ := hA (value_after_ne _ rest "else" (by decide) hrest)
    rw [Nat.zero_add] at hn
    have hS := statement_of_conditional _ n ⟨0, []⟩ hty hval
    exact parse_of_program (program_of_statement _ (n + 1) ⟨0, []⟩ _
      (by rw [hty]; decide) (hS.trans hn))
  · intro el lb2 rb2 s2 hel hlb2 hs2 hrb2 hco2
    have hd := Derives.conditional_if_else kw l r lb rb el lb2 rb2 e s s2 hkw hl he hr hlb hs
      hrb hel hlb2 hs2 hrb2
    have hcoAll : ∀ t ∈ kw :: l :: e ++ r :: lb :: s ++ rb :: el :: lb2 :: s2 ++ [rb2],
        Coherent t := by
      intro t ht
      simp only [List.mem_append, List.mem_cons, List.mem_singleton, List.cons_append,
        List.append_assoc, List.not_mem_nil, or_false] at ht
      rcases ht with h | h | h | h | h | h | h | h | h | h | h
      · exact hco t (by simp [h])
      · exact hco t (by simp [h])
      · exact hco t (by simp [h])
      · exact hco t (by simp [h])
      · exact hco t (by simp [h])
      · exact hco t (by simp [h])
      · exact hco t (by simp [h])
      · subst h; exact coherent_of_value _ (by rw [hel]; decide) (by rw [hel]; decide)
          (by rw [hel]; decide)
      · subst h; exact coherent_of_value _ (by rw [hlb2]; decide) (by rw [hlb2]; decide)
          (by rw [hlb2]; decide)
      · exact hco2 t h
      · subst h; exact coherent_of_value _ (by rw [hrb2]; decide) (by rw [hrb2]; decide)
          (by rw [hrb2]; decide)
    have hA : (getCurrentToken (kw :: l :: e ++ r :: lb :: s ++ rb :: el :: lb2 :: s2 ++ [rb2])
          ⟨0 + (kw :: l :: e ++ r :: lb :: s ++ rb :: el :: lb2 :: s2 ++ [rb2]).length,
            []⟩).value ≠ "else" →
        ((getCurrentToken (kw :: l :: e ++ r :: lb :: s ++ rb :: el :: lb2 :: s2 ++ [rb2])
            ⟨0, []⟩).type = TokenType.KEYWORD
          ∧ (getCurrentToken (kw :: l :: e ++ r :: lb :: s ++ rb :: el :: lb2 :: s2 ++ [rb2])
            ⟨0, []⟩).value = "if")
        ∧ ∃ n, conditional (kw :: l :: e ++ r :: lb :: s ++ rb :: el :: lb2 :: s2 ++ [rb2]) n
            ⟨0, []⟩
            = some ⟨0 + (kw :: l :: e ++ r :: lb :: s ++ rb :: el :: lb2 :: s2
                ++ [rb2]).length, []⟩ :=
      derives_accepts hd _ [] [] 0 _ [] (by simp) hcoAll rfl rfl
    obtain ⟨⟨hty, hval⟩, n, hn⟩ := hA (by
      rw [cur_past_end _ _ [] (by omega)]
      decide)
    rw [Nat.zero_add] at hn
    have hS := statement_of_conditional _ n ⟨0, []⟩ hty hval
    exact parse_of_program (program_of_statement _ (n + 1) ⟨0, []⟩ _
      (by rw [hty]; decide) (hS.trans hn))

/-! ## The tokens the driver hands to the parser -/

theorem coherent_of_head (t : Token) (c : Char) (rest : List Char)
    (hv : t.value = String.mk (c :: rest)) (h1 : c ≠ 'i') (h2 : c ≠ 'p') (h3 : c ≠ '(') :
    Coherent t := by
  refine coherent_of_value t ?_ ?_ ?_ <;> intro h <;> rw [hv] at h
  · have h4 : c :: rest = ['i', 'f'] := congrArg String.data h
    exact h1 (List.cons.inj h4).1
  · have h4 : c :: rest = ['p', 'r', 'i', 'n', 't'] := congrArg String.data h
    exact h2 (List.cons.inj h4).1
  · have h4 : c :: rest = ['('] := congrArg String.data h
    exact h3 (List.cons.inj h4).1

/-- Every token `getNextToken` returns pairs kind and text coherently. -/
theorem getNextToken_coherent (s : List Char) (pos : Nat) :
    Coherent (getNextToken s pos).1 := by
  rcases getNextToken_cases s pos with ⟨_, h⟩ | ⟨c, hc, ha, h⟩ | ⟨c, hc, ha, hd, h⟩ | ⟨hc, h⟩
      | ⟨c, _, ha, hd, _, h⟩
  · rw [h]
    show Coherent ⟨TokenType.END_OF_FILE, ""⟩
    exact coherent_of_value _ (by decide) (by decide) (by decide)
  · obtain ⟨⟨rest, h1, _⟩, _⟩ := advanceWhile_munch (fun d => isAlpha d || isDigit d) s
      (skipWhitespace s pos) c hc (by simp [ha])
    have hv : (readIdentifierOrKeyword s (skipWhitespace s pos)).1.value
        = String.mk (c :: rest) := by
      rw [← h1]
      simp only [readIdentifierOrKeyword]; split <;> rfl
    have hty : isKeywordText (readIdentifierOrKeyword s (skipWhitespace s pos)).1.value = true →
        (readIdentifierOrKeyword s (skipWhitespace s pos)).1.type = TokenType.KEYWORD := by
      simp only [readIdentifierOrKeyword]
      split
      · intro _; rfl
      · rename_i hk
        intro h0
        exact absurd h0 hk
    rw [h]
    refine ⟨fun h0 => hty ?_, fun h0 => ?_⟩
    · rcases h0 with h0 | h0 <;> rw [h0] <;> decide
    · rw [hv] at h0
      have h4 : c :: rest = ['('] := congrArg String.data h0
      have h5 := (List.cons.inj h4).1
      rw [h5] at ha
      exact absurd ha (by decide)
  · obtain ⟨⟨rest, h1, _⟩, _⟩ := advanceWhile_munch isDigit s (skipWhitespace s pos) c hc hd
    have hv : (readNumber s (skipWhitespace s pos)).1.value = String.mk (c :: rest) := h1
    rw [h]
    refine coherent_of_head _ c rest hv ?_ ?_ ?_ <;>
      (intro hcc; rw [hcc] at hd; exact absurd hd (by decide))
  · obtain ⟨⟨rest, h1, _⟩, _⟩ := advanceWhile_munch (fun d => d != '\n') s
      (skipWhitespace s pos) '#' hc (by decide)
    have hv : (readComment s (skipWhitespace s pos)).1.value = String.mk ('#' :: rest) := h1
    rw [h]
    exact coherent_of_head _ '#' rest hv (by decide) (by decide) (by decide)
  · rw [h]
    show Coherent ⟨TokenType.OPERATOR, String.mk [c]⟩
    refine ⟨fun h0 => ?_, fun _ => ⟨fun h5 => (by cases h5), fun h5 => (by cases h5)⟩⟩
    rcases h0 with h0 | h0
    · have h4 : [c] = ['i', 'f'] := congrArg String.data h0
      simp at h4
    · have h4 : [c] = ['p', 'r', 'i', 'n', 't'] := congrArg String.data h0
      simp at h4

theorem tokenize_coherent (s : List Char) (tokens : List Token)
    (hs : tokenize s = some tokens) : ∀ t ∈ tokens, Coherent t := by
  intro t ht
  obtain ⟨q, rfl⟩ := collectTokens_mem s _ 0 tokens hs t ht
  exact getNextToken_coherent s q

theorem tokenize_noEndOfFile (s : List Char) (tokens : List Token)
    (hs : tokenize s = some tokens) : NoEndOfFile tokens := by
  obtain ⟨toks2, ws, h1, _, _, h4, _⟩ :=
    collectTokens_lossless s (s.length + 1) 0 (Nat.zero_le _) (by omega)
  rw [tokenize, h1] at hs
  cases hs
  exact fun t ht => (h4 t ht).1

/-- C2. Grammar acceptance: every token sequence that the driver scans from a
source and that is derivable from `statement` is parsed with no diagnostic,
the cursor ending at the length of the sequence. -/
theorem grammar_acceptance (s : List Char) (tokens : List Token)
    (hs : tokenize s = some tokens) (h : Derives Nonterminal.statement tokens) :
    parse tokens = some ⟨tokens.length, []⟩ :=
  accepts_of_coherent tokens h (tokenize_coherent s tokens hs)

theorem grammar_acceptance_witness :
    (tokenize "x=1;".toList
        = some [⟨TokenType.IDENTIFIER, "x"⟩, ⟨TokenType.OPERATOR, "="⟩,
          ⟨TokenType.INTEGER, "1"⟩, ⟨TokenType.OPERATOR, ";"⟩]
      ∧ Derives Nonterminal.statement
        [⟨TokenType.IDENTIFIER, "x"⟩, ⟨TokenType.OPERATOR, "="⟩, ⟨TokenType.INTEGER, "1"⟩,
          ⟨TokenType.OPERATOR, ";"⟩]
      ∧ parse [⟨TokenType.IDENTIFIER, "x"⟩, ⟨TokenType.OPERATOR, "="⟩,
          ⟨TokenType.INTEGER, "1"⟩, ⟨TokenType.OPERATOR, ";"⟩] = some ⟨4, []⟩)
    ∧ (tokenize "print 1+2;".toList
        = some [⟨TokenType.KEYWORD, "print"⟩, ⟨TokenType.INTEGER, "1"⟩,
          ⟨TokenType.OPERATOR, "+"⟩, ⟨TokenType.INTEGER, "2"⟩, ⟨TokenType.OPERATOR, ";"⟩]
      ∧ Derives Nonterminal.statement
        [⟨TokenType.KEYWORD, "print"⟩, ⟨TokenType.INTEGER, "1"⟩,
          ⟨TokenType.OPERATOR, "+"⟩, ⟨TokenType.INTEGER, "2"⟩, ⟨TokenType.OPERATOR, ";"⟩]
      ∧ parse [⟨TokenType.KEYWORD, "print"⟩, ⟨TokenType.INTEGER, "1"⟩,
          ⟨TokenType.OPERATOR, "+"⟩, ⟨TokenType.INTEGER, "2"⟩, ⟨TokenType.OPERATOR, ";"⟩]
        = some ⟨5, []⟩) := by
  have hx : Derives Nonterminal.statement
      [⟨TokenType.IDENTIFIER, "x"⟩, ⟨TokenType.OPERATOR, "="⟩, ⟨TokenType.INTEGER, "1"⟩,
        ⟨TokenType.OPERATOR, ";"⟩] :=
    Derives.statement_assignment _
      (Derives.assignment_mk ⟨TokenType.IDENTIFIER, "x"⟩ ⟨TokenType.OPERATOR, "="⟩
        ⟨TokenType.OPERATOR, ";"⟩ [⟨TokenType.INTEGER, "1"⟩] rfl rfl
        (derives_atom _ (Or.inl rfl)) rfl)
  have hterm : ∀ t : Token, t.type = TokenType.INTEGER → Derives Nonterminal.term [t] :=
    fun t ht => Derives.term_mk [t] [] (Derives.factor_integer t ht) Derives.termRest_nil
  have hp : Derives Nonterminal.statement
      [⟨TokenType.KEYWORD, "print"⟩, ⟨TokenType.INTEGER, "1"⟩,
        ⟨TokenType.OPERATOR, "+"⟩, ⟨TokenType.INTEGER, "2"⟩, ⟨TokenType.OPERATOR, ";"⟩] :=
    Derives.statement_printStatement _
      (Derives.printStatement_mk ⟨TokenType.KEYWORD, "print"⟩ ⟨TokenType.OPERATOR, ";"⟩
        [⟨TokenType.INTEGER, "1"⟩, ⟨TokenType.OPERATOR, "+"⟩, ⟨TokenType.INTEGER, "2"⟩] rfl
        (Derives.expression_mk [⟨TokenType.INTEGER, "1"⟩]
          [⟨TokenType.OPERATOR, "+"⟩, ⟨TokenType.INTEGER, "2"⟩] (hterm _ rfl)
          (Derives.expressionRest_cons ⟨TokenType.OPERATOR, "+"⟩ [⟨TokenType.INTEGER, "2"⟩] []
            (Or.inl rfl) (hterm _ rfl) Derives.expressionRest_nil)) rfl)
  exact ⟨⟨by decide, hx, grammar_acceptance "x=1;".toList _ (by decide) hx⟩,
    ⟨by decide, hp, grammar_acceptance "print 1+2;".toList _ (by decide) hp⟩⟩

/-- C10. Missing terminator: when the tokens scanned from a source are a
derivable assignment or print statement without its final `;` (one more
token after them makes the statement), `parse` emits exactly one diagnostic,
the `Expected ';'` one with empty found-text, the current token being the
synthesized `END_OF_FILE`, which it consumes. -/
theorem missing_terminator (s : List Char) (tokens : List Token) (semi : Token)
    (hs : tokenize s = some tokens)
    (h : Derives Nonterminal.assignment (tokens ++ [semi])
      ∨ Derives Nonterminal.printStatement (tokens ++ [semi])) :
    parse tokens = some ⟨tokens.length + 1, ["Syntax error: Expected ';', found "]⟩ :=
  missing_terminator_of_coherent tokens semi h (tokenize_coherent s tokens hs)

theorem missing_terminator_witness :
    tokenize "x=1".toList
        = some [⟨TokenType.IDENTIFIER, "x"⟩, ⟨TokenType.OPERATOR, "="⟩,
          ⟨TokenType.INTEGER, "1"⟩]
    ∧ (Derives Nonterminal.assignment
        ([⟨TokenType.IDENTIFIER, "x"⟩, ⟨TokenType.OPERATOR, "="⟩, ⟨TokenType.INTEGER, "1"⟩]
          ++ [⟨TokenType.OPERATOR, ";"⟩])
      ∨ Derives Nonterminal.printStatement
        ([⟨TokenType.IDENTIFIER, "x"⟩, ⟨TokenType.OPERATOR, "="⟩, ⟨TokenType.INTEGER, "1"⟩]
          ++ [⟨TokenType.OPERATOR, ";"⟩]))
    ∧ parse [⟨TokenType.IDENTIFIER, "x"⟩, ⟨TokenType.OPERATOR, "="⟩, ⟨TokenType.INTEGER, "1"⟩]
        = some ⟨4, ["Syntax error: Expected ';', found "]⟩ := by
  have hx : Derives Nonterminal.assignment
      ([⟨TokenType.IDENTIFIER, "x"⟩, ⟨TokenType.OPERATOR, "="⟩, ⟨TokenType.INTEGER, "1"⟩]
        ++ [⟨TokenType.OPERATOR, ";"⟩]) :=
    Derives.assignment_mk ⟨TokenType.IDENTIFIER, "x"⟩ ⟨TokenType.OPERATOR, "="⟩
      ⟨TokenType.OPERATOR, ";"⟩ [⟨TokenType.INTEGER, "1"⟩] rfl rfl
      (derives_atom _ (Or.inl rfl)) rfl
  exact ⟨by decide, Or.inl hx,
    missing_terminator "x=1".toList _ ⟨TokenType.OPERATOR, ";"⟩ (by decide) (Or.inl hx)⟩

/-- C12. Statement dispatch error: when the tokens scanned from a source start
with a token that is not of kind `IDENTIFIER`, is not `KEYWORD if` and is
not `KEYWORD print`, `parse` emits exactly one diagnostic,
`Syntax error: Unexpected token ` followed by that token's text, consumes
exactly that token (final cursor 1) and returns, the tokens after it
unvisited. -/
theorem statement_dispatch_error (s : List Char) (t : Token) (rest : List Token)
    (hs : tokenize s = some (t :: rest))
    (h1 : t.type ≠ TokenType.IDENTIFIER)
    (h2 : ¬ (t.type = TokenType.KEYWORD ∧ t.value = "if"))
    (h3 : ¬ (t.type = TokenType.KEYWORD ∧ t.value = "print")) :
    parse (t :: rest) = some ⟨1, ["Syntax error: Unexpected token " ++ t.value]⟩ :=
  parse_unexpected_first t rest
    (tokenize_noEndOfFile s (t :: rest) hs t (List.mem_cons_self t rest)) h1 h2 h3

theorem statement_dispatch_error_witness :
    tokenize "else x=1;".toList
        = some (⟨TokenType.KEYWORD, "else"⟩ :: [⟨TokenType.IDENTIFIER, "x"⟩,
          ⟨TokenType.OPERATOR, "="⟩, ⟨TokenType.INTEGER, "1"⟩, ⟨TokenType.OPERATOR, ";"⟩])
    ∧ ((⟨TokenType.KEYWORD, "else"⟩ : Token).type ≠ TokenType.IDENTIFIER
      ∧ ¬ ((⟨TokenType.KEYWORD, "else"⟩ : Token).type = TokenType.KEYWORD
          ∧ (⟨TokenType.KEYWORD, "else"⟩ : Token).value = "if")
      ∧ ¬ ((⟨TokenType.KEYWORD, "else"⟩ : Token).type = TokenType.KEYWORD
          ∧ (⟨TokenType.KEYWORD, "else"⟩ : Token).value = "print"))
    ∧ parse (⟨TokenType.KEYWORD, "else"⟩ :: [⟨TokenType.IDENTIFIER, "x"⟩,
        ⟨TokenType.OPERATOR, "="⟩, ⟨TokenType.INTEGER, "1"⟩, ⟨TokenType.OPERATOR, ";"⟩])
      = some ⟨1, ["Syntax error: Unexpected token " ++ "else"]⟩
    ∧ parse [⟨TokenType.INTEGER, "7"⟩] = some ⟨1, ["Syntax error: Unexpected token " ++ "7"]⟩ :=
  ⟨by decide, by decide,
    statement_dispatch_error "else x=1;".toList ⟨TokenType.KEYWORD, "else"⟩
      [⟨TokenType.IDENTIFIER, "x"⟩, ⟨TokenType.OPERATOR, "="⟩, ⟨TokenType.INTEGER, "1"⟩,
        ⟨TokenType.OPERATOR, ";"⟩] (by decide) (by decide) (by decide) (by decide),
    statement_dispatch_error "7".toList ⟨TokenType.INTEGER, "7"⟩ [] (by decide) (by decide)
      (by decide) (by decide)⟩

/-- C13. Optional else: take tokens of the form `if ( e ) { s }` with `e` a
derivable expression and `s` a derivable statement. When the driver scans
them followed by any `rest` that is empty or does not start with the text
`else`, `parse` emits no diagnostic and stops right after the closing brace,
no token of `rest` consumed; when it scans them followed by `else { s2 }`
with `s2` a derivable statement, `parse` emits no diagnostic and consumes
through the second closing brace. -/
theorem optional_else (kw l r lb rb : Token) (e st : List Token)
    (hkw : kw.value = "if") (hl : l.value = "(") (he : Derives Nonterminal.expression e)
    (hr : r.value = ")") (hlb : lb.value = "\x7b") (hst : Derives Nonterminal.statement st)
    (hrb : rb.value = "\x7d") :
    (∀ (src : List Char) (rest : List Token),
      tokenize src = some (kw :: l :: e ++ r :: lb :: st ++ [rb] ++ rest) →
      (∀ t, rest.head? = some t → t.value ≠ "else") →
      parse (kw :: l :: e ++ r :: lb :: st ++ [rb] ++ rest)
        = some ⟨(kw :: l :: e ++ r :: lb :: st ++ [rb]).length, []⟩)
    ∧ (∀ (src : List Char) (el lb2 rb2 : Token) (s2 : List Token),
      tokenize src = some (kw :: l :: e ++ r :: lb :: st ++ rb :: el :: lb2 :: s2 ++ [rb2]) →
      el.value = "else" → lb2.value = "\x7b" → Derives Nonterminal.statement s2 →
      rb2.value = "\x7d" →
      parse (kw :: l :: e ++ r :: lb :: st ++ rb :: el :: lb2 :: s2 ++ [rb2])
        = some ⟨(kw :: l :: e ++ r :: lb :: st ++ rb :: el :: lb2 :: s2 ++ [rb2]).length,
            []⟩) := by
  constructor
  · intro src rest hsrc hrest
    have hco := tokenize_coherent src _ hsrc
    exact (optional_else_of_coherent kw l r lb rb e st hkw hl he hr hlb hst hrb
      (fun t ht => hco t (List.mem_append_left rest ht))).1 rest hrest
  · intro src el lb2 rb2 s2 hsrc hel hlb2 hs2 hrb2
    have hco := tokenize_coherent src _ hsrc
    have hsplit : kw :: l :: e ++ r :: lb :: st ++ rb :: el :: lb2 :: s2 ++ [rb2]
        = (kw :: l :: e ++ r :: lb :: st ++ [rb]) ++ (el :: lb2 :: s2 ++ [rb2]) := by simp
    have hco1 : ∀ t ∈ kw :: l :: e ++ r :: lb :: st ++ [rb], Coherent t := by
      intro t ht
      apply hco t
      rw [hsplit]
      exact List.mem_append_left _ ht
    have hco2 : ∀ t ∈ s2, Coherent t := by
      intro t ht
      apply hco t
      rw [hsplit]
      apply List.mem_append_right
      simp [ht]
    exact (optional_else_of_coherent kw l r lb rb e st hkw hl he hr hlb hst hrb hco1).2
      el lb2 rb2 s2 hel hlb2 hs2 hrb2 hco2

theorem optional_else_witness :
    (Derives Nonterminal.expression [⟨TokenType.IDENTIFIER, "x"⟩]
      ∧ Derives Nonterminal.statement
          [⟨TokenType.IDENTIFIER, "y"⟩, ⟨TokenType.OPERATOR, "="⟩, ⟨TokenType.INTEGER, "1"⟩,
            ⟨TokenType.OPERATOR, ";"⟩])
    ∧ (tokenize "if(x)\x7by=1;\x7dz".toList
        = some ((⟨TokenType.KEYWORD, "if"⟩ : Token) :: ⟨TokenType.OPERATOR, "("⟩
          :: [⟨TokenType.IDENTIFIER, "x"⟩]
          ++ ⟨TokenType.OPERATOR, ")"⟩ :: ⟨TokenType.OPERATOR, "\x7b"⟩
          :: [⟨TokenType.IDENTIFIER, "y"⟩, ⟨TokenType.OPERATOR, "="⟩,
            ⟨TokenType.INTEGER, "1"⟩, ⟨TokenType.OPERATOR, ";"⟩]
          ++ [⟨TokenType.OPERATOR, "\x7d"⟩] ++ [⟨TokenType.IDENTIFIER, "z"⟩])
      ∧ parse ((⟨TokenType.KEYWORD, "if"⟩ : Token) :: ⟨TokenType.OPERATOR, "("⟩
          :: [⟨TokenType.IDENTIFIER, "x"⟩]
          ++ ⟨TokenType.OPERATOR, ")"⟩ :: ⟨TokenType.OPERATOR, "\x7b"⟩
          :: [⟨TokenType.IDENTIFIER, "y"⟩, ⟨TokenType.OPERATOR, "="⟩,
            ⟨TokenType.INTEGER, "1"⟩, ⟨TokenType.OPERATOR, ";"⟩]
          ++ [⟨TokenType.OPERATOR, "\x7d"⟩] ++ [⟨TokenType.IDENTIFIER, "z"⟩])
        = some ⟨10, []⟩)
    ∧ (tokenize "if(x)\x7by=1;\x7delse\x7by=1;\x7d".toList
        = some ((⟨TokenType.KEYWORD, "if"⟩ : Token) :: ⟨TokenType.OPERATOR, "("⟩
          :: [⟨TokenType.IDENTIFIER, "x"⟩]
          ++ ⟨TokenType.OPERATOR, ")"⟩ :: ⟨TokenType.OPERATOR, "\x7b"⟩
          :: [⟨TokenType.IDENTIFIER, "y"⟩, ⟨TokenType.OPERATOR, "="⟩,
            ⟨TokenType.INTEGER, "1"⟩, ⟨TokenType.OPERATOR, ";"⟩]
          ++ ⟨TokenType.OPERATOR, "\x7d"⟩ :: ⟨TokenType.KEYWORD, "else"⟩
          :: ⟨TokenType.OPERATOR, "\x7b"⟩
          :: [⟨TokenType.IDENTIFIER, "y"⟩, ⟨TokenType.OPERATOR, "="⟩,
            ⟨TokenType.INTEGER, "1"⟩, ⟨TokenType.OPERATOR, ";"⟩]
          ++ [⟨TokenType.OPERATOR, "\x7d"⟩])
      ∧ parse ((⟨TokenType.KEYWORD, "if"⟩ : Token) :: ⟨TokenType.OPERATOR, "("⟩
          :: [⟨TokenType.IDENTIFIER, "x"⟩]
          ++ ⟨TokenType.OPERATOR, ")"⟩ :: ⟨TokenType.OPERATOR, "\x7b"⟩
          :: [⟨TokenType.IDENTIFIER, "y"⟩, ⟨TokenType.OPERATOR, "="⟩,
            ⟨TokenType.INTEGER, "1"⟩, ⟨TokenType.OPERATOR, ";"⟩]
          ++ ⟨TokenType.OPERATOR, "\x7d"⟩ :: ⟨TokenType.KEYWORD, "else"⟩
          :: ⟨TokenType.OPERATOR, "\x7b"⟩
          :: [⟨TokenType.IDENTIFIER, "y"⟩, ⟨TokenType.OPERATOR, "="⟩,
            ⟨TokenType.INTEGER, "1"⟩, ⟨TokenType.OPERATOR, ";"⟩]
          ++ [⟨TokenType.OPERATOR, "\x7d"⟩])
        = some ⟨17, []⟩) := by
  have he : Derives Nonterminal.expression [⟨TokenType.IDENTIFIER, "x"⟩] :=
    derives_atom _ (Or.inr rfl)
  have hs : Derives Nonterminal.statement
      [⟨TokenType.IDENTIFIER, "y"⟩, ⟨TokenType.OPERATOR, "="⟩, ⟨TokenType.INTEGER, "1"⟩,
        ⟨TokenType.OPERATOR, ";"⟩] :=
    Derives.statement_assignment _
      (Derives.assignment_mk ⟨TokenType.IDENTIFIER, "y"⟩ ⟨TokenType.OPERATOR, "="⟩
        ⟨TokenType.OPERATOR, ";"⟩ [⟨TokenType.INTEGER, "1"⟩] rfl rfl
        (derives_atom _ (Or.inl rfl)) rfl)
  have hall := optional_else ⟨TokenType.KEYWORD, "if"⟩ ⟨TokenType.OPERATOR, "("⟩
    ⟨TokenType.OPERATOR, ")"⟩ ⟨TokenType.OPERATOR, "\x7b"⟩ ⟨TokenType.OPERATOR, "\x7d"⟩
    [⟨TokenType.IDENTIFIER, "x"⟩]
    [⟨TokenType.IDENTIFIER, "y"⟩, ⟨TokenType.OPERATOR, "="⟩, ⟨TokenType.INTEGER, "1"⟩,
      ⟨TokenType.OPERATOR, ";"⟩] rfl rfl he rfl rfl hs rfl
  exact ⟨⟨he, hs⟩,
    ⟨by decide, hall.1 "if(x)\x7by=1;\x7dz".toList [⟨TokenType.IDENTIFIER, "z"⟩] (by decide)
      (by decide)⟩,
    ⟨by decide, hall.2 "if(x)\x7by=1;\x7delse\x7by=1;\x7d".toList
      ⟨TokenType.KEYWORD, "else"⟩ ⟨TokenType.OPERATOR, "\x7b"⟩ ⟨TokenType.OPERATOR, "\x7d"⟩
      [⟨TokenType.IDENTIFIER, "y"⟩, ⟨TokenType.OPERATOR, "="⟩, ⟨TokenType.INTEGER, "1"⟩,
        ⟨TokenType.OPERATOR, ";"⟩] (by decide) rfl rfl hs rfl⟩⟩

/-! ## The depth of the recursion -/

theorem expr_frames_total (tokens : List Token) (n : Nat) :
    (∀ p : Parser, 8 * (tokens.length - p.currentTokenIndex) + 1 ≤ n →
      ∃ r d, factorFrames tokens n p = some (r, d) ∧ factor tokens n p = some r
        ∧ p.currentTokenIndex < r.currentTokenIndex
        ∧ 1 ≤ d ∧ d ≤ 3 * (tokens.length - p.currentTokenIndex) + 1)
    ∧ (∀ p : Parser, 8 * (tokens.length - p.currentTokenIndex) + 1 ≤ n →
      ∃ r d, termLoopFrames tokens n p = some (r, d) ∧ termLoop tokens n p = some r
        ∧ p.currentTokenIndex ≤ r.currentTokenIndex
        ∧ d ≤ 3 * (tokens.length - p.currentTokenIndex))
    ∧ (∀ p : Parser, 8 * (tokens.length - p.currentTokenIndex) + 2 ≤ n →
      ∃ r d, termFrames tokens n p = some (r, d) ∧ term tokens n p = some r
        ∧ p.currentTokenIndex < r.currentTokenIndex
        ∧ 1 ≤ d ∧ d ≤ 3 * (tokens.length - p.currentTokenIndex) + 2)
    ∧ (∀ p : Parser, 8 * (tokens.length - p.currentTokenIndex) + 1 ≤ n →
      ∃ r d, expressionLoopFrames tokens n p = some (r, d)
        ∧ expressionLoop tokens n p = some r
        ∧ p.currentTokenIndex ≤ r.currentTokenIndex
        ∧ d ≤ 3 * (tokens.length - p.currentTokenIndex))
    ∧ (∀ p : Parser, 8 * (tokens.length - p.currentTokenIndex) + 3 ≤ n →
      ∃ r d, expressionFrames tokens n p = some (r, d) ∧ expression tokens n p = some r
        ∧ p.currentTokenIndex < r.currentTokenIndex
        ∧ 1 ≤ d ∧ d ≤ 3 * (tokens.length - p.currentTokenIndex) + 3) := by
  induction n with
  | zero => refine ⟨?_, ?_, ?_, ?_, ?_⟩ <;> intro p h <;> omega
  | succ n ih =>
    obtain ⟨ihF, ihTL, ihT, ihEL, ihE⟩ := ih
    refine ⟨?_, ?_, ?_, ?_, ?_⟩ <;> intro p hn
    · rw [factorFrames, factor]
      split
      · exact ⟨_, _, rfl, rfl, by simp, Nat.le_refl _, by omega⟩
      · split
        · rename_i hc
          have hlt := index_lt_of_value_eq tokens p "(" (by decide) hc
          obtain ⟨p1, d1, hD, he, h1, h2, h3⟩ := ihE (consumeToken p) (by simp; omega)
          rw [hD, he]
          dsimp only
          simp only [consumeToken_index] at h1 h3
          split
          · exact ⟨_, _, rfl, rfl, by simp; omega, by omega, by omega⟩
          · exact ⟨_, _, rfl, rfl, by simp; omega, by omega, by omega⟩
        · exact ⟨_, _, rfl, rfl, by simp, Nat.le_refl _, by omega⟩
    · rw [termLoopFrames, termLoop]
      split
      · rename_i hc
        have hlt : p.currentTokenIndex < tokens.length := by
          rcases hc with hc | hc
          · exact index_lt_of_value_eq tokens p "*" (by decide) hc
          · exact index_lt_of_value_eq tokens p "/" (by decide) hc
        obtain ⟨p1, d1, hD, he, h1, h2, h3⟩ := ihF (consumeToken p) (by simp; omega)
        simp only [consumeToken_index] at h1 h3
        obtain ⟨p2, d2, hD2, he2, h4, h5⟩ := ihTL p1 (by omega)
        rw [hD, he]
        dsimp only
        rw [hD2]
        exact ⟨p2, _, rfl, he2, by omega, by
          rcases Nat.le_total d1 d2 with hm | hm
          · rw [Nat.max_eq_right hm]; omega
          · rw [Nat.max_eq_left hm]; omega⟩
      · exact ⟨_, _, rfl, rfl, Nat.le_refl _, Nat.zero_le _⟩
    · rw [termFrames, term]
      obtain ⟨p1, d1, hD, he, h1, h2, h3⟩ := ihF p (by omega)
      obtain ⟨p2, d2, hD2, he2, h4, h5⟩ := ihTL p1 (by omega)
      rw [hD, he]
      dsimp only
      rw [hD2]
      refine ⟨p2, _, rfl, he2, by omega, by omega, ?_⟩
      rcases Nat.le_total d1 d2 with hm | hm
      · rw [Nat.max_eq_right hm]; omega
      · rw [Nat.max_eq_left hm]; omega
    · rw [expressionLoopFrames, expressionLoop]
      split
      · rename_i hc
        have hlt : p.currentTokenIndex < tokens.length := by
          rcases hc with hc | hc
          · exact index_lt_of_value_eq tokens p "+" (by decide) hc
          · exact index_lt_of_value_eq tokens p "-" (by decide) hc
        obtain ⟨p1, d1, hD, he, h1, h2, h3⟩ := ihT (consumeToken p) (by simp; omega)
        simp only [consumeToken_index] at h1 h3
        obtain ⟨p2, d2, hD2, he2, h4, h5⟩ := ihEL p1 (by omega)
        rw [hD, he]
        dsimp only
        rw [hD2]
        exact ⟨p2, _, rfl, he2, by omega, by
          rcases Nat.le_total d1 d2 with hm | hm
          · rw [Nat.max_eq_right hm]; omega
          · rw [Nat.max_eq_left hm]; omega⟩
      · exact ⟨_, _, rfl, rfl, Nat.le_refl _, Nat.zero_le _⟩
    · rw [expressionFrames, expression]
      obtain ⟨p1, d1, hD, he, h1, h2, h3⟩ := ihT p (by omega)
      obtain ⟨p2, d2, hD2, he2, h4, h5⟩ := ihEL p1 (by omega)
      rw [hD, he]
      dsimp only
      rw [hD2]
      refine ⟨p2, _, rfl, he2, by omega, by omega, ?_⟩
      rcases Nat.le_total d1 d2 with hm | hm
      · rw [Nat.max_eq_right hm]; omega
      · rw [Nat.max_eq_left hm]; omega

theorem expressionFrames_total (tokens : List Token) (n : Nat) (p : Parser)
    (hn : 8 * (tokens.length - p.currentTokenIndex) + 3 ≤ n) :
    ∃ r d, expressionFrames tokens n p = some (r, d) ∧ expression tokens n p = some r
      ∧ p.currentTokenIndex < r.currentTokenIndex
      ∧ 1 ≤ d ∧ d ≤ 3 * (tokens.length - p.currentTokenIndex) + 3 :=
  (expr_frames_total tokens n).2.2.2.2 p hn

theorem assignmentFrames_total (tokens : List Token) (n : Nat) (p : Parser)
    (hn : 8 * (tokens.length - p.currentTokenIndex) + 3 ≤ n) :
    ∃ r d, assignmentFrames tokens n p = some (r, d) ∧ assignment tokens n p = some r
      ∧ p.currentTokenIndex < r.currentTokenIndex
      ∧ 1 ≤ d ∧ d ≤ 3 * (tokens.length - (p.currentTokenIndex + 1)) + 4 := by
  unfold assignmentFrames assignment
  dsimp only
  split
  · obtain ⟨p2, d, hD, he, h2, h3, h4⟩ :=
      expressionFrames_total tokens n (consumeToken (consumeToken p)) (by simp; omega)
    rw [hD, he]
    simp only [consumeToken_index] at h2 h4
    exact ⟨_, _, rfl, rfl, by simp; omega, by omega, by omega⟩
  · exact ⟨_, _, rfl, rfl, by simp; omega, Nat.le_refl _, by omega⟩

theorem printStatementFrames_total (tokens : List Token) (n : Nat) (p : Parser)
    (hn : 8 * (tokens.length - p.currentTokenIndex) + 3 ≤ n) :
    ∃ r d, printStatementFrames tokens n p = some (r, d)
      ∧ printStatement tokens n p = some r
      ∧ p.currentTokenIndex < r.currentTokenIndex
      ∧ 1 ≤ d ∧ d ≤ 3 * (tokens.length - (p.currentTokenIndex + 1)) + 4 := by
  unfold printStatementFrames printStatement
  obtain ⟨p2, d, hD, he, h2, h3, h4⟩ :=
    expressionFrames_total tokens n (consumeToken p) (by simp; omega)
  rw [hD, he]
  simp only [consumeToken_index] at h2 h4
  exact ⟨_, _, rfl, rfl, by simp; omega, by omega, by omega⟩

theorem max_le_of {a b c : Nat} (h1 : a ≤ c) (h2 : b ≤ c) : max a b ≤ c :=
  Nat.max_le.2 ⟨h1, h2⟩

theorem stmt_frames_total (tokens : List Token) (n : Nat) :
    (∀ p : Parser, 8 * (tokens.length - p.currentTokenIndex) + 6 ≤ n →
      ∃ r d, programFrames tokens n p = some (r, d) ∧ program tokens n p = some r
        ∧ p.currentTokenIndex ≤ r.currentTokenIndex
        ∧ 1 ≤ d ∧ d ≤ 3 * (tokens.length - p.currentTokenIndex) + 3)
    ∧ (∀ p : Parser, 8 * (tokens.length - p.currentTokenIndex) + 5 ≤ n →
      p.currentTokenIndex < tokens.length →
      ∃ r d, statementFrames tokens n p = some (r, d) ∧ statement tokens n p = some r
        ∧ p.currentTokenIndex < r.currentTokenIndex
        ∧ 1 ≤ d ∧ d ≤ 3 * (tokens.length - p.currentTokenIndex) + 2)
    ∧ (∀ p : Parser, 8 * (tokens.length - p.currentTokenIndex) + 4 ≤ n →
      ∃ r d, conditionalFrames tokens n p = some (r, d) ∧ conditional tokens n p = some r
        ∧ p.currentTokenIndex < r.currentTokenIndex
        ∧ 1 ≤ d ∧ d ≤ 3 * (tokens.length - (p.currentTokenIndex + 1)) + 4) := by
  induction n with
  | zero =>
    refine ⟨?_, ?_, ?_⟩
    · intro p h; omega
    · intro p h; omega
    · intro p h; omega
  | succ n ih =>
    obtain ⟨ihP, ihS, ihC⟩ := ih
    refine ⟨?_, ?_, ?_⟩
    · intro p hn
      rw [programFrames, program]
      split
      · rename_i hc
        have hlt : p.currentTokenIndex < tokens.length := by
          by_contra hge
          apply hc
          have hnone : tokens[p.currentTokenIndex]? = none := by
            simpa using Nat.le_of_not_lt hge
          simp [getCurrentToken, hnone]
        obtain ⟨r, d, hD, h1, h2, h3, h4⟩ := ihS p (by omega) hlt
        rw [hD]
        exact ⟨r, _, rfl, h1, Nat.le_of_lt h2, by omega, by omega⟩
      · exact ⟨_, _, rfl, rfl, Nat.le_refl _, Nat.le_refl _, by omega⟩
    · intro p hn hlt
      rw [statementFrames, statement]
      split
      · obtain ⟨r, d, hD, h1, h2, h3, h4⟩ := assignmentFrames_total tokens n p (by omega)
        rw [hD]
        exact ⟨r, _, rfl, h1, h2, by omega, by omega⟩
      · split
        · obtain ⟨r, d, hD, h1, h2, h3, h4⟩ := ihC p (by omega)
          rw [hD]
          exact ⟨r, _, rfl, h1, h2, by omega, by omega⟩
        · split
          · obtain ⟨r, d, hD, h1, h2, h3, h4⟩ :=
              printStatementFrames_total tokens n p (by omega)
            rw [hD]
            exact ⟨r, _, rfl, h1, h2, by omega, by omega⟩
          · exact ⟨_, _, rfl, rfl, by simp, Nat.le_refl _, by omega⟩
    · intro p hn
      rw [conditionalFrames, conditional]
      dsimp only
      split
      · rename_i c1
        have hlt1 := index_lt_of_value_eq tokens (consumeToken p) "(" (by decide) c1
        simp only [consumeToken_index] at hlt1
        obtain ⟨p2, d1, hD, he, h2, hd1, hd1b⟩ :=
          expressionFrames_total tokens n (consumeToken (consumeToken p)) (by simp; omega)
        simp only [consumeToken_index] at h2 hd1b
        rw [hD, he]
        dsimp only
        split
        · rename_i c2
          have hlt2 := index_lt_of_value_eq tokens p2 ")" (by decide) c2
          split
          · obtain ⟨p4, d2, hDp, hp, h4, hd2, hd2b⟩ :=
              ihP (consumeToken (consumeToken p2)) (by simp; omega)
            simp only [consumeToken_index] at h4 hd2b
            rw [hDp, hp]
            dsimp only
            split
            · rename_i c4
              have hlt4 := index_lt_of_value_eq tokens p4 "\x7d" (by decide) c4
              split
              · split
                · obtain ⟨p7, d3, hDp7, hp7, h7, hd3, hd3b⟩ :=
                    ihP (consumeToken (consumeToken (consumeToken p4))) (by simp; omega)
                  simp only [consumeToken_index] at h7 hd3b
                  rw [hDp7, hp7]
                  dsimp only
                  have hmax : max d1 (max d2 d3)
                      ≤ 3 * (tokens.length - (p.currentTokenIndex + 1)) + 3 :=
                    max_le_of (by omega) (max_le_of (by omega) (by omega))
                  split
                  · exact ⟨_, _, rfl, rfl, by simp; omega, by omega, by omega⟩
                  · exact ⟨_, _, rfl, rfl, by simp; omega, by omega, by omega⟩
                · have hmax : max d1 d2
                      ≤ 3 * (tokens.length - (p.currentTokenIndex + 1)) + 3 :=
                    max_le_of (by omega) (by omega)
                  exact ⟨_, _, rfl, rfl, by simp; omega, by omega, by omega⟩
              · have hmax : max d1 d2
                    ≤ 3 * (tokens.length - (p.currentTokenIndex + 1)) + 3 :=
                  max_le_of (by omega) (by omega)
                exact ⟨_, _, rfl, rfl, by simp; omega, by omega, by omega⟩
            · have hmax : max d1 d2
                  ≤ 3 * (tokens.length - (p.currentTokenIndex + 1)) + 3 :=
                max_le_of (by omega) (by omega)
              exact ⟨_, _, rfl, rfl, by simp; omega, by omega, by omega⟩
          · exact ⟨_, _, rfl, rfl, by simp; omega, by omega, by omega⟩
        · exact ⟨_, _, rfl, rfl, by simp; omega, by omega, by omega⟩
      · exact ⟨_, _, rfl, rfl, by simp; omega, Nat.le_refl _, by omega⟩

theorem parseFrames_total (tokens : List Token) :
    ∃ r d, parseFrames tokens = some (r, d) ∧ parse tokens = some r
      ∧ 2 ≤ d ∧ d ≤ 3 * tokens.length + 4 := by
  obtain ⟨r, d, hD, h1, _, h3, h4⟩ :=
    (stmt_frames_total tokens (fuelFor tokens 0)).1 ⟨0, []⟩ (by simp [fuelFor])
  refine ⟨r, d + 1, ?_, ?_, by omega, ?_⟩
  · unfold parseFrames
    rw [hD]
  · unfold parse
    exact h1
  · simp only [Nat.sub_zero] at h4
    omega

theorem expressionFrames_term {tokens : List Token} {n : Nat} {p r : Parser} {d : Nat}
    (h : expressionFrames tokens n p = some (r, d)) :
    ∃ m r1 d1, termFrames tokens m p = some (r1, d1) ∧ d1 + 1 ≤ d := by
  cases n with
  | zero => simp [expressionFrames] at h
  | succ n =>
    rw [expressionFrames] at h
    cases hT : termFrames tokens n p with
    | none => rw [hT] at h; cases h
    | some pr =>
      obtain ⟨p1, d1⟩ := pr
      rw [hT] at h
      dsimp only at h
      cases hL : expressionLoopFrames tokens n p1 with
      | none => rw [hL] at h; cases h
      | some pl =>
        obtain ⟨p2, d2⟩ := pl
        rw [hL] at h
        cases h
        exact ⟨n, p1, d1, hT, Nat.succ_le_succ (Nat.le_max_left d1 d2)⟩

theorem termFrames_factor {tokens : List Token} {n : Nat} {p r : Parser} {d : Nat}
    (h : termFrames tokens n p = some (r, d)) :
    ∃ m r1 d1, factorFrames tokens m p = some (r1, d1) ∧ d1 + 1 ≤ d := by
  cases n with
  | zero => simp [termFrames] at h
  | succ n =>
    rw [termFrames] at h
    cases hT : factorFrames tokens n p with
    | none => rw [hT] at h; cases h
    | some pr =>
      obtain ⟨p1, d1⟩ := pr
      rw [hT] at h
      dsimp only at h
      cases hL : termLoopFrames tokens n p1 with
      | none => rw [hL] at h; cases h
      | some pl =>
        obtain ⟨p2, d2⟩ := pl
        rw [hL] at h
        cases h
        exact ⟨n, p1, d1, hT, Nat.succ_le_succ (Nat.le_max_left d1 d2)⟩

theorem factorFrames_pos {tokens : List Token} {n : Nat} {p r : Parser} {d : Nat}
    (h : factorFrames tokens n p = some (r, d)) : 1 ≤ d := by
  cases n with
  | zero => simp [factorFrames] at h
  | succ n =>
    rw [factorFrames] at h
    split at h
    · cases h; exact Nat.le_refl _
    · split at h
      · cases hE : expressionFrames tokens n (consumeToken p) with
        | none => rw [hE] at h; cases h
        | some pr =>
          obtain ⟨p1, d1⟩ := pr
          rw [hE] at h
          dsimp only at h
          split at h <;> (cases h; omega)
      · cases h; exact Nat.le_refl _

theorem factorFrames_paren {tokens : List Token} {n : Nat} {p r : Parser} {d : Nat}
    (hcur : getCurrentToken tokens p = ⟨TokenType.OPERATOR, "("⟩)
    (h : factorFrames tokens n p = some (r, d)) :
    ∃ m r1 d1, expressionFrames tokens m (consumeToken p) = some (r1, d1) ∧ d = d1 + 1 := by
  cases n with
  | zero => simp [factorFrames] at h
  | succ n =>
    rw [factorFrames] at h
    split at h
    · rename_i hc
      rw [hcur] at hc
      rcases hc with hc | hc <;> cases hc
    · split at h
      · cases hE : expressionFrames tokens n (consumeToken p) with
        | none => rw [hE] at h; cases h
        | some pr =>
          obtain ⟨p1, d1⟩ := pr
          rw [hE] at h
          dsimp only at h
          split at h <;> (cases h; exact ⟨n, p1, d1, hE, rfl⟩)
      · rename_i hc
        rw [hcur] at hc
        exact absurd rfl hc

/-- A factor that starts with `k` opening parentheses needs `3 * k + 1` frames:
each parenthesis takes a frame of `factor`, of `expression` and of `term`. -/
theorem factorFrames_tower (tokens : List Token) (k : Nat) :
    ∀ (n : Nat) (p r : Parser) (d : Nat),
      (∀ j, j < k → tokens[p.currentTokenIndex + j]? = some ⟨TokenType.OPERATOR, "("⟩) →
      factorFrames tokens n p = some (r, d) → 3 * k + 1 ≤ d := by
  induction k with
  | zero =>
    intro n p r d _ h
    exact factorFrames_pos h
  | succ k ih =>
    intro n p r d hk h
    have hcur : getCurrentToken tokens p = ⟨TokenType.OPERATOR, "("⟩ := by
      have h0 := hk 0 (Nat.succ_pos k)
      rw [Nat.add_zero] at h0
      simp [getCurrentToken, h0]
    obtain ⟨m1, r1, d1, hE, hd⟩ := factorFrames_paren hcur h
    obtain ⟨m2, r2, d2, hT, hd2⟩ := expressionFrames_term hE
    obtain ⟨m3, r3, d3, hF, hd3⟩ := termFrames_factor hT
    have := ih m3 (consumeToken p) r3 d3 (by
      intro j hj
      have hj1 := hk (j + 1) (Nat.succ_lt_succ hj)
      rw [consumeToken_index]
      rw [← hj1]
      congr 1
      omega) hF
    omega

theorem programFrames_statement {tokens : List Token} {n : Nat} {p r : Parser} {d : Nat}
    (hcur : (getCurrentToken tokens p).type ≠ TokenType.END_OF_FILE)
    (h : programFrames tokens n p = some (r, d)) :
    ∃ m d1, statementFrames tokens m p = some (r, d1) ∧ d = d1 + 1 := by
  cases n with
  | zero => simp [programFrames] at h
  | succ n =>
    rw [programFrames, if_pos hcur] at h
    cases hS : statementFrames tokens n p with
    | none => rw [hS] at h; cases h
    | some pr =>
      obtain ⟨p1, d1⟩ := pr
      rw [hS] at h
      cases h
      exact ⟨n, d1, hS, rfl⟩

theorem statementFrames_assignment {tokens : List Token} {n : Nat} {p r : Parser} {d : Nat}
    (hcur : (getCurrentToken tokens p).type = TokenType.IDENTIFIER)
    (h : statementFrames tokens n p = some (r, d)) :
    ∃ m d1, assignmentFrames tokens m p = some (r, d1) ∧ d = d1 + 1 := by
  cases n with
  | zero => simp [statementFrames] at h
  | succ n =>
    rw [statementFrames] at h
    rw [if_pos hcur] at h
    cases hS : assignmentFrames tokens n p with
    | none => rw [hS] at h; cases h
    | some pr =>
      obtain ⟨p1, d1⟩ := pr
      rw [hS] at h
      cases h
      exact ⟨n, d1, hS, rfl⟩

theorem assignmentFrames_expression {tokens : List Token} {n : Nat} {p r : Parser} {d : Nat}
    (hcur : (getCurrentToken tokens (consumeToken p)).value = "=")
    (h : assignmentFrames tokens n p = some (r, d)) :
    ∃ r1 d1, expressionFrames tokens n (consumeToken (consumeToken p)) = some (r1, d1)
      ∧ d = d1 + 1 := by
  unfold assignmentFrames at h
  dsimp only at h
  rw [if_pos hcur] at h
  cases hS : expressionFrames tokens n (consumeToken (consumeToken p)) with
  | none => rw [hS] at h; cases h
  | some pr =>
    obtain ⟨p1, d1⟩ := pr
    rw [hS] at h
    cases h
    exact ⟨p1, d1, rfl, rfl⟩

/-- The assignment `x = ( ( ... (` with `k` unclosed parentheses needs
`3 * k + 7` frames. -/
theorem parseFrames_tower (k : Nat) (r : Parser) (d : Nat)
    (h : parseFrames (⟨TokenType.IDENTIFIER, "x"⟩ :: ⟨TokenType.OPERATOR, "="⟩
      :: List.replicate k ⟨TokenType.OPERATOR, "("⟩) = some (r, d)) :
    3 * k + 7 ≤ d := by
  unfold parseFrames at h
  generalize fuelFor _ 0 = n at h
  cases hP : programFrames (⟨TokenType.IDENTIFIER, "x"⟩ :: ⟨TokenType.OPERATOR, "="⟩
      :: List.replicate k ⟨TokenType.OPERATOR, "("⟩) n ⟨0, []⟩ with
  | none => rw [hP] at h; cases h
  | some pr =>
    obtain ⟨p1, d1⟩ := pr
    rw [hP] at h
    cases h
    obtain ⟨m1, d2, hS, e1⟩ := programFrames_statement (by simp [getCurrentToken]) hP
    obtain ⟨m2, d3, hA, e2⟩ := statementFrames_assignment (by simp [getCurrentToken]) hS
    obtain ⟨r4, d4, hE, e3⟩ :=
      assignmentFrames_expression (by simp [getCurrentToken, consumeToken]) hA
    obtain ⟨m5, r5, d5, hT, e4⟩ := expressionFrames_term hE
    obtain ⟨m6, r6, d6, hF, e5⟩ := termFrames_factor hT
    have := factorFrames_tower _ k m6 _ r6 d6 (by
      intro j hj
      simp [consumeToken, Nat.add_comm 2 j, hj]) hF
    omega

theorem parseOnStack_of_capacity (capacity : Nat) (tokens : List Token)
    (h : 3 * tokens.length + 4 ≤ capacity) : parseOnStack capacity tokens = parse tokens := by
  obtain ⟨r, d, hD, hp, _, hd⟩ := parseFrames_total tokens
  unfold parseOnStack
  rw [hD, hp]
  dsimp only
  rw [if_pos (by omega)]

theorem parseOnStack_tower (capacity k : Nat) (h : capacity < 3 * k + 7) :
    parseOnStack capacity (⟨TokenType.IDENTIFIER, "x"⟩ :: ⟨TokenType.OPERATOR, "="⟩
      :: List.replicate k ⟨TokenType.OPERATOR, "("⟩) = none := by
  obtain ⟨r, d, hD, _, _, _⟩ := parseFrames_total (⟨TokenType.IDENTIFIER, "x"⟩
    :: ⟨TokenType.OPERATOR, "="⟩ :: List.replicate k ⟨TokenType.OPERATOR, "("⟩)
  have hd := parseFrames_tower k r d hD
  unfold parseOnStack
  rw [hD]
  dsimp only
  rw [if_neg (by omega)]

theorem getNextToken_lparen (s : List Char) (pos : Nat) (hc : s[pos]? = some '(') :
    getNextToken s pos = (⟨TokenType.OPERATOR, "("⟩, pos + 1) := by
  have hq := skipWhitespace_at_nonspace s pos '(' hc (by decide)
  unfold getNextToken
  dsimp only
  rw [hq, hc]
  dsimp only
  rw [if_neg (by decide), if_neg (by decide), if_neg (by decide), if_pos (by decide)]

theorem collectTokens_parens (s : List Char) (k : Nat) :
    ∀ fuel pos : Nat, k + 1 ≤ fuel → s.length = pos + k →
      (∀ j, j < k → s[pos + j]? = some '(') →
      collectTokens s fuel pos = some (List.replicate k ⟨TokenType.OPERATOR, "("⟩) := by
  induction k with
  | zero =>
    intro fuel pos hf hl _
    cases fuel with
    | zero => omega
    | succ fuel =>
      rw [collectTokens, getNextToken_past_end s pos (by omega)]
      rfl
  | succ k ih =>
    intro fuel pos hf hl h
    cases fuel with
    | zero => omega
    | succ fuel =>
      have h0 := h 0 (Nat.succ_pos k)
      rw [Nat.add_zero] at h0
      rw [collectTokens, getNextToken_lparen s pos h0]
      dsimp only
      rw [if_neg (by decide), ih fuel (pos + 1) (by omega) (by omega) (by
        intro j hj
        have hj1 := h (j + 1) (Nat.succ_lt_succ hj)
        rw [← hj1]
        congr 1
        omega)]
      rfl

/-- The tokens of the source text `x=` followed by `k` opening parentheses. -/
theorem tokenize_tower (k : Nat) :
    tokenize ('x' :: '=' :: List.replicate k '(')
      = some (⟨TokenType.IDENTIFIER, "x"⟩ :: ⟨TokenType.OPERATOR, "="⟩
          :: List.replicate k ⟨TokenType.OPERATOR, "("⟩) := by
  have h1 : getNextToken ('x' :: '=' :: List.replicate k '(') 0
      = (⟨TokenType.IDENTIFIER, "x"⟩, 1) := by
    have hq := skipWhitespace_at_nonspace ('x' :: '=' :: List.replicate k '(') 0 'x' rfl
      (by decide)
    unfold getNextToken
    dsimp only
    rw [hq]
    have a1 : isAlpha 'x' = true := by decide
    have a2 : isAlpha '=' = false := by decide
    have a3 : isDigit '=' = false := by decide
    simp [readIdentifierOrKeyword, advanceWhile, substr, isKeywordText, a1, a2, a3]
  have h2 : getNextToken ('x' :: '=' :: List.replicate k '(') 1
      = (⟨TokenType.OPERATOR, "="⟩, 2) := by
    have hq := skipWhitespace_at_nonspace ('x' :: '=' :: List.replicate k '(') 1 '='
      (by simp) (by decide)
    unfold getNextToken
    dsimp only
    rw [hq]
    have a2 : isAlpha '=' = false := by decide
    have a3 : isDigit '=' = false := by decide
    simp [a2, a3]
  unfold tokenize
  rw [List.length_cons, List.length_cons, List.length_replicate]
  rw [collectTokens, h1]
  dsimp only
  rw [if_neg (by decide), collectTokens, h2]
  dsimp only
  rw [if_neg (by decide), collectTokens_parens _ k (k + 1) 2 (Nat.le_refl _)
    (by simp; omega) (by
      intro j hj
      simp [Nat.add_comm 2 j, hj])]

/-- C3 as stated fails: the rules recurse on the call stack and nothing bounds
the depth. The source `x=` followed by `k` opening parentheses scans to `k + 2`
tokens and its parse needs at least `3 * k + 7` frames, so for every stack
capacity there is a source whose parse exhausts the stack instead of
returning, although the rules, as a function of the token list, have a
result for it; with 20000 parentheses a stack of 60000 frames is not enough. -/
theorem deep_nesting_exhausts_stack :
    (∀ capacity : Nat, ∃ tokens,
        tokenize ('x' :: '=' :: List.replicate capacity '(') = some tokens
        ∧ (∃ r, parse tokens = some r)
        ∧ parseOnStack capacity tokens = none)
    ∧ tokenize ('x' :: '=' :: List.replicate 20000 '(')
        = some (⟨TokenType.IDENTIFIER, "x"⟩ :: ⟨TokenType.OPERATOR, "="⟩
            :: List.replicate 20000 ⟨TokenType.OPERATOR, "("⟩)
    ∧ (∃ r d, parseFrames (⟨TokenType.IDENTIFIER, "x"⟩ :: ⟨TokenType.OPERATOR, "="⟩
            :: List.replicate 20000 ⟨TokenType.OPERATOR, "("⟩) = some (r, d)
        ∧ 60007 ≤ d)
    ∧ parseOnStack 60000 (⟨TokenType.IDENTIFIER, "x"⟩ :: ⟨TokenType.OPERATOR, "="⟩
        :: List.replicate 20000 ⟨TokenType.OPERATOR, "("⟩) = none := by
  refine ⟨?_, tokenize_tower 20000, ?_, parseOnStack_tower 60000 20000 (by omega)⟩
  · intro capacity
    refine ⟨_, tokenize_tower capacity, ?_, parseOnStack_tower capacity capacity (by omega)⟩
    obtain ⟨r, _, _, hp, _⟩ := parseFrames_total (⟨TokenType.IDENTIFIER, "x"⟩
      :: ⟨TokenType.OPERATOR, "="⟩ :: List.replicate capacity ⟨TokenType.OPERATOR, "("⟩)
    exact ⟨r, hp⟩
  · obtain ⟨r, d, hD, _⟩ := parseFrames_total (⟨TokenType.IDENTIFIER, "x"⟩
      :: ⟨TokenType.OPERATOR, "="⟩ :: List.replicate 20000 ⟨TokenType.OPERATOR, "("⟩)
    exact ⟨r, d, hD, parseFrames_tower 20000 r d hD⟩

/-- C3, amended. Termination of the recognizer: on every token list, from every
start state, each of the mutually recursive rules is a total function of the
token list and the start state: it returns a final state as soon as the fuel
is at least `fuelFor` (linear in the tokens left), and the only effect besides
moving the cursor is the list of diagnostics in the returned state. Run on a
call stack, `Parser::parse` needs at most `3 * length + 4` frames, so it
returns that same state whenever the stack holds that many; nesting deeper
than the stack holds is not covered. -/
theorem parser_terminates (tokens : List Token) (p : Parser) (fuel capacity : Nat)
    (hfuel : fuelFor tokens p.currentTokenIndex ≤ fuel)
    (hcap : 3 * tokens.length + 4 ≤ capacity) :
    (∃ r, parse tokens = some r ∧ parseOnStack capacity tokens = some r)
    ∧ (∃ r d, parseFrames tokens = some (r, d) ∧ d ≤ 3 * tokens.length + 4)
    ∧ (∃ r, program tokens fuel p = some r)
    ∧ (∃ r, statement tokens fuel p = some r)
    ∧ (∃ r, assignment tokens fuel p = some r)
    ∧ (∃ r, conditional tokens fuel p = some r)
    ∧ (∃ r, printStatement tokens fuel p = some r)
    ∧ (∃ r, expression tokens fuel p = some r)
    ∧ (∃ r, term tokens fuel p = some r)
    ∧ (∃ r, factor tokens fuel p = some r) := by
  unfold fuelFor at hfuel
  refine ⟨?_, ?_, ?_, ?_, ?_, ?_, ?_, ?_, ?_, ?_⟩
  · obtain ⟨r, d, _, hp, _, _⟩ := parseFrames_total tokens
    exact ⟨r, hp, by rw [parseOnStack_of_capacity capacity tokens hcap, hp]⟩
  · obtain ⟨r, d, hD, _, _, hd⟩ := parseFrames_total tokens
    exact ⟨r, d, hD, hd⟩
  · obtain ⟨r, h, _⟩ := (stmt_rules_total tokens fuel).1 p (by omega)
    exact ⟨r, h⟩
  · obtain ⟨r, h, _⟩ := (stmt_rules_total tokens fuel).2.1 p (by omega)
    exact ⟨r, h⟩
  · obtain ⟨r, h, _⟩ := assignment_total tokens fuel p (by omega)
    exact ⟨r, h⟩
  · obtain ⟨r, h, _⟩ := (stmt_rules_total tokens fuel).2.2 p (by omega)
    exact ⟨r, h⟩
  · obtain ⟨r, h, _⟩ := printStatement_total tokens fuel p (by omega)
    exact ⟨r, h⟩
  · obtain ⟨r, h, _⟩ := expression_total tokens fuel p (by omega)
    exact ⟨r, h⟩
  · obtain ⟨r, h, _⟩ := (expr_rules_total tokens fuel).2.2.1 p (by omega)
    exact ⟨r, h⟩
  · obtain ⟨r, h, _⟩ := (expr_rules_total tokens fuel).1 p (by omega)
    exact ⟨r, h⟩

theorem parser_terminates_witness :
    fuelFor [⟨TokenType.KEYWORD, "if"⟩, ⟨TokenType.OPERATOR, "("⟩, ⟨TokenType.OPERATOR, "("⟩]
        (Parser.mk 0 []).currentTokenIndex ≤ 32
    ∧ 3 * [(⟨TokenType.KEYWORD, "if"⟩ : Token), ⟨TokenType.OPERATOR, "("⟩,
          ⟨TokenType.OPERATOR, "("⟩].length + 4 ≤ 13
    ∧ ((∃ r, parse [⟨TokenType.KEYWORD, "if"⟩, ⟨TokenType.OPERATOR, "("⟩,
            ⟨TokenType.OPERATOR, "("⟩] = some r
          ∧ parseOnStack 13 [⟨TokenType.KEYWORD, "if"⟩, ⟨TokenType.OPERATOR, "("⟩,
            ⟨TokenType.OPERATOR, "("⟩] = some r)
      ∧ (∃ r d, parseFrames [⟨TokenType.KEYWORD, "if"⟩, ⟨TokenType.OPERATOR, "("⟩,
            ⟨TokenType.OPERATOR, "("⟩] = some (r, d)
          ∧ d ≤ 3 * [(⟨TokenType.KEYWORD, "if"⟩ : Token), ⟨TokenType.OPERATOR, "("⟩,
            ⟨TokenType.OPERATOR, "("⟩].length + 4)
      ∧ (∃ r, program [⟨TokenType.KEYWORD, "if"⟩, ⟨TokenType.OPERATOR, "("⟩,
          ⟨TokenType.OPERATOR, "("⟩] 32 ⟨0, []⟩ = some r)
      ∧ (∃ r, statement [⟨TokenType.KEYWORD, "if"⟩, ⟨TokenType.OPERATOR, "("⟩,
          ⟨TokenType.OPERATOR, "("⟩] 32 ⟨0, []⟩ = some r)
      ∧ (∃ r, assignment [⟨TokenType.KEYWORD, "if"⟩, ⟨TokenType.OPERATOR, "("⟩,
          ⟨TokenType.OPERATOR, "("⟩] 32 ⟨0, []⟩ = some r)
      ∧ (∃ r, conditional [⟨TokenType.KEYWORD, "if"⟩, ⟨TokenType.OPERATOR, "("⟩,
          ⟨TokenType.OPERATOR, "("⟩] 32 ⟨0, []⟩ = some r)
      ∧ (∃ r, printStatement [⟨TokenType.KEYWORD, "if"⟩, ⟨TokenType.OPERATOR, "("⟩,
          ⟨TokenType.OPERATOR, "("⟩] 32 ⟨0, []⟩ = some r)
      ∧ (∃ r, expression [⟨TokenType.KEYWORD, "if"⟩, ⟨TokenType.OPERATOR, "("⟩,
          ⟨TokenType.OPERATOR, "("⟩] 32 ⟨0, []⟩ = some r)
      ∧ (∃ r, term [⟨TokenType.KEYWORD, "if"⟩, ⟨TokenType.OPERATOR, "("⟩,
          ⟨TokenType.OPERATOR, "("⟩] 32 ⟨0, []⟩ = some r)
      ∧ (∃ r, factor [⟨TokenType.KEYWORD, "if"⟩, ⟨TokenType.OPERATOR, "("⟩,
          ⟨TokenType.OPERATOR, "("⟩] 32 ⟨0, []⟩ = some r)) :=
  ⟨by decide, by decide, parser_terminates _ _ 32 13 (by decide) (by decide)⟩
end MiniLang
